import Mathlib

/-!
Verification of the `numeral` Python module (integer ↔ numeral conversions).

Strings are modelled as `List Char` (a Python `str` is a sequence of code
points).  Python's `str.strip` / `str.upper` builtins are modelled for the
character repertoire the module manipulates (ASCII plus the Unicode Roman
numeral block); fallible functions return `Except`, and loops whose
termination is part of what we verify are written with explicit fuel, with
`none` denoting a run that did not finish within the given fuel.
-/

namespace Numeral

/-- Whitespace predicate used to model Python `str.strip`: the full set of
code points CPython's `str.strip()` / `str.isspace()` treat as whitespace
(`Py_UNICODE_ISSPACE`): `\t \n \v \f \r` (U+0009–U+000D), the separators
U+001C–U+001F, the space U+0020, U+0085, U+00A0, U+1680, U+2000–U+200A,
U+2028, U+2029, U+202F, U+205F and U+3000. -/
def pyIsSpace (c : Char) : Bool :=
  (0x09 ≤ c.toNat && c.toNat ≤ 0x0D) || c.toNat = 0x20 ||
    (0x1C ≤ c.toNat && c.toNat ≤ 0x1F) || c.toNat = 0x85 || c.toNat = 0xA0 ||
    c.toNat = 0x1680 || (0x2000 ≤ c.toNat && c.toNat ≤ 0x200A) ||
    c.toNat = 0x2028 || c.toNat = 0x2029 || c.toNat = 0x202F ||
    c.toNat = 0x205F || c.toNat = 0x3000

/-- Model of Python `text.strip()`: remove leading and trailing whitespace. -/
def pyStrip (s : List Char) : List Char :=
  ((s.dropWhile pyIsSpace).reverse.dropWhile pyIsSpace).reverse

/-- Errors raised by the module (Python `ValueError` / `NotImplementedError` /
`TypeError`), one constructor per distinct raise site kind. -/
inductive PyErr where
  /-- `ValueError`: the negative sign is a token / occurs in the alphabet. -/
  | signInTokens
  /-- `ValueError`: negative sign present but not the first character. -/
  | signMisplaced
  /-- `ValueError`: text contains characters outside the token set. -/
  | invalidChars
  /-- `ValueError` in `roman2int`: the zero symbol occurs together with other symbols. -/
  | zeroWithOthers
  /-- `NotImplementedError` in `roman2int`: Claudian/apostrophus large-number text. -/
  | unsupported
  /-- `ValueError` in `roman2int`: strict-mode grammar mismatch. -/
  | formatInvalid
  /-- `ValueError` in `int2roman`: negative number without the `signed` option. -/
  | needsSigned
  /-- `ValueError` in `int2roman`: zero or large number without the `extended` option. -/
  | needsExtended
  /-- `TypeError` in `int2roman`: `prev_key` is still `None` when the
  backtracking branch concatenates it (unreachable for the inputs we cover). -/
  | noPrevKey
deriving DecidableEq, Repr

/-- Decidable equality for `Except` values (not provided by the core library). -/
instance {ε α : Type} [DecidableEq ε] [DecidableEq α] : DecidableEq (Except ε α) := fun x y =>
  match x, y with
  | .ok a, .ok b => if h : a = b then isTrue (by rw [h]) else isFalse (by simp [h])
  | .error a, .error b => if h : a = b then isTrue (by rw [h]) else isFalse (by simp [h])
  | .ok _, .error _ => isFalse (by simp)
  | .error _, .ok _ => isFalse (by simp)

/-! ## Bijective base-k codec (`int2tokens` / `tokens2int`, `letter2int`) -/

/-- Loop of `int2tokens`, with structural fuel so that the kernel can
evaluate it (the first argument strictly decreases at every step, so
`n + 1` fuel always suffices and the `[]` fallback is unreachable). -/
def int2tokensGo (tokens : List (List Char)) : Nat → Nat → List Char
  | 0, _ => []
  | fuel + 1, n =>
    (if n / tokens.length = 0 then []
     else int2tokensGo tokens fuel (n / tokens.length - 1))
      ++ tokens.getD (n % tokens.length) []

/-- Loop of `int2tokens`: `while num >= 0: text = tokens[num % k] + text;
num = num // k - 1`.  The recursion prepends the higher-order digits, i.e.
the first emitted token (for `num % k`) ends up rightmost, exactly as the
Python loop builds `text`. -/
def int2tokensLoop (tokens : List (List Char)) (n : Nat) : List Char :=
  int2tokensGo tokens (n + 1) n

/-- Model of `int2tokens(num, tokens, negative_sign)`.  Python raises
`ZeroDivisionError` on an empty token set (`num % len(tokens)`), modelled by
`none`; otherwise the function cannot fail. -/
def int2tokens (num : Int) (tokens : List (List Char)) (negSign : Char) :
    Option (List Char) :=
  if tokens.length = 0 then none
  else if num < 0 then some (negSign :: int2tokensLoop tokens num.natAbs)
  else some (int2tokensLoop tokens num.toNat)

/-- State of the `tokens2int` scan loop: remaining text, digit position `i`,
accumulator `num` and the `found` flag. -/
structure T2IState where
  text : List Char
  i : Nat
  num : Nat
  found : Bool
deriving DecidableEq, Repr

/-- Python `text[:-len(token)]`.  For an empty token this is `text[:-0]`,
which Python evaluates as `text[:0] = ''`. -/
def t2iStrip (text : List Char) (tok : List Char) : List Char :=
  if tok.length = 0 then [] else text.take (text.length - tok.length)

/-- One traversal of the `for j, token in enumerate(tokens)` body of
`tokens2int`, starting at index `j`; `k` is `len(tokens)`.  Note the Python
loop has no `break`: after a successful suffix match the scan continues with
the next tokens against the shortened text. -/
def t2iPass (k : Nat) : List (List Char) → Nat → T2IState → T2IState
  | [], _, s => s
  | tok :: toks, j, s =>
    if tok.isSuffixOf s.text then
      t2iPass k toks (j + 1)
        { text := t2iStrip s.text tok
          i := s.i + 1
          num := s.num + (j + (if s.i = 0 then 0 else 1)) * k ^ s.i
          found := true }
    else
      t2iPass k toks (j + 1) s

/-- The `while text or not found` loop of `tokens2int`, with explicit fuel
(the loop need not terminate; `none` means the fuel ran out). -/
def t2iLoop (tokens : List (List Char)) : Nat → T2IState → Option Nat
  | 0, _ => none
  | fuel + 1, s =>
    if s.text ≠ [] ∨ s.found = false then
      t2iLoop tokens fuel (t2iPass tokens.length tokens 0 { s with found := false })
    else
      some s.num

/-- Characters available in the token set: `set(''.join(tokens))`. -/
def tokensChars (tokens : List (List Char)) : List Char :=
  tokens.flatten

/-- Model of `tokens2int(text, tokens, negative_sign)`.  The outer `Option`
is the fuel of the scan loop (a terminating run strips at least one
character per iteration, so `text.length + 1` iterations always suffice);
`none` means the Python loop does not terminate that quickly (for the
diverging inputs exhibited below, it never terminates). -/
def tokens2int (text0 : List Char) (tokens : List (List Char)) (negSign : Char) :
    Option (Except PyErr Int) :=
  let text := pyStrip text0
  if [negSign] ∈ tokens then some (.error .signInTokens)
  else if negSign ∈ text ∧ text.head? ≠ some negSign then some (.error .signMisplaced)
  else
    let sgn : Int := if negSign ∈ text then -1 else 1
    let text := if negSign ∈ text then text.tail else text
    if text.all (tokensChars tokens).contains then
      (t2iLoop tokens (text.length + 1) ⟨text, 0, 0, true⟩).map fun n => .ok (sgn * n)
    else
      some (.error .invalidChars)

/-- Divergence of the `tokens2int` scan loop on given (already sign-stripped
and validated) text: no amount of fuel finishes it. -/
def t2iDiverges (text : List Char) (tokens : List (List Char)) : Prop :=
  ∀ fuel, t2iLoop tokens fuel ⟨text, 0, 0, true⟩ = none

/-- Value loop of `letter2int`:
`for i, letter in enumerate(text[::-1]): num += (alphabet.index(letter) + offset) * len(alphabet) ** i`.
The argument list is the reversed text. -/
def letterValAux (alphabet : List Char) : Nat → List Char → Nat
  | _, [] => 0
  | i, c :: rest =>
      (alphabet.findIdx (fun a => a == c) + (if i = 0 then 0 else 1))
          * alphabet.length ^ i
        + letterValAux alphabet (i + 1) rest

/-- Model of `letter2int(text, alphabet, negative_sign)`. -/
def letter2int (text0 : List Char) (alphabet : List Char) (negSign : Char) :
    Except PyErr Int :=
  let text := pyStrip text0
  if negSign ∈ alphabet then .error .signInTokens
  else if negSign ∈ text ∧ text.head? ≠ some negSign then .error .signMisplaced
  else
    let sgn : Int := if negSign ∈ text then -1 else 1
    let text := if negSign ∈ text then text.tail else text
    if text.all alphabet.contains then
      .ok (sgn * letterValAux alphabet 0 text.reverse)
    else
      .error .invalidChars

/-- The default alphabet `string.ascii_lowercase`. -/
def asciiLowercase : List Char :=
  ['a', 'b', 'c', 'd', 'e', 'f', 'g', 'h', 'i', 'j', 'k', 'l', 'm',
   'n', 'o', 'p', 'q', 'r', 's', 't', 'u', 'v', 'w', 'x', 'y', 'z']

/-! ## Correctness infrastructure for the bijective codec -/

/-- Well-behaved token sets: nonempty tokens, no duplicates, and no token a
suffix of another (so that at each step of the right-to-left scan exactly one
token matches). -/
def goodTokens (tokens : List (List Char)) : Prop :=
  (∀ t ∈ tokens, t ≠ []) ∧ tokens.Nodup ∧
    ∀ a ∈ tokens, ∀ b ∈ tokens, a ≠ b → ¬ a <:+ b

/-- Text denoted by a least-significant-first digit list: the digit `d` of
`d :: rs` contributes the rightmost token. -/
def buildText (tokens : List (List Char)) : List Nat → List Char
  | [] => []
  | d :: rs => buildText tokens rs ++ tokens.getD d []

/-- Fuelled form of `digitsRev` (the fuel strictly decreases, so `n + 1`
always suffices). -/
def digitsRevGo (k : Nat) : Nat → Nat → List Nat
  | 0, _ => []
  | fuel + 1, n => n % k :: (if n / k = 0 then [] else digitsRevGo k fuel (n / k - 1))

/-- Least-significant-first digits produced by the `int2tokens` loop. -/
def digitsRev (k : Nat) (n : Nat) : List Nat :=
  digitsRevGo k (n + 1) n

theorem digitsRevGo_congr (k : Nat) :
    ∀ f₁ f₂ n, n < f₁ → n < f₂ → digitsRevGo k f₁ n = digitsRevGo k f₂ n := by
  intro f₁
  induction f₁ with
  | zero => intro f₂ n h; omega
  | succ f₁ ih =>
    intro f₂ n h₁ h₂
    match f₂, h₂ with
    | f₂ + 1, h₂ =>
      simp only [digitsRevGo]
      by_cases h0 : n / k = 0
      · simp [h0]
      · have hpos : 0 < n / k := Nat.pos_of_ne_zero h0
        have hle := Nat.div_le_self n k
        simp only [h0, if_false]
        rw [ih f₂ (n / k - 1) (by omega) (by omega)]

theorem digitsRev_eq (k n : Nat) :
    digitsRev k n = n % k :: (if n / k = 0 then [] else digitsRev k (n / k - 1)) := by
  show digitsRevGo k (n + 1) n = _
  simp only [digitsRevGo]
  by_cases h0 : n / k = 0
  · simp [h0]
  · have hpos : 0 < n / k := Nat.pos_of_ne_zero h0
    have hle := Nat.div_le_self n k
    simp only [h0, if_false]
    rw [digitsRevGo_congr k n (n / k - 1 + 1) (n / k - 1) (by omega) (by omega)]
    rfl

/-- Value of a least-significant-first digit list with every digit offset
by one (the bijective reading with no zero digit). -/
def bijValOne (k : Nat) : List Nat → Nat
  | [] => 0
  | d :: rs => (d + 1) + k * bijValOne k rs

/-- Value accumulated by the `tokens2int` scan from digit position `i` on:
offset 0 for the rightmost digit, offset 1 for all others. -/
def bijVal (k : Nat) : Nat → List Nat → Nat
  | _, [] => 0
  | i, d :: rs => (d + (if i = 0 then 0 else 1)) * k ^ i + bijVal k (i + 1) rs

theorem bijValOne_cons (k d : Nat) (rs : List Nat) :
    bijValOne k (d :: rs) = (d + 1) + k * bijValOne k rs := rfl

theorem bijVal_cons (k i d : Nat) (rs : List Nat) :
    bijVal k i (d :: rs) = (d + (if i = 0 then 0 else 1)) * k ^ i + bijVal k (i + 1) rs := rfl

theorem buildText_cons (tokens : List (List Char)) (d : Nat) (rs : List Nat) :
    buildText tokens (d :: rs) = buildText tokens rs ++ tokens.getD d [] := rfl

theorem div_eq_zero_lt {n k : Nat} (hk : 1 ≤ k) (h : n / k = 0) : n < k := by
  have hdm := Nat.div_add_mod n k
  rw [h, Nat.mul_zero, Nat.zero_add] at hdm
  have hmod : n % k < k := Nat.mod_lt n (by omega)
  omega

theorem digitsRev_bijValOne (k : Nat) (hk : 1 ≤ k) (n : Nat) :
    bijValOne k (digitsRev k n) = n + 1 := by
  induction n using Nat.strong_induction_on with
  | _ n ih =>
    rw [digitsRev_eq]
    by_cases h : n / k = 0
    · rw [if_pos h, bijValOne_cons]
      have hlt : n < k := div_eq_zero_lt hk h
      simp [bijValOne, Nat.mod_eq_of_lt hlt]
    · have hpos : 0 < n / k := Nat.pos_of_ne_zero h
      have hle := Nat.div_le_self n k
      rw [if_neg h, bijValOne_cons, ih _ (by omega)]
      have h2 : n / k - 1 + 1 = n / k := by omega
      rw [h2]
      have := Nat.mod_add_div n k
      omega

theorem bijVal_shift (k : Nat) (rs : List Nat) :
    ∀ i, bijVal k (i + 1) rs = k ^ (i + 1) * bijValOne k rs := by
  induction rs with
  | nil => intro i; simp [bijVal, bijValOne]
  | cons d rs ih =>
    intro i
    rw [bijVal_cons, bijValOne_cons, ih (i + 1), if_neg (Nat.succ_ne_zero i)]
    ring

theorem digitsRev_bijVal (k : Nat) (hk : 1 ≤ k) (n : Nat) :
    bijVal k 0 (digitsRev k n) = n := by
  rw [digitsRev_eq]
  by_cases h : n / k = 0
  · rw [if_pos h, bijVal_cons]
    have hlt : n < k := div_eq_zero_lt hk h
    simp [bijVal, Nat.mod_eq_of_lt hlt]
  · have hpos : 0 < n / k := Nat.pos_of_ne_zero h
    have hle := Nat.div_le_self n k
    rw [if_neg h, bijVal_cons, if_pos rfl, bijVal_shift, digitsRev_bijValOne k hk]
    have h2 : n / k - 1 + 1 = n / k := by omega
    rw [h2]
    simp only [pow_zero, Nat.zero_add, pow_one, Nat.mul_one, Nat.add_zero]
    have := Nat.mod_add_div n k
    omega

theorem digitsRev_lt (k : Nat) (hk : 1 ≤ k) (n : Nat) :
    ∀ d ∈ digitsRev k n, d < k := by
  induction n using Nat.strong_induction_on with
  | _ n ih =>
    rw [digitsRev_eq]
    intro d hd
    rcases List.mem_cons.mp hd with h | h
    · subst h; exact Nat.mod_lt _ (by omega)
    · by_cases h0 : n / k = 0
      · simp [h0] at h
      · have hpos : 0 < n / k := Nat.pos_of_ne_zero h0
        have hle := Nat.div_le_self n k
        rw [if_neg h0] at h
        exact ih _ (by omega) d h

theorem digitsRev_ne_nil (k n : Nat) : digitsRev k n ≠ [] := by
  rw [digitsRev_eq]; simp

theorem int2tokensGo_eq (tokens : List (List Char)) :
    ∀ fuel n, n < fuel →
      int2tokensGo tokens fuel n = buildText tokens (digitsRev tokens.length n) := by
  intro fuel
  induction fuel with
  | zero => intro n h; omega
  | succ fuel ih =>
    intro n h
    rw [int2tokensGo, digitsRev_eq, buildText_cons]
    by_cases h0 : n / tokens.length = 0
    · rw [if_pos h0, if_pos h0]
      rfl
    · have hpos : 0 < n / tokens.length := Nat.pos_of_ne_zero h0
      have hle := Nat.div_le_self n tokens.length
      rw [if_neg h0, if_neg h0, ih _ (by omega)]

theorem int2tokensLoop_eq (tokens : List (List Char)) (n : Nat) :
    int2tokensLoop tokens n = buildText tokens (digitsRev tokens.length n) :=
  int2tokensGo_eq tokens (n + 1) n (Nat.lt_succ_self n)

theorem tokens_ne_nil_of_suffixFree {tokens : List (List Char)}
    (h2 : 2 ≤ tokens.length) (hnd : tokens.Nodup)
    (hsf : ∀ a ∈ tokens, ∀ b ∈ tokens, a ≠ b → ¬ a <:+ b) :
    ∀ t ∈ tokens, t ≠ [] := by
  intro t ht hteq
  subst hteq
  match tokens, h2, hnd, hsf, ht with
  | a :: b :: rest, _, hnd, hsf, ht =>
    have hab : a ≠ b := by
      intro h
      subst h
      simp [List.nodup_cons] at hnd
    by_cases ha : a = []
    · subst ha
      exact hsf [] ht b (by simp) hab List.nil_suffix
    · exact hsf [] ht a (by simp) (fun h => ha h.symm) List.nil_suffix

theorem mem_tokensChars_of_getD {tokens : List (List Char)} {d : Nat} {c : Char}
    (hc : c ∈ tokens.getD d []) : c ∈ tokensChars tokens := by
  by_cases hd : d < tokens.length
  · rw [List.getD_eq_getElem tokens [] hd] at hc
    exact List.mem_flatten.mpr ⟨tokens[d], List.getElem_mem hd, hc⟩
  · rw [List.getD_eq_default tokens [] (by omega)] at hc
    simp at hc

theorem buildText_subset (tokens : List (List Char)) :
    ∀ rs, ∀ c ∈ buildText tokens rs, c ∈ tokensChars tokens := by
  intro rs
  induction rs with
  | nil => intro c hc; simp [buildText] at hc
  | cons d rs ih =>
    intro c hc
    rw [buildText_cons] at hc
    rcases List.mem_append.mp hc with h | h
    · exact ih c h
    · exact mem_tokensChars_of_getD h

theorem buildText_ne_nil {tokens : List (List Char)} (hne : ∀ t ∈ tokens, t ≠ [])
    {d : Nat} (hd : d < tokens.length) (rs : List Nat) :
    buildText tokens (d :: rs) ≠ [] := by
  rw [buildText_cons, List.getD_eq_getElem tokens [] hd]
  have : tokens[d] ≠ [] := hne _ (List.getElem_mem hd)
  simp [this]

theorem buildText_length {tokens : List (List Char)} (hne : ∀ t ∈ tokens, t ≠ []) :
    ∀ rs : List Nat, (∀ d ∈ rs, d < tokens.length) →
      rs.length ≤ (buildText tokens rs).length := by
  intro rs
  induction rs with
  | nil => simp
  | cons d rs ih =>
    intro hb
    have hd : d < tokens.length := hb d (List.mem_cons_self d rs)
    rw [buildText_cons, List.length_append, List.getD_eq_getElem tokens [] hd]
    have h1 : tokens[d] ≠ [] := hne _ (List.getElem_mem _)
    have h2 : 1 ≤ tokens[d].length := by
      cases hx : tokens[d] with
      | nil => exact absurd hx h1
      | cons y ys => simp
    have := ih fun d' hd' => hb d' (List.mem_cons_of_mem d hd')
    simp only [List.length_cons]
    omega

theorem t2iStrip_append (a b : List Char) (hb : b ≠ []) : t2iStrip (a ++ b) b = a := by
  rw [t2iStrip]
  have hlen : b.length ≠ 0 := by
    cases b with
    | nil => exact absurd rfl hb
    | cons y ys => simp
  rw [if_neg hlen, List.length_append]
  have : a.length + b.length - b.length = a.length := by omega
  rw [this, List.take_left]

/-- Under `goodTokens` a token is a suffix of `buildText (d :: rs)` exactly
when it is the token at index `d` (the rightmost one). -/
theorem only_last_matches {tokens : List (List Char)} (hg : goodTokens tokens)
    {d : Nat} (hd : d < tokens.length) (rs : List Nat) {j : Nat} (hj : j < tokens.length) :
    tokens[j] <:+ buildText tokens (d :: rs) ↔ j = d := by
  constructor
  · intro hsuf
    have hdsuf : tokens[d] <:+ buildText tokens (d :: rs) := by
      rw [buildText_cons, List.getD_eq_getElem tokens [] hd]
      exact List.suffix_append _ _
    by_cases heq : tokens[j] = tokens[d]
    · exact (List.Nodup.getElem_inj_iff hg.2.1).mp heq
    · rcases List.suffix_or_suffix_of_suffix hsuf hdsuf with h | h
      · exact absurd h (hg.2.2 _ (List.getElem_mem hj) _ (List.getElem_mem hd) heq)
      · exact absurd h (hg.2.2 _ (List.getElem_mem hd) _ (List.getElem_mem hj)
          fun hx => heq hx.symm)
  · intro h
    subst h
    rw [buildText_cons, List.getD_eq_getElem tokens [] hd]
    exact List.suffix_append _ _

theorem t2iPass_no_match (k : Nat) :
    ∀ toks : List (List Char), ∀ j : Nat, ∀ s : T2IState,
      (∀ t ∈ toks, ¬ t <:+ s.text) → t2iPass k toks j s = s := by
  intro toks
  induction toks with
  | nil => intro j s _; rfl
  | cons tok toks ih =>
    intro j s h
    rw [t2iPass]
    have hb : ¬ tok.isSuffixOf s.text = true := by
      rw [List.isSuffixOf_iff_suffix]
      exact h tok (List.mem_cons_self tok toks)
    rw [if_neg hb]
    exact ih (j + 1) s fun t ht => h t (List.mem_cons_of_mem tok ht)

/-- Result of one full scan over the token list on the text denoted by the
digit list `rs` (least significant first): remaining digits, new position,
new accumulator, new `found` flag. -/
def passSpec (k : Nat) : Nat → Nat → Nat → Bool → List Nat → List Nat × Nat × Nat × Bool
  | _, i, num, f, [] => ([], i, num, f)
  | j, i, num, f, d :: rs =>
    if j ≤ d then
      passSpec k (d + 1) (i + 1) (num + (d + (if i = 0 then 0 else 1)) * k ^ i) true rs
    else
      (d :: rs, i, num, f)

/-- State denoted by a `passSpec` result. -/
def passSpecState (tokens : List (List Char)) (j i num : Nat) (f : Bool) (rs : List Nat) :
    T2IState :=
  match passSpec tokens.length j i num f rs with
  | (rs', i', num', f') => ⟨buildText tokens rs', i', num', f'⟩

theorem t2iPass_walk {tokens : List (List Char)} (hg : goodTokens tokens)
    {d : Nat} (hd : d < tokens.length) (rs : List Nat) :
    ∀ m j i num f, j + m = d →
      t2iPass tokens.length (tokens.drop j) j ⟨buildText tokens (d :: rs), i, num, f⟩ =
        t2iPass tokens.length (tokens.drop (d + 1)) (d + 1)
          ⟨buildText tokens rs, i + 1,
            num + (d + (if i = 0 then 0 else 1)) * tokens.length ^ i, true⟩ := by
  intro m
  induction m with
  | zero =>
    intro j i num f hj
    have hjd : d = j := by omega
    subst hjd
    rw [List.drop_eq_getElem_cons hd, t2iPass]
    have hmatch : tokens[d].isSuffixOf (buildText tokens (d :: rs)) = true := by
      rw [List.isSuffixOf_iff_suffix]
      exact (only_last_matches hg hd rs hd).mpr rfl
    rw [if_pos hmatch]
    have hstrip : t2iStrip (buildText tokens (d :: rs)) tokens[d] = buildText tokens rs := by
      rw [buildText_cons, List.getD_eq_getElem tokens [] hd]
      exact t2iStrip_append _ _ (hg.1 _ (List.getElem_mem hd))
    rw [hstrip]
  | succ m ih =>
    intro j i num f hj
    have hjlt : j < tokens.length := by omega
    rw [List.drop_eq_getElem_cons hjlt, t2iPass]
    have hnomatch : ¬ tokens[j].isSuffixOf (buildText tokens (d :: rs)) = true := by
      rw [List.isSuffixOf_iff_suffix, only_last_matches hg hd rs hjlt]
      omega
    rw [if_neg hnomatch]
    exact ih (j + 1) i num f (by omega)

theorem t2iPass_spec {tokens : List (List Char)} (hg : goodTokens tokens) :
    ∀ rs : List Nat, (∀ d' ∈ rs, d' < tokens.length) →
    ∀ j i num f, j ≤ tokens.length →
      t2iPass tokens.length (tokens.drop j) j ⟨buildText tokens rs, i, num, f⟩ =
        passSpecState tokens j i num f rs := by
  intro rs
  induction rs with
  | nil =>
    intro _ j i num f _
    rw [passSpecState]
    show t2iPass tokens.length (tokens.drop j) j ⟨buildText tokens [], i, num, f⟩ =
      ⟨buildText tokens [], i, num, f⟩
    apply t2iPass_no_match
    intro t ht hsuf
    have hnil : t = [] := List.suffix_nil.mp (by simpa [buildText] using hsuf)
    exact hg.1 t ((List.drop_suffix j tokens).mem ht) hnil
  | cons d rs ih =>
    intro hb j i num f hj
    have hd : d < tokens.length := hb d (List.mem_cons_self d rs)
    by_cases hjd : j ≤ d
    · rw [t2iPass_walk hg hd rs (d - j) j i num f (by omega)]
      rw [passSpecState, passSpec, if_pos hjd]
      exact ih (fun d' hd' => hb d' (List.mem_cons_of_mem d hd')) (d + 1) (i + 1) _ true
        (by omega)
    · rw [passSpecState, passSpec, if_neg hjd]
      apply t2iPass_no_match
      intro t ht hsuf
      rcases List.mem_iff_getElem.mp ht with ⟨m, hm, hEq⟩
      subst hEq
      have hjm : j + m < tokens.length := by
        have := List.length_drop j tokens
        omega
      rw [List.getElem_drop tokens] at hsuf
      have := (only_last_matches hg hd rs hjm).mp hsuf
      omega

theorem passSpec_found_true (k : Nat) :
    ∀ rs j i num, (passSpec k j i num true rs).2.2.2 = true := by
  intro rs
  induction rs with
  | nil => intro j i num; rfl
  | cons d rs ih =>
    intro j i num
    rw [passSpec]
    by_cases hjd : j ≤ d
    · rw [if_pos hjd]; exact ih _ _ _
    · rw [if_neg hjd]

theorem passSpec_invariant (k : Nat) :
    ∀ rs j i num f,
      (passSpec k j i num f rs).2.2.1 +
          bijVal k (passSpec k j i num f rs).2.1 (passSpec k j i num f rs).1 =
        num + bijVal k i rs := by
  intro rs
  induction rs with
  | nil => intro j i num f; simp [passSpec, bijVal]
  | cons d rs ih =>
    intro j i num f
    rw [passSpec]
    by_cases hjd : j ≤ d
    · rw [if_pos hjd, ih, bijVal_cons]
      omega
    · rw [if_neg hjd]

theorem passSpec_sub (k : Nat) :
    ∀ rs j i num f, ∀ d' ∈ (passSpec k j i num f rs).1, d' ∈ rs := by
  intro rs
  induction rs with
  | nil => intro j i num f d' hd'; simp [passSpec] at hd'
  | cons d rs ih =>
    intro j i num f d' hd'
    rw [passSpec] at hd'
    by_cases hjd : j ≤ d
    · rw [if_pos hjd] at hd'
      exact List.mem_cons_of_mem d (ih _ _ _ _ d' hd')
    · rw [if_neg hjd] at hd'
      exact hd'

theorem passSpec_len (k : Nat) :
    ∀ rs j i num f, (passSpec k j i num f rs).1.length ≤ rs.length := by
  intro rs
  induction rs with
  | nil => intro j i num f; simp [passSpec]
  | cons d rs ih =>
    intro j i num f
    rw [passSpec]
    by_cases hjd : j ≤ d
    · rw [if_pos hjd]
      have := ih (d + 1) (i + 1) (num + (d + (if i = 0 then 0 else 1)) * k ^ i) true
      simp only [List.length_cons]
      omega
    · rw [if_neg hjd]

theorem t2iLoop_spec {tokens : List (List Char)} (hg : goodTokens tokens) :
    ∀ L rs, rs.length ≤ L → (∀ d ∈ rs, d < tokens.length) →
      ∀ fuel i num, rs.length < fuel →
        t2iLoop tokens fuel ⟨buildText tokens rs, i, num, true⟩ =
          some (num + bijVal tokens.length i rs) := by
  intro L
  induction L with
  | zero =>
    intro rs hL _ fuel i num hfuel
    have hrs : rs = [] := List.length_eq_zero.mp (by omega)
    subst hrs
    match fuel, hfuel with
    | fuel + 1, _ =>
      rw [t2iLoop]
      rw [if_neg (by simp [buildText])]
      simp [bijVal]
  | succ L ih =>
    intro rs hL hb fuel i num hfuel
    match rs, hb with
    | [], hb =>
      match fuel, hfuel with
      | fuel + 1, _ =>
        rw [t2iLoop]
        rw [if_neg (by simp [buildText])]
        simp [bijVal]
    | d :: rs, hb =>
      have hd : d < tokens.length := hb d (List.mem_cons_self d rs)
      match fuel, hfuel with
      | fuel + 1, hfuel =>
        rw [t2iLoop]
        rw [if_pos (Or.inl (buildText_ne_nil hg.1 hd rs))]
        have hpass : t2iPass tokens.length tokens 0
            ⟨buildText tokens (d :: rs), i, num, false⟩ =
              passSpecState tokens 0 i num false (d :: rs) := by
          have := t2iPass_spec hg (d :: rs) hb 0 i num false (by omega)
          rwa [List.drop_zero] at this
        show t2iLoop tokens fuel (t2iPass tokens.length tokens 0
            ⟨buildText tokens (d :: rs), i, num, false⟩) =
          some (num + bijVal tokens.length i (d :: rs))
        rw [hpass]
        rw [passSpecState, passSpec, if_pos (Nat.zero_le d)]
        set num' := num + (d + (if i = 0 then 0 else 1)) * tokens.length ^ i with hnum'
        rcases hres : passSpec tokens.length (d + 1) (i + 1) num' true rs with ⟨rs', i', num'', f'⟩
        have hf' : f' = true := by
          have := passSpec_found_true tokens.length rs (d + 1) (i + 1) num'
          rw [hres] at this
          exact this
        subst hf'
        have hsub : ∀ d' ∈ rs', d' ∈ rs := by
          have := passSpec_sub tokens.length rs (d + 1) (i + 1) num' true
          rw [hres] at this
          exact this
        have hlen : rs'.length ≤ rs.length := by
          have := passSpec_len tokens.length rs (d + 1) (i + 1) num' true
          rw [hres] at this
          exact this
        have hrec := ih rs' (by simp only [List.length_cons] at hL; omega)
          (fun d' hd' => hb d' (List.mem_cons_of_mem d (hsub d' hd')))
          fuel i' num'' (by simp only [List.length_cons] at hfuel; omega)
        rw [hrec]
        have hinv : num'' + bijVal tokens.length i' rs' = num' + bijVal tokens.length (i + 1) rs := by
          have := passSpec_invariant tokens.length rs (d + 1) (i + 1) num' true
          rw [hres] at this
          exact this
        rw [hinv, bijVal_cons, hnum']
        congr 1
        omega

theorem dropWhile_eq_self_of {p : Char → Bool} {s : List Char}
    (h : ∀ c ∈ s, p c = false) : s.dropWhile p = s := by
  cases s with
  | nil => rfl
  | cons c rest =>
    rw [List.dropWhile_cons, h c (List.mem_cons_self c rest)]
    simp

theorem pyStrip_eq_self {s : List Char} (h : ∀ c ∈ s, pyIsSpace c = false) :
    pyStrip s = s := by
  rw [pyStrip, dropWhile_eq_self_of h, dropWhile_eq_self_of
    (fun c hc => h c (List.mem_reverse.mp hc)), List.reverse_reverse]

theorem tokensChars_spec {tokens : List (List Char)} {c : Char}
    (hc : c ∈ tokensChars tokens) : ∃ t ∈ tokens, c ∈ t :=
  List.mem_flatten.mp hc

/-- Decoding a concatenation of tokens yields its bijective value: this is
both the heart of the round-trip theorem and the termination statement for
`tokens2int` on well-formed input (the scan finishes within the default
fuel). -/
theorem tokens2int_concat {tokens : List (List Char)}
    (hne : ∀ t ∈ tokens, t ≠ []) (hnd : tokens.Nodup)
    (hsf : ∀ a ∈ tokens, ∀ b ∈ tokens, a ≠ b → ¬ a <:+ b)
    (hdash : ∀ t ∈ tokens, '-' ∉ t)
    (hws : ∀ t ∈ tokens, ∀ c ∈ t, pyIsSpace c = false)
    (ds : List Nat) (hds : ∀ d ∈ ds, d < tokens.length) :
    tokens2int (buildText tokens ds) tokens '-' =
      some (.ok (bijVal tokens.length 0 ds)) := by
  have hg : goodTokens tokens := ⟨hne, hnd, hsf⟩
  have hchar : ∀ c ∈ tokensChars tokens, c ≠ '-' ∧ pyIsSpace c = false := by
    intro c hc
    rcases tokensChars_spec hc with ⟨t, ht, hct⟩
    exact ⟨fun h => hdash t ht (h ▸ hct), hws t ht c hct⟩
  have hsub : ∀ c ∈ buildText tokens ds, c ∈ tokensChars tokens :=
    buildText_subset tokens ds
  have hstrip : pyStrip (buildText tokens ds) = buildText tokens ds :=
    pyStrip_eq_self fun c hc => (hchar c (hsub c hc)).2
  have hA : ¬ (['-'] ∈ tokens) := by
    intro h
    exact hdash ['-'] h (List.mem_singleton.mpr rfl)
  have hB : ¬ ('-' ∈ buildText tokens ds) := by
    intro h
    exact (hchar '-' (hsub '-' h)).1 rfl
  have hall : (buildText tokens ds).all (tokensChars tokens).contains = true := by
    rw [List.all_eq_true]
    intro c hc
    exact List.elem_eq_true_of_mem (hsub c hc)
  unfold tokens2int
  simp only [hstrip, if_neg hA, if_neg (fun h : _ ∧ _ => hB h.1), if_neg hB, hall, if_pos]
  rw [t2iLoop_spec hg ds.length ds (le_refl _) hds _ 0 0
    (by have := buildText_length hne ds hds; omega)]
  simp

/-- Variant of `tokens2int_concat` for a sign-prefixed concatenation. -/
theorem tokens2int_concat_neg {tokens : List (List Char)}
    (hne : ∀ t ∈ tokens, t ≠ []) (hnd : tokens.Nodup)
    (hsf : ∀ a ∈ tokens, ∀ b ∈ tokens, a ≠ b → ¬ a <:+ b)
    (hdash : ∀ t ∈ tokens, '-' ∉ t)
    (hws : ∀ t ∈ tokens, ∀ c ∈ t, pyIsSpace c = false)
    (ds : List Nat) (hds : ∀ d ∈ ds, d < tokens.length) :
    tokens2int ('-' :: buildText tokens ds) tokens '-' =
      some (.ok (-(bijVal tokens.length 0 ds : Int))) := by
  have hg : goodTokens tokens := ⟨hne, hnd, hsf⟩
  have hchar : ∀ c ∈ tokensChars tokens, c ≠ '-' ∧ pyIsSpace c = false := by
    intro c hc
    rcases tokensChars_spec hc with ⟨t, ht, hct⟩
    exact ⟨fun h => hdash t ht (h ▸ hct), hws t ht c hct⟩
  have hsub : ∀ c ∈ buildText tokens ds, c ∈ tokensChars tokens :=
    buildText_subset tokens ds
  have hstrip : pyStrip ('-' :: buildText tokens ds) = '-' :: buildText tokens ds := by
    apply pyStrip_eq_self
    intro c hc
    rcases List.mem_cons.mp hc with h | h
    · subst h; decide
    · exact (hchar c (hsub c h)).2
  have hA : ¬ (['-'] ∈ tokens) := by
    intro h
    exact hdash ['-'] h (List.mem_singleton.mpr rfl)
  have hmem : '-' ∈ '-' :: buildText tokens ds := List.mem_cons_self _ _
  have hhead : ('-' :: buildText tokens ds).head? = some '-' := rfl
  have hall : (buildText tokens ds).all (tokensChars tokens).contains = true := by
    rw [List.all_eq_true]
    intro c hc
    exact List.elem_eq_true_of_mem (hsub c hc)
  have hcond : ¬('-' ∈ '-' :: buildText tokens ds ∧
      ('-' :: buildText tokens ds).head? ≠ some '-') := fun h => h.2 hhead
  unfold tokens2int
  simp only [hstrip, if_neg hA, hhead, List.tail_cons,
    if_neg hcond, if_pos hmem, hall, if_pos]
  rw [t2iLoop_spec hg ds.length ds (le_refl _) hds _ 0 0
    (by have := buildText_length hne ds hds; omega)]
  simp

/-- Full round trip for the bijective codec over suffix-free token sets with
no whitespace and no sign character inside the tokens. -/
theorem bij_roundtrip {tokens : List (List Char)}
    (h2 : 2 ≤ tokens.length) (hnd : tokens.Nodup)
    (hsf : ∀ a ∈ tokens, ∀ b ∈ tokens, a ≠ b → ¬ a <:+ b)
    (hdash : ∀ t ∈ tokens, '-' ∉ t)
    (hws : ∀ t ∈ tokens, ∀ c ∈ t, pyIsSpace c = false)
    (n : Int) :
    ∃ text, int2tokens n tokens '-' = some text ∧
      tokens2int text tokens '-' = some (.ok n) := by
  have hne : ∀ t ∈ tokens, t ≠ [] := tokens_ne_nil_of_suffixFree h2 hnd hsf
  have hk : 1 ≤ tokens.length := by omega
  have hds := digitsRev_lt tokens.length hk
  by_cases hn : n < 0
  · refine ⟨'-' :: int2tokensLoop tokens n.natAbs, ?_, ?_⟩
    · unfold int2tokens
      rw [if_neg (by omega), if_pos hn]
    · rw [int2tokensLoop_eq,
        tokens2int_concat_neg hne hnd hsf hdash hws _ (hds n.natAbs),
        digitsRev_bijVal tokens.length hk]
      congr 1
      congr 1
      omega
  · refine ⟨int2tokensLoop tokens n.toNat, ?_, ?_⟩
    · unfold int2tokens
      rw [if_neg (by omega), if_neg hn]
    · rw [int2tokensLoop_eq,
        tokens2int_concat hne hnd hsf hdash hws _ (hds n.toNat),
        digitsRev_bijVal tokens.length hk]
      congr 1
      congr 1
      omega

theorem t2iLoop_b_stuck : ∀ fuel (f : Bool),
    t2iLoop [['a', 'b']] fuel ⟨['b'], 0, 0, f⟩ = none := by
  intro fuel
  induction fuel with
  | zero => intro f; rfl
  | succ fuel ih =>
    intro f
    rw [t2iLoop, if_pos (Or.inl (by simp))]
    show t2iLoop [['a', 'b']] fuel (t2iPass 1 [['a', 'b']] 0 ⟨['b'], 0, 0, false⟩) = none
    have hp : t2iPass 1 [['a', 'b']] 0 ⟨['b'], 0, 0, false⟩ = ⟨['b'], 0, 0, false⟩ := by rfl
    rw [hp]
    exact ih false

/-! ## Roman numerals: tables and string helpers -/

/-- Model of Python `str.upper` on the characters the module manipulates:
ASCII letters, the Unicode Roman numerals U+2170–U+217F (uppercased by
subtracting 16) and the small reversed C U+2184; other characters are left
unchanged. -/
def pyUpper (c : Char) : Char :=
  if 97 ≤ c.toNat ∧ c.toNat ≤ 122 then Char.ofNat (c.toNat - 32)
  else if 0x2170 ≤ c.toNat ∧ c.toNat ≤ 0x217F then Char.ofNat (c.toNat - 16)
  else if c = 'ↄ' then 'Ↄ'
  else c

/-- Model of Python `str.lower` on the same repertoire. -/
def pyLower (c : Char) : Char :=
  if 65 ≤ c.toNat ∧ c.toNat ≤ 90 then Char.ofNat (c.toNat + 32)
  else if 0x2160 ≤ c.toNat ∧ c.toNat ≤ 0x216F then Char.ofNat (c.toNat + 16)
  else if c = 'Ↄ' then 'ↄ'
  else c

/-- One `str.replace(pat, rep)` pass, replacing non-overlapping occurrences
left to right; fuelled for kernel evaluation (each step consumes at least
one character when `pat` is nonempty, so `length + 1` fuel suffices). -/
def pyReplaceGo (pat rep : List Char) : Nat → List Char → List Char
  | 0, s => s
  | fuel + 1, s =>
    match s with
    | [] => []
    | c :: rest =>
      if pat.isPrefixOf (c :: rest) then
        rep ++ pyReplaceGo pat rep fuel ((c :: rest).drop pat.length)
      else
        c :: pyReplaceGo pat rep fuel rest

/-- Model of Python `text.replace(pat, rep)` (all the patterns the module
uses are nonempty; an empty pattern is treated as a no-op). -/
def pyReplace (s pat rep : List Char) : List Char :=
  if pat = [] then s else pyReplaceGo pat rep (s.length + 1) s

/-- Model of `multi_replace(text, replaces)`:
`functools.reduce(lambda s, r: s.replace(*r), replaces, text)`. -/
def multiReplace (s : List Char) (rs : List (List Char × List Char)) : List Char :=
  rs.foldl (fun acc r => pyReplace acc r.1 r.2) s

/-- `_ROMAN_UNICODE_R` in its Python iteration order.  It is built from
`_ROMAN_UNICODE` by sorting the (symbol, value) pairs by symbol descending
(`'Ↄ' > 'Ⅿ' > 'Ⅾ' > … > 'Ⅰ' > 'N'` by code point) and dropping the
valueless `'Ↄ'`, so iteration runs through values
1000, 500, 100, 50, 12, 11, 10, …, 1, 0. -/
def ROMAN_UNICODE_R : List (Nat × Char) :=
  [(1000, 'Ⅿ'), (500, 'Ⅾ'), (100, 'Ⅽ'), (50, 'Ⅼ'), (12, 'Ⅻ'), (11, 'Ⅺ'),
   (10, 'Ⅹ'), (9, 'Ⅸ'), (8, 'Ⅷ'), (7, 'Ⅶ'), (6, 'Ⅵ'), (5, 'Ⅴ'), (4, 'Ⅳ'),
   (3, 'Ⅲ'), (2, 'Ⅱ'), (1, 'Ⅰ'), (0, 'N')]

/-- `_ROMAN_CLAUDIAN_TO_APOSTROPHUS`. -/
def ROMAN_CLAUDIAN_TO_APOSTROPHUS : List (List Char × List Char) :=
  [(['Ⅽ', 'Ⅽ', 'ↀ', 'Ↄ', 'Ↄ'], ['ↈ']), (['Ⅾ', 'Ↄ', 'Ↄ'], ['ↇ']),
   (['Ⅽ', 'ↀ', 'Ↄ'], ['ↂ']), (['Ⅾ', 'Ↄ'], ['ↁ'])]

/-- `_ROMAN_CLAUDIAN_TO_APOSTROPHUS_R` (the same pairs, swapped). -/
def ROMAN_CLAUDIAN_TO_APOSTROPHUS_R : List (List Char × List Char) :=
  [(['ↈ'], ['Ⅽ', 'Ⅽ', 'ↀ', 'Ↄ', 'Ↄ']), (['ↇ'], ['Ⅾ', 'Ↄ', 'Ↄ']),
   (['ↂ'], ['Ⅽ', 'ↀ', 'Ↄ']), (['ↁ'], ['Ⅾ', 'Ↄ'])]

/-- `_ROMAN_UNICODE_TO_ASCII` (the ASCII stand-in for the Claudian `'Ↄ'`
is `'O'`). -/
def ROMAN_UNICODE_TO_ASCII : List (List Char × List Char) :=
  [(['Ⅰ'], ['I']), (['Ⅱ'], ['I', 'I']), (['Ⅲ'], ['I', 'I', 'I']),
   (['Ⅳ'], ['I', 'V']), (['Ⅴ'], ['V']), (['Ⅵ'], ['V', 'I']),
   (['Ⅶ'], ['V', 'I', 'I']), (['Ⅷ'], ['V', 'I', 'I', 'I']),
   (['Ⅸ'], ['I', 'X']), (['Ⅹ'], ['X']), (['Ⅺ'], ['X', 'I']),
   (['Ⅻ'], ['X', 'I', 'I']), (['Ⅼ'], ['L']), (['Ⅽ'], ['C']), (['Ⅾ'], ['D']),
   (['Ⅿ'], ['M']), (['ↅ'], ['V', 'I']), (['ↀ'], ['C', 'D']), (['ↆ'], ['L']),
   (['N'], ['N']), (['Ↄ'], ['O']), (['ↁ'], ['D', 'O']),
   (['ↂ'], ['C', 'C', 'D', 'O']), (['ↇ'], ['D', 'O', 'O']),
   (['ↈ'], ['C', 'C', 'C', 'D', 'O', 'O'])]

/-- `ROMAN_ALTERNATIVES`. -/
def ROMAN_ALTERNATIVES : List (List Char × List Char) :=
  [(['Ⅵ'], ['ↅ']), (['Ⅼ'], ['ↆ']), (['Ⅿ'], ['ↀ'])]

/-- The reversed `ROMAN_ALTERNATIVES` pairs used by `roman2int`:
`tuple((i, j) for (j, i) in ROMAN_ALTERNATIVES)`. -/
def ROMAN_ALTERNATIVES_R : List (List Char × List Char) :=
  [(['ↅ'], ['Ⅵ']), (['ↆ'], ['Ⅼ']), (['ↀ'], ['Ⅿ'])]

/-- `_ROMAN_ASCII` as a total value function for the decoding scan.  `'N'`
maps to 0 as in the table; `'O'` maps to `None` in the source but is
rejected (`UnsupportedError`) before the scan ever reads it, and no other
character reaches the scan thanks to the valid-character check, so the
default 0 is unreachable. -/
def romanAsciiVal (c : Char) : Nat :=
  if c = 'I' then 1
  else if c = 'V' then 5
  else if c = 'X' then 10
  else if c = 'L' then 50
  else if c = 'C' then 100
  else if c = 'D' then 500
  else if c = 'M' then 1000
  else 0

/-- `_ROMAN_ASCII_R[0]`, the zero symbol. -/
def romanZero : Char := 'N'

/-- `valid_chars = set(''.join(a for u, a in _ROMAN_UNICODE_TO_ASCII))`. -/
def romanValidChars : List Char :=
  (ROMAN_UNICODE_TO_ASCII.map Prod.snd).flatten

/-! ## The strict grammar `^M{0,3}(CM|CD|D?C{0,3})(XC|XL|L?X{0,3})(IX|IV|V?I{0,3})$` -/

/-- Alternatives of `M{0,3}`. -/
def strictThousands : List (List Char) :=
  [[], ['M'], ['M', 'M'], ['M', 'M', 'M']]

/-- Alternatives of `(CM|CD|D?C{0,3})`. -/
def strictHundreds : List (List Char) :=
  [['C', 'M'], ['C', 'D'],
   [], ['C'], ['C', 'C'], ['C', 'C', 'C'],
   ['D'], ['D', 'C'], ['D', 'C', 'C'], ['D', 'C', 'C', 'C']]

/-- Alternatives of `(XC|XL|L?X{0,3})`. -/
def strictTens : List (List Char) :=
  [['X', 'C'], ['X', 'L'],
   [], ['X'], ['X', 'X'], ['X', 'X', 'X'],
   ['L'], ['L', 'X'], ['L', 'X', 'X'], ['L', 'X', 'X', 'X']]

/-- Alternatives of `(IX|IV|V?I{0,3})`. -/
def strictUnits : List (List Char) :=
  [['I', 'X'], ['I', 'V'],
   [], ['I'], ['I', 'I'], ['I', 'I', 'I'],
   ['V'], ['V', 'I'], ['V', 'I', 'I'], ['V', 'I', 'I', 'I']]

/-- Model of `re.match(_ROMAN_STRICT_REGEX, text)`: the pattern is anchored
at both ends, so a match is exactly membership in the (finite) language,
i.e. a decomposition into one alternative per group. -/
def romanStrictMatch (t : List Char) : Bool :=
  strictThousands.any fun m =>
    strictHundreds.any fun c =>
      strictTens.any fun x =>
        strictUnits.any fun u => t == m ++ c ++ x ++ u

/-! ## `int2roman` -/

/-- Loop state of the `int2roman` encoder: remaining amount, output text,
`last_key`, `consecutive` and `prev_key`. -/
structure I2RState where
  num : Nat
  text : List Char
  last : Option Char
  consec : Nat
  prev : Option Char
deriving DecidableEq, Repr

/-- The `for val, key in _ROMAN_UNICODE_R.items()` scan of one standard
iteration of `int2roman` (`mc` is `max_consecutive`).  Falling through
without a break leaves the state (with its updated `prev_key`) unchanged;
reaching the backtracking branch with `prev_key` still `None` is a Python
`TypeError`, modelled as `.error .noPrevKey`. -/
def i2rScan (mc : Nat) : List (Nat × Char) → I2RState → Except PyErr I2RState
  | [], s => .ok s
  | (val, key) :: rest, s =>
    if val ≠ 0 ∧ val ≤ s.num ∧ val ∉ [11, 12] then
      let consec' := if some key = s.last then s.consec + 1 else 0
      if consec' < mc then
        .ok { s with text := s.text ++ [key], num := s.num - val,
                     last := some key, consec := consec' }
      else
        match s.prev with
        | some p =>
            .ok { s with text := s.text.take (s.text.length - (mc - 1)) ++ [p],
                         num := s.num - val, consec := consec' }
        | none => .error .noPrevKey
    else
      i2rScan mc rest { s with prev := if val ∉ [11, 12] then some key else s.prev }

/-- One extended-range (`elif extended`) iteration of `int2roman`.
`min_apostrophus = 1000`, so `log_m = 3`; `int(math.log10(num))` is modelled
exactly by `Nat.log 10 num` (the source computes it in floating point). -/
def i2rExtStep (mc : Nat) (claudian : Bool) (s : I2RState) : I2RState :=
  let logNum := Nat.log 10 s.num
  let isHalf := 5 * 10 ^ logNum ≤ s.num
  let rep := logNum - 3 + (if isHalf then 1 else 0)
  let numToAdd := (if isHalf then 5 else 1) * 10 ^ logNum
  let correction : Int := if numToAdd * (mc + 1) ≤ s.num then -(2 * (numToAdd : Int)) else 0
  let chars := (if isHalf then ['Ⅾ']
                else List.replicate rep 'Ⅽ' ++ (if rep ≠ 0 then ['ↀ'] else ['Ⅿ']))
               ++ List.replicate rep 'Ↄ'
  let chars := if claudian then chars else multiReplace chars ROMAN_CLAUDIAN_TO_APOSTROPHUS
  { s with text := s.text ++ chars,
           num := ((s.num : Int) - ((numToAdd : Int) + correction)).toNat }

/-- The `while num > 0` loop of `int2roman`, fuelled (`max_standard = 1000`,
`max(_ROMAN_UNICODE_R.keys())`). -/
def i2rLoop (mc : Nat) (extended claudian : Bool) : Nat → I2RState → Option (Except PyErr (List Char))
  | 0, _ => none
  | fuel + 1, s =>
    if s.num = 0 then some (.ok s.text)
    else if s.num < 1000 * (mc + 1) then
      match i2rScan mc ROMAN_UNICODE_R s with
      | .error e => some (.error e)
      | .ok s' => i2rLoop mc extended claudian fuel s'
    else if extended then
      i2rLoop mc extended claudian fuel (i2rExtStep mc claudian s)
    else
      some (.error .needsExtended)

/-- Post-processing passes of `int2roman`, applied to the whole text
(sign prefix included): compact 11/12 ligatures, additive-only rewrite,
alternatives, ASCII transliteration, case folding. -/
def i2rPost (t : List Char) (onlyAscii onlyAdditive uppercase : Bool)
    (alternatives : List (List Char × List Char)) : List Char :=
  let t := multiReplace t [(['Ⅹ', 'Ⅰ'], ['Ⅺ']), (['Ⅹ', 'Ⅱ'], ['Ⅻ'])]
  let t := if onlyAdditive then
      multiReplace t [(['Ⅳ'], ['Ⅱ', 'Ⅱ']), (['Ⅸ'], ['Ⅶ', 'Ⅱ'])]
    else t
  let t := if alternatives ≠ [] then multiReplace t alternatives else t
  let t := if onlyAscii then multiReplace t ROMAN_UNICODE_TO_ASCII else t
  if uppercase = false then
    (multiReplace t ROMAN_CLAUDIAN_TO_APOSTROPHUS_R).map pyLower
  else
    t.map pyUpper

/-- Model of `int2roman`.  The outer `Option` is the fuel of the encoding
loop (standard-range iterations strictly decrease `num`, so `|num| + 2`
always suffices there; `none` can only arise from extended-range inputs
whose loop does not finish within the fuel). -/
def int2roman (num : Int) (onlyAscii onlyAdditive extended uppercase claudian : Bool)
    (alternatives : List (List Char × List Char)) (signed : Bool) (negSign : Char) :
    Option (Except PyErr (List Char)) :=
  let mc : Nat := if onlyAdditive then 4 else 3
  if num < 0 ∧ signed = false then some (.error .needsSigned)
  else
    let signText : List Char := if num < 0 then [negSign] else []
    let n : Nat := num.natAbs
    let body : Option (Except PyErr (List Char)) :=
      if n = 0 then
        if extended then some (.ok ['N']) else some (.error .needsExtended)
      else
        i2rLoop mc extended claudian (n + 2) ⟨n, [], none, 0, none⟩
    match body with
    | none => none
    | some (.error e) => some (.error e)
    | some (.ok t) =>
        some (.ok (i2rPost (signText ++ t) onlyAscii onlyAdditive uppercase alternatives))

/-! ## `roman2int` -/

/-- The arithmetic scan of `roman2int`: left to right, a symbol is
subtracted when some later symbol has strictly greater value
(`any(_ROMAN_ASCII[tmp] > _ROMAN_ASCII[char] for tmp in text[i+1:])`),
otherwise added. -/
def romanArithScan : List Char → Int
  | [] => 0
  | c :: rest =>
    (if rest.any fun d => romanAsciiVal c < romanAsciiVal d then
        -(romanAsciiVal c : Int)
      else (romanAsciiVal c : Int))
      + romanArithScan rest

/-- The normalization pipeline of `roman2int` up to (and including) the two
`multi_replace` passes: strip, uppercase, drop a leading sign, transliterate. -/
def roman2intNormalize (text0 : List Char) (negSign : Char) : List Char :=
  let text := (pyStrip text0).map pyUpper
  let text := if negSign ∈ text ∧ text.head? = some negSign then text.tail else text
  let text := multiReplace text ROMAN_UNICODE_TO_ASCII
  multiReplace text ROMAN_ALTERNATIVES_R

/-- Sign factor extracted by `roman2int`. -/
def roman2intSign (text0 : List Char) (negSign : Char) : Int :=
  let text := (pyStrip text0).map pyUpper
  if negSign ∈ text ∧ text.head? = some negSign then -1 else 1

/-- Model of `roman2int(text, strict, _ROMAN_STRICT_REGEX, negative_sign)`. -/
def roman2int (text0 : List Char) (strict : Bool) (negSign : Char) : Except PyErr Int :=
  let sgn : Int := roman2intSign text0 negSign
  let text := roman2intNormalize text0 negSign
  if text.all romanValidChars.contains then
    if text ≠ [romanZero] then
      let isValid := romanStrictMatch text
      if romanZero ∈ text then .error .zeroWithOthers
      else if 'O' ∈ text then .error .unsupported
      else if strict = false ∨ isValid = true then .ok (sgn * romanArithScan text)
      else .error .formatInvalid
    else .ok (sgn * 0)
  else .error .invalidChars

/-! ## Which table entry one standard `int2roman` iteration fires on -/

theorem i2rScan_M (mc num : Nat) (text : List Char) (last : Option Char)
    (consec : Nat) (prev : Option Char) (h : 1000 ≤ num) :
    i2rScan mc ROMAN_UNICODE_R ⟨num, text, last, consec, prev⟩ =
      (let consec' := if some 'Ⅿ' = last then consec + 1 else 0
       if consec' < mc then
         .ok { num := num - 1000, text := text ++ ['Ⅿ'], last := some 'Ⅿ',
               consec := consec', prev := prev }
       else
         match prev with
         | some q =>
             .ok { num := num - 1000,
                   text := text.take (text.length - (mc - 1)) ++ [q],
                   last := last, consec := consec', prev := prev }
         | none => .error .noPrevKey) := by
  show i2rScan mc ((1000, 'Ⅿ') :: _) ⟨num, text, last, consec, prev⟩ = _
  rw [i2rScan, if_pos ⟨by decide, show 1000 ≤ num by omega, by decide⟩]

theorem i2rScan_D (mc num : Nat) (text : List Char) (last : Option Char)
    (consec : Nat) (prev : Option Char) (h5 : 500 ≤ num) (h10 : num < 1000) :
    i2rScan mc ROMAN_UNICODE_R ⟨num, text, last, consec, prev⟩ =
      (let consec' := if some 'Ⅾ' = last then consec + 1 else 0
       if consec' < mc then
         .ok { num := num - 500, text := text ++ ['Ⅾ'], last := some 'Ⅾ',
               consec := consec', prev := some 'Ⅿ' }
       else
         .ok { num := num - 500,
               text := text.take (text.length - (mc - 1)) ++ ['Ⅿ'],
               last := last, consec := consec', prev := some 'Ⅿ' }) := by
  show i2rScan mc ((1000, 'Ⅿ') :: (500, 'Ⅾ') :: _) ⟨num, text, last, consec, prev⟩ = _
  rw [i2rScan, if_neg (by intro hc; exact absurd (show 1000 ≤ num from hc.2.1) (by omega))]
  show i2rScan mc _ ⟨num, text, last, consec, some 'Ⅿ'⟩ = _
  rw [i2rScan, if_pos ⟨by decide, show 500 ≤ num by omega, by decide⟩]

theorem i2rScan_C (mc num : Nat) (text : List Char) (last : Option Char)
    (consec : Nat) (prev : Option Char) (h1 : 100 ≤ num) (h2 : num < 500) :
    i2rScan mc ROMAN_UNICODE_R ⟨num, text, last, consec, prev⟩ =
      (let consec' := if some 'Ⅽ' = last then consec + 1 else 0
       if consec' < mc then
         .ok { num := num - 100, text := text ++ ['Ⅽ'], last := some 'Ⅽ',
               consec := consec', prev := some 'Ⅾ' }
       else
         .ok { num := num - 100,
               text := text.take (text.length - (mc - 1)) ++ ['Ⅾ'],
               last := last, consec := consec', prev := some 'Ⅾ' }) := by
  show i2rScan mc ((1000, 'Ⅿ') :: (500, 'Ⅾ') :: (100, 'Ⅽ') :: _) ⟨num, text, last, consec, prev⟩ = _
  rw [i2rScan, if_neg (by intro hc; exact absurd (show 1000 ≤ num from hc.2.1) (by omega))]
  show i2rScan mc _ ⟨num, text, last, consec, some 'Ⅿ'⟩ = _
  rw [i2rScan, if_neg (by intro hc; exact absurd (show 500 ≤ num from hc.2.1) (by omega))]
  show i2rScan mc _ ⟨num, text, last, consec, some 'Ⅾ'⟩ = _
  rw [i2rScan, if_pos ⟨by decide, show 100 ≤ num by omega, by decide⟩]

theorem i2rScan_L (mc num : Nat) (text : List Char) (last : Option Char)
    (consec : Nat) (prev : Option Char) (h1 : 50 ≤ num) (h2 : num < 100) :
    i2rScan mc ROMAN_UNICODE_R ⟨num, text, last, consec, prev⟩ =
      (let consec' := if some 'Ⅼ' = last then consec + 1 else 0
       if consec' < mc then
         .ok { num := num - 50, text := text ++ ['Ⅼ'], last := some 'Ⅼ',
               consec := consec', prev := some 'Ⅽ' }
       else
         .ok { num := num - 50,
               text := text.take (text.length - (mc - 1)) ++ ['Ⅽ'],
               last := last, consec := consec', prev := some 'Ⅽ' }) := by
  show i2rScan mc ((1000, 'Ⅿ') :: (500, 'Ⅾ') :: (100, 'Ⅽ') :: (50, 'Ⅼ') :: _) ⟨num, text, last, consec, prev⟩ = _
  rw [i2rScan, if_neg (by intro hc; exact absurd (show 1000 ≤ num from hc.2.1) (by omega))]
  show i2rScan mc _ ⟨num, text, last, consec, some 'Ⅿ'⟩ = _
  rw [i2rScan, if_neg (by intro hc; exact absurd (show 500 ≤ num from hc.2.1) (by omega))]
  show i2rScan mc _ ⟨num, text, last, consec, some 'Ⅾ'⟩ = _
  rw [i2rScan, if_neg (by intro hc; exact absurd (show 100 ≤ num from hc.2.1) (by omega))]
  show i2rScan mc _ ⟨num, text, last, consec, some 'Ⅽ'⟩ = _
  rw [i2rScan, if_pos ⟨by decide, show 50 ≤ num by omega, by decide⟩]

theorem i2rScan_X (mc num : Nat) (text : List Char) (last : Option Char)
    (consec : Nat) (prev : Option Char) (h1 : 10 ≤ num) (h2 : num < 50) :
    i2rScan mc ROMAN_UNICODE_R ⟨num, text, last, consec, prev⟩ =
      (let consec' := if some 'Ⅹ' = last then consec + 1 else 0
       if consec' < mc then
         .ok { num := num - 10, text := text ++ ['Ⅹ'], last := some 'Ⅹ',
               consec := consec', prev := some 'Ⅼ' }
       else
         .ok { num := num - 10,
               text := text.take (text.length - (mc - 1)) ++ ['Ⅼ'],
               last := last, consec := consec', prev := some 'Ⅼ' }) := by
  show i2rScan mc ((1000, 'Ⅿ') :: (500, 'Ⅾ') :: (100, 'Ⅽ') :: (50, 'Ⅼ') :: (12, 'Ⅻ') :: (11, 'Ⅺ') :: (10, 'Ⅹ') :: _) ⟨num, text, last, consec, prev⟩ = _
  rw [i2rScan, if_neg (by intro hc; exact absurd (show 1000 ≤ num from hc.2.1) (by omega))]
  show i2rScan mc _ ⟨num, text, last, consec, some 'Ⅿ'⟩ = _
  rw [i2rScan, if_neg (by intro hc; exact absurd (show 500 ≤ num from hc.2.1) (by omega))]
  show i2rScan mc _ ⟨num, text, last, consec, some 'Ⅾ'⟩ = _
  rw [i2rScan, if_neg (by intro hc; exact absurd (show 100 ≤ num from hc.2.1) (by omega))]
  show i2rScan mc _ ⟨num, text, last, consec, some 'Ⅽ'⟩ = _
  rw [i2rScan, if_neg (by intro hc; exact absurd (show 50 ≤ num from hc.2.1) (by omega))]
  show i2rScan mc _ ⟨num, text, last, consec, some 'Ⅼ'⟩ = _
  rw [i2rScan, if_neg (by intro hc; exact hc.2.2 (by decide))]
  show i2rScan mc _ ⟨num, text, last, consec, some 'Ⅼ'⟩ = _
  rw [i2rScan, if_neg (by intro hc; exact hc.2.2 (by decide))]
  show i2rScan mc _ ⟨num, text, last, consec, some 'Ⅼ'⟩ = _
  rw [i2rScan, if_pos ⟨by decide, show 10 ≤ num by omega, by decide⟩]

theorem i2rScan_u9 (mc num : Nat) (text : List Char) (last : Option Char)
    (consec : Nat) (prev : Option Char) (h : num = 9) :
    i2rScan mc ROMAN_UNICODE_R ⟨num, text, last, consec, prev⟩ =
      (let consec' := if some 'Ⅸ' = last then consec + 1 else 0
       if consec' < mc then
         .ok { num := num - 9, text := text ++ ['Ⅸ'], last := some 'Ⅸ',
               consec := consec', prev := some 'Ⅹ' }
       else
         .ok { num := num - 9,
               text := text.take (text.length - (mc - 1)) ++ ['Ⅹ'],
               last := last, consec := consec', prev := some 'Ⅹ' }) := by
  show i2rScan mc ((1000, 'Ⅿ') :: (500, 'Ⅾ') :: (100, 'Ⅽ') :: (50, 'Ⅼ') :: (12, 'Ⅻ') :: (11, 'Ⅺ') :: (10, 'Ⅹ') :: (9, 'Ⅸ') :: _) ⟨num, text, last, consec, prev⟩ = _
  rw [i2rScan, if_neg (by intro hc; exact absurd (show 1000 ≤ num from hc.2.1) (by omega))]
  show i2rScan mc _ ⟨num, text, last, consec, some 'Ⅿ'⟩ = _
  rw [i2rScan, if_neg (by intro hc; exact absurd (show 500 ≤ num from hc.2.1) (by omega))]
  show i2rScan mc _ ⟨num, text, last, consec, some 'Ⅾ'⟩ = _
  rw [i2rScan, if_neg (by intro hc; exact absurd (show 100 ≤ num from hc.2.1) (by omega))]
  show i2rScan mc _ ⟨num, text, last, consec, some 'Ⅽ'⟩ = _
  rw [i2rScan, if_neg (by intro hc; exact absurd (show 50 ≤ num from hc.2.1) (by omega))]
  show i2rScan mc _ ⟨num, text, last, consec, some 'Ⅼ'⟩ = _
  rw [i2rScan, if_neg (by intro hc; exact hc.2.2 (by decide))]
  show i2rScan mc _ ⟨num, text, last, consec, some 'Ⅼ'⟩ = _
  rw [i2rScan, if_neg (by intro hc; exact hc.2.2 (by decide))]
  show i2rScan mc _ ⟨num, text, last, consec, some 'Ⅼ'⟩ = _
  rw [i2rScan, if_neg (by intro hc; exact absurd (show 10 ≤ num from hc.2.1) (by omega))]
  show i2rScan mc _ ⟨num, text, last, consec, some 'Ⅹ'⟩ = _
  rw [i2rScan, if_pos ⟨by decide, show 9 ≤ num by omega, by decide⟩]

theorem i2rScan_u8 (mc num : Nat) (text : List Char) (last : Option Char)
    (consec : Nat) (prev : Option Char) (h : num = 8) :
    i2rScan mc ROMAN_UNICODE_R ⟨num, text, last, consec, prev⟩ =
      (let consec' := if some 'Ⅷ' = last then consec + 1 else 0
       if consec' < mc then
         .ok { num := num - 8, text := text ++ ['Ⅷ'], last := some 'Ⅷ',
               consec := consec', prev := some 'Ⅸ' }
       else
         .ok { num := num - 8,
               text := text.take (text.length - (mc - 1)) ++ ['Ⅸ'],
               last := last, consec := consec', prev := some 'Ⅸ' }) := by
  show i2rScan mc ((1000, 'Ⅿ') :: (500, 'Ⅾ') :: (100, 'Ⅽ') :: (50, 'Ⅼ') :: (12, 'Ⅻ') :: (11, 'Ⅺ') :: (10, 'Ⅹ') :: (9, 'Ⅸ') :: (8, 'Ⅷ') :: _) ⟨num, text, last, consec, prev⟩ = _
  rw [i2rScan, if_neg (by intro hc; exact absurd (show 1000 ≤ num from hc.2.1) (by omega))]
  show i2rScan mc _ ⟨num, text, last, consec, some 'Ⅿ'⟩ = _
  rw [i2rScan, if_neg (by intro hc; exact absurd (show 500 ≤ num from hc.2.1) (by omega))]
  show i2rScan mc _ ⟨num, text, last, consec, some 'Ⅾ'⟩ = _
  rw [i2rScan, if_neg (by intro hc; exact absurd (show 100 ≤ num from hc.2.1) (by omega))]
  show i2rScan mc _ ⟨num, text, last, consec, some 'Ⅽ'⟩ = _
  rw [i2rScan, if_neg (by intro hc; exact absurd (show 50 ≤ num from hc.2.1) (by omega))]
  show i2rScan mc _ ⟨num, text, last, consec, some 'Ⅼ'⟩ = _
  rw [i2rScan, if_neg (by intro hc; exact hc.2.2 (by decide))]
  show i2rScan mc _ ⟨num, text, last, consec, some 'Ⅼ'⟩ = _
  rw [i2rScan, if_neg (by intro hc; exact hc.2.2 (by decide))]
  show i2rScan mc _ ⟨num, text, last, consec, some 'Ⅼ'⟩ = _
  rw [i2rScan, if_neg (by intro hc; exact absurd (show 10 ≤ num from hc.2.1) (by omega))]
  show i2rScan mc _ ⟨num, text, last, consec, some 'Ⅹ'⟩ = _
  rw [i2rScan, if_neg (by intro hc; exact absurd (show 9 ≤ num from hc.2.1) (by omega))]
  show i2rScan mc _ ⟨num, text, last, consec, some 'Ⅸ'⟩ = _
  rw [i2rScan, if_pos ⟨by decide, show 8 ≤ num by omega, by decide⟩]

theorem i2rScan_u7 (mc num : Nat) (text : List Char) (last : Option Char)
    (consec : Nat) (prev : Option Char) (h : num = 7) :
    i2rScan mc ROMAN_UNICODE_R ⟨num, text, last, consec, prev⟩ =
      (let consec' := if some 'Ⅶ' = last then consec + 1 else 0
       if consec' < mc then
         .ok { num := num - 7, text := text ++ ['Ⅶ'], last := some 'Ⅶ',
               consec := consec', prev := some 'Ⅷ' }
       else
         .ok { num := num - 7,
               text := text.take (text.length - (mc - 1)) ++ ['Ⅷ'],
               last := last, consec := consec', prev := some 'Ⅷ' }) := by
  show i2rScan mc ((1000, 'Ⅿ') :: (500, 'Ⅾ') :: (100, 'Ⅽ') :: (50, 'Ⅼ') :: (12, 'Ⅻ') :: (11, 'Ⅺ') :: (10, 'Ⅹ') :: (9, 'Ⅸ') :: (8, 'Ⅷ') :: (7, 'Ⅶ') :: _) ⟨num, text, last, consec, prev⟩ = _
  rw [i2rScan, if_neg (by intro hc; exact absurd (show 1000 ≤ num from hc.2.1) (by omega))]
  show i2rScan mc _ ⟨num, text, last, consec, some 'Ⅿ'⟩ = _
  rw [i2rScan, if_neg (by intro hc; exact absurd (show 500 ≤ num from hc.2.1) (by omega))]
  show i2rScan mc _ ⟨num, text, last, consec, some 'Ⅾ'⟩ = _
  rw [i2rScan, if_neg (by intro hc; exact absurd (show 100 ≤ num from hc.2.1) (by omega))]
  show i2rScan mc _ ⟨num, text, last, consec, some 'Ⅽ'⟩ = _
  rw [i2rScan, if_neg (by intro hc; exact absurd (show 50 ≤ num from hc.2.1) (by omega))]
  show i2rScan mc _ ⟨num, text, last, consec, some 'Ⅼ'⟩ = _
  rw [i2rScan, if_neg (by intro hc; exact hc.2.2 (by decide))]
  show i2rScan mc _ ⟨num, text, last, consec, some 'Ⅼ'⟩ = _
  rw [i2rScan, if_neg (by intro hc; exact hc.2.2 (by decide))]
  show i2rScan mc _ ⟨num, text, last, consec, some 'Ⅼ'⟩ = _
  rw [i2rScan, if_neg (by intro hc; exact absurd (show 10 ≤ num from hc.2.1) (by omega))]
  show i2rScan mc _ ⟨num, text, last, consec, some 'Ⅹ'⟩ = _
  rw [i2rScan, if_neg (by intro hc; exact absurd (show 9 ≤ num from hc.2.1) (by omega))]
  show i2rScan mc _ ⟨num, text, last, consec, some 'Ⅸ'⟩ = _
  rw [i2rScan, if_neg (by intro hc; exact absurd (show 8 ≤ num from hc.2.1) (by omega))]
  show i2rScan mc _ ⟨num, text, last, consec, some 'Ⅷ'⟩ = _
  rw [i2rScan, if_pos ⟨by decide, show 7 ≤ num by omega, by decide⟩]

theorem i2rScan_u6 (mc num : Nat) (text : List Char) (last : Option Char)
    (consec : Nat) (prev : Option Char) (h : num = 6) :
    i2rScan mc ROMAN_UNICODE_R ⟨num, text, last, consec, prev⟩ =
      (let consec' := if some 'Ⅵ' = last then consec + 1 else 0
       if consec' < mc then
         .ok { num := num - 6, text := text ++ ['Ⅵ'], last := some 'Ⅵ',
               consec := consec', prev := some 'Ⅶ' }
       else
         .ok { num := num - 6,
               text := text.take (text.length - (mc - 1)) ++ ['Ⅶ'],
               last := last, consec := consec', prev := some 'Ⅶ' }) := by
  show i2rScan mc ((1000, 'Ⅿ') :: (500, 'Ⅾ') :: (100, 'Ⅽ') :: (50, 'Ⅼ') :: (12, 'Ⅻ') :: (11, 'Ⅺ') :: (10, 'Ⅹ') :: (9, 'Ⅸ') :: (8, 'Ⅷ') :: (7, 'Ⅶ') :: (6, 'Ⅵ') :: _) ⟨num, text, last, consec, prev⟩ = _
  rw [i2rScan, if_neg (by intro hc; exact absurd (show 1000 ≤ num from hc.2.1) (by omega))]
  show i2rScan mc _ ⟨num, text, last, consec, some 'Ⅿ'⟩ = _
  rw [i2rScan, if_neg (by intro hc; exact absurd (show 500 ≤ num from hc.2.1) (by omega))]
  show i2rScan mc _ ⟨num, text, last, consec, some 'Ⅾ'⟩ = _
  rw [i2rScan, if_neg (by intro hc; exact absurd (show 100 ≤ num from hc.2.1) (by omega))]
  show i2rScan mc _ ⟨num, text, last, consec, some 'Ⅽ'⟩ = _
  rw [i2rScan, if_neg (by intro hc; exact absurd (show 50 ≤ num from hc.2.1) (by omega))]
  show i2rScan mc _ ⟨num, text, last, consec, some 'Ⅼ'⟩ = _
  rw [i2rScan, if_neg (by intro hc; exact hc.2.2 (by decide))]
  show i2rScan mc _ ⟨num, text, last, consec, some 'Ⅼ'⟩ = _
  rw [i2rScan, if_neg (by intro hc; exact hc.2.2 (by decide))]
  show i2rScan mc _ ⟨num, text, last, consec, some 'Ⅼ'⟩ = _
  rw [i2rScan, if_neg (by intro hc; exact absurd (show 10 ≤ num from hc.2.1) (by omega))]
  show i2rScan mc _ ⟨num, text, last, consec, some 'Ⅹ'⟩ = _
  rw [i2rScan, if_neg (by intro hc; exact absurd (show 9 ≤ num from hc.2.1) (by omega))]
  show i2rScan mc _ ⟨num, text, last, consec, some 'Ⅸ'⟩ = _
  rw [i2rScan, if_neg (by intro hc; exact absurd (show 8 ≤ num from hc.2.1) (by omega))]
  show i2rScan mc _ ⟨num, text, last, consec, some 'Ⅷ'⟩ = _
  rw [i2rScan, if_neg (by intro hc; exact absurd (show 7 ≤ num from hc.2.1) (by omega))]
  show i2rScan mc _ ⟨num, text, last, consec, some 'Ⅶ'⟩ = _
  rw [i2rScan, if_pos ⟨by decide, show 6 ≤ num by omega, by decide⟩]

theorem i2rScan_u5 (mc num : Nat) (text : List Char) (last : Option Char)
    (consec : Nat) (prev : Option Char) (h : num = 5) :
    i2rScan mc ROMAN_UNICODE_R ⟨num, text, last, consec, prev⟩ =
      (let consec' := if some 'Ⅴ' = last then consec + 1 else 0
       if consec' < mc then
         .ok { num := num - 5, text := text ++ ['Ⅴ'], last := some 'Ⅴ',
               consec := consec', prev := some 'Ⅵ' }
       else
         .ok { num := num - 5,
               text := text.take (text.length - (mc - 1)) ++ ['Ⅵ'],
               last := last, consec := consec', prev := some 'Ⅵ' }) := by
  show i2rScan mc ((1000, 'Ⅿ') :: (500, 'Ⅾ') :: (100, 'Ⅽ') :: (50, 'Ⅼ') :: (12, 'Ⅻ') :: (11, 'Ⅺ') :: (10, 'Ⅹ') :: (9, 'Ⅸ') :: (8, 'Ⅷ') :: (7, 'Ⅶ') :: (6, 'Ⅵ') :: (5, 'Ⅴ') :: _) ⟨num, text, last, consec, prev⟩ = _
  rw [i2rScan, if_neg (by intro hc; exact absurd (show 1000 ≤ num from hc.2.1) (by omega))]
  show i2rScan mc _ ⟨num, text, last, consec, some 'Ⅿ'⟩ = _
  rw [i2rScan, if_neg (by intro hc; exact absurd (show 500 ≤ num from hc.2.1) (by omega))]
  show i2rScan mc _ ⟨num, text, last, consec, some 'Ⅾ'⟩ = _
  rw [i2rScan, if_neg (by intro hc; exact absurd (show 100 ≤ num from hc.2.1) (by omega))]
  show i2rScan mc _ ⟨num, text, last, consec, some 'Ⅽ'⟩ = _
  rw [i2rScan, if_neg (by intro hc; exact absurd (show 50 ≤ num from hc.2.1) (by omega))]
  show i2rScan mc _ ⟨num, text, last, consec, some 'Ⅼ'⟩ = _
  rw [i2rScan, if_neg (by intro hc; exact hc.2.2 (by decide))]
  show i2rScan mc _ ⟨num, text, last, consec, some 'Ⅼ'⟩ = _
  rw [i2rScan, if_neg (by intro hc; exact hc.2.2 (by decide))]
  show i2rScan mc _ ⟨num, text, last, consec, some 'Ⅼ'⟩ = _
  rw [i2rScan, if_neg (by intro hc; exact absurd (show 10 ≤ num from hc.2.1) (by omega))]
  show i2rScan mc _ ⟨num, text, last, consec, some 'Ⅹ'⟩ = _
  rw [i2rScan, if_neg (by intro hc; exact absurd (show 9 ≤ num from hc.2.1) (by omega))]
  show i2rScan mc _ ⟨num, text, last, consec, some 'Ⅸ'⟩ = _
  rw [i2rScan, if_neg (by intro hc; exact absurd (show 8 ≤ num from hc.2.1) (by omega))]
  show i2rScan mc _ ⟨num, text, last, consec, some 'Ⅷ'⟩ = _
  rw [i2rScan, if_neg (by intro hc; exact absurd (show 7 ≤ num from hc.2.1) (by omega))]
  show i2rScan mc _ ⟨num, text, last, consec, some 'Ⅶ'⟩ = _
  rw [i2rScan, if_neg (by intro hc; exact absurd (show 6 ≤ num from hc.2.1) (by omega))]
  show i2rScan mc _ ⟨num, text, last, consec, some 'Ⅵ'⟩ = _
  rw [i2rScan, if_pos ⟨by decide, show 5 ≤ num by omega, by decide⟩]

theorem i2rScan_u4 (mc num : Nat) (text : List Char) (last : Option Char)
    (consec : Nat) (prev : Option Char) (h : num = 4) :
    i2rScan mc ROMAN_UNICODE_R ⟨num, text, last, consec, prev⟩ =
      (let consec' := if some 'Ⅳ' = last then consec + 1 else 0
       if consec' < mc then
         .ok { num := num - 4, text := text ++ ['Ⅳ'], last := some 'Ⅳ',
               consec := consec', prev := some 'Ⅴ' }
       else
         .ok { num := num - 4,
               text := text.take (text.length - (mc - 1)) ++ ['Ⅴ'],
               last := last, consec := consec', prev := some 'Ⅴ' }) := by
  show i2rScan mc ((1000, 'Ⅿ') :: (500, 'Ⅾ') :: (100, 'Ⅽ') :: (50, 'Ⅼ') :: (12, 'Ⅻ') :: (11, 'Ⅺ') :: (10, 'Ⅹ') :: (9, 'Ⅸ') :: (8, 'Ⅷ') :: (7, 'Ⅶ') :: (6, 'Ⅵ') :: (5, 'Ⅴ') :: (4, 'Ⅳ') :: _) ⟨num, text, last, consec, prev⟩ = _
  rw [i2rScan, if_neg (by intro hc; exact absurd (show 1000 ≤ num from hc.2.1) (by omega))]
  show i2rScan mc _ ⟨num, text, last, consec, some 'Ⅿ'⟩ = _
  rw [i2rScan, if_neg (by intro hc; exact absurd (show 500 ≤ num from hc.2.1) (by omega))]
  show i2rScan mc _ ⟨num, text, last, consec, some 'Ⅾ'⟩ = _
  rw [i2rScan, if_neg (by intro hc; exact absurd (show 100 ≤ num from hc.2.1) (by omega))]
  show i2rScan mc _ ⟨num, text, last, consec, some 'Ⅽ'⟩ = _
  rw [i2rScan, if_neg (by intro hc; exact absurd (show 50 ≤ num from hc.2.1) (by omega))]
  show i2rScan mc _ ⟨num, text, last, consec, some 'Ⅼ'⟩ = _
  rw [i2rScan, if_neg (by intro hc; exact hc.2.2 (by decide))]
  show i2rScan mc _ ⟨num, text, last, consec, some 'Ⅼ'⟩ = _
  rw [i2rScan, if_neg (by intro hc; exact hc.2.2 (by decide))]
  show i2rScan mc _ ⟨num, text, last, consec, some 'Ⅼ'⟩ = _
  rw [i2rScan, if_neg (by intro hc; exact absurd (show 10 ≤ num from hc.2.1) (by omega))]
  show i2rScan mc _ ⟨num, text, last, consec, some 'Ⅹ'⟩ = _
  rw [i2rScan, if_neg (by intro hc; exact absurd (show 9 ≤ num from hc.2.1) (by omega))]
  show i2rScan mc _ ⟨num, text, last, consec, some 'Ⅸ'⟩ = _
  rw [i2rScan, if_neg (by intro hc; exact absurd (show 8 ≤ num from hc.2.1) (by omega))]
  show i2rScan mc _ ⟨num, text, last, consec, some 'Ⅷ'⟩ = _
  rw [i2rScan, if_neg (by intro hc; exact absurd (show 7 ≤ num from hc.2.1) (by omega))]
  show i2rScan mc _ ⟨num, text, last, consec, some 'Ⅶ'⟩ = _
  rw [i2rScan, if_neg (by intro hc; exact absurd (show 6 ≤ num from hc.2.1) (by omega))]
  show i2rScan mc _ ⟨num, text, last, consec, some 'Ⅵ'⟩ = _
  rw [i2rScan, if_neg (by intro hc; exact absurd (show 5 ≤ num from hc.2.1) (by omega))]
  show i2rScan mc _ ⟨num, text, last, consec, some 'Ⅴ'⟩ = _
  rw [i2rScan, if_pos ⟨by decide, show 4 ≤ num by omega, by decide⟩]

theorem i2rScan_u3 (mc num : Nat) (text : List Char) (last : Option Char)
    (consec : Nat) (prev : Option Char) (h : num = 3) :
    i2rScan mc ROMAN_UNICODE_R ⟨num, text, last, consec, prev⟩ =
      (let consec' := if some 'Ⅲ' = last then consec + 1 else 0
       if consec' < mc then
         .ok { num := num - 3, text := text ++ ['Ⅲ'], last := some 'Ⅲ',
               consec := consec', prev := some 'Ⅳ' }
       else
         .ok { num := num - 3,
               text := text.take (text.length - (mc - 1)) ++ ['Ⅳ'],
               last := last, consec := consec', prev := some 'Ⅳ' }) := by
  show i2rScan mc ((1000, 'Ⅿ') :: (500, 'Ⅾ') :: (100, 'Ⅽ') :: (50, 'Ⅼ') :: (12, 'Ⅻ') :: (11, 'Ⅺ') :: (10, 'Ⅹ') :: (9, 'Ⅸ') :: (8, 'Ⅷ') :: (7, 'Ⅶ') :: (6, 'Ⅵ') :: (5, 'Ⅴ') :: (4, 'Ⅳ') :: (3, 'Ⅲ') :: _) ⟨num, text, last, consec, prev⟩ = _
  rw [i2rScan, if_neg (by intro hc; exact absurd (show 1000 ≤ num from hc.2.1) (by omega))]
  show i2rScan mc _ ⟨num, text, last, consec, some 'Ⅿ'⟩ = _
  rw [i2rScan, if_neg (by intro hc; exact absurd (show 500 ≤ num from hc.2.1) (by omega))]
  show i2rScan mc _ ⟨num, text, last, consec, some 'Ⅾ'⟩ = _
  rw [i2rScan, if_neg (by intro hc; exact absurd (show 100 ≤ num from hc.2.1) (by omega))]
  show i2rScan mc _ ⟨num, text, last, consec, some 'Ⅽ'⟩ = _
  rw [i2rScan, if_neg (by intro hc; exact absurd (show 50 ≤ num from hc.2.1) (by omega))]
  show i2rScan mc _ ⟨num, text, last, consec, some 'Ⅼ'⟩ = _
  rw [i2rScan, if_neg (by intro hc; exact hc.2.2 (by decide))]
  show i2rScan mc _ ⟨num, text, last, consec, some 'Ⅼ'⟩ = _
  rw [i2rScan, if_neg (by intro hc; exact hc.2.2 (by decide))]
  show i2rScan mc _ ⟨num, text, last, consec, some 'Ⅼ'⟩ = _
  rw [i2rScan, if_neg (by intro hc; exact absurd (show 10 ≤ num from hc.2.1) (by omega))]
  show i2rScan mc _ ⟨num, text, last, consec, some 'Ⅹ'⟩ = _
  rw [i2rScan, if_neg (by intro hc; exact absurd (show 9 ≤ num from hc.2.1) (by omega))]
  show i2rScan mc _ ⟨num, text, last, consec, some 'Ⅸ'⟩ = _
  rw [i2rScan, if_neg (by intro hc; exact absurd (show 8 ≤ num from hc.2.1) (by omega))]
  show i2rScan mc _ ⟨num, text, last, consec, some 'Ⅷ'⟩ = _
  rw [i2rScan, if_neg (by intro hc; exact absurd (show 7 ≤ num from hc.2.1) (by omega))]
  show i2rScan mc _ ⟨num, text, last, consec, some 'Ⅶ'⟩ = _
  rw [i2rScan, if_neg (by intro hc; exact absurd (show 6 ≤ num from hc.2.1) (by omega))]
  show i2rScan mc _ ⟨num, text, last, consec, some 'Ⅵ'⟩ = _
  rw [i2rScan, if_neg (by intro hc; exact absurd (show 5 ≤ num from hc.2.1) (by omega))]
  show i2rScan mc _ ⟨num, text, last, consec, some 'Ⅴ'⟩ = _
  rw [i2rScan, if_neg (by intro hc; exact absurd (show 4 ≤ num from hc.2.1) (by omega))]
  show i2rScan mc _ ⟨num, text, last, consec, some 'Ⅳ'⟩ = _
  rw [i2rScan, if_pos ⟨by decide, show 3 ≤ num by omega, by decide⟩]

theorem i2rScan_u2 (mc num : Nat) (text : List Char) (last : Option Char)
    (consec : Nat) (prev : Option Char) (h : num = 2) :
    i2rScan mc ROMAN_UNICODE_R ⟨num, text, last, consec, prev⟩ =
      (let consec' := if some 'Ⅱ' = last then consec + 1 else 0
       if consec' < mc then
         .ok { num := num - 2, text := text ++ ['Ⅱ'], last := some 'Ⅱ',
               consec := consec', prev := some 'Ⅲ' }
       else
         .ok { num := num - 2,
               text := text.take (text.length - (mc - 1)) ++ ['Ⅲ'],
               last := last, consec := consec', prev := some 'Ⅲ' }) := by
  show i2rScan mc ((1000, 'Ⅿ') :: (500, 'Ⅾ') :: (100, 'Ⅽ') :: (50, 'Ⅼ') :: (12, 'Ⅻ') :: (11, 'Ⅺ') :: (10, 'Ⅹ') :: (9, 'Ⅸ') :: (8, 'Ⅷ') :: (7, 'Ⅶ') :: (6, 'Ⅵ') :: (5, 'Ⅴ') :: (4, 'Ⅳ') :: (3, 'Ⅲ') :: (2, 'Ⅱ') :: _) ⟨num, text, last, consec, prev⟩ = _
  rw [i2rScan, if_neg (by intro hc; exact absurd (show 1000 ≤ num from hc.2.1) (by omega))]
  show i2rScan mc _ ⟨num, text, last, consec, some 'Ⅿ'⟩ = _
  rw [i2rScan, if_neg (by intro hc; exact absurd (show 500 ≤ num from hc.2.1) (by omega))]
  show i2rScan mc _ ⟨num, text, last, consec, some 'Ⅾ'⟩ = _
  rw [i2rScan, if_neg (by intro hc; exact absurd (show 100 ≤ num from hc.2.1) (by omega))]
  show i2rScan mc _ ⟨num, text, last, consec, some 'Ⅽ'⟩ = _
  rw [i2rScan, if_neg (by intro hc; exact absurd (show 50 ≤ num from hc.2.1) (by omega))]
  show i2rScan mc _ ⟨num, text, last, consec, some 'Ⅼ'⟩ = _
  rw [i2rScan, if_neg (by intro hc; exact hc.2.2 (by decide))]
  show i2rScan mc _ ⟨num, text, last, consec, some 'Ⅼ'⟩ = _
  rw [i2rScan, if_neg (by intro hc; exact hc.2.2 (by decide))]
  show i2rScan mc _ ⟨num, text, last, consec, some 'Ⅼ'⟩ = _
  rw [i2rScan, if_neg (by intro hc; exact absurd (show 10 ≤ num from hc.2.1) (by omega))]
  show i2rScan mc _ ⟨num, text, last, consec, some 'Ⅹ'⟩ = _
  rw [i2rScan, if_neg (by intro hc; exact absurd (show 9 ≤ num from hc.2.1) (by omega))]
  show i2rScan mc _ ⟨num, text, last, consec, some 'Ⅸ'⟩ = _
  rw [i2rScan, if_neg (by intro hc; exact absurd (show 8 ≤ num from hc.2.1) (by omega))]
  show i2rScan mc _ ⟨num, text, last, consec, some 'Ⅷ'⟩ = _
  rw [i2rScan, if_neg (by intro hc; exact absurd (show 7 ≤ num from hc.2.1) (by omega))]
  show i2rScan mc _ ⟨num, text, last, consec, some 'Ⅶ'⟩ = _
  rw [i2rScan, if_neg (by intro hc; exact absurd (show 6 ≤ num from hc.2.1) (by omega))]
  show i2rScan mc _ ⟨num, text, last, consec, some 'Ⅵ'⟩ = _
  rw [i2rScan, if_neg (by intro hc; exact absurd (show 5 ≤ num from hc.2.1) (by omega))]
  show i2rScan mc _ ⟨num, text, last, consec, some 'Ⅴ'⟩ = _
  rw [i2rScan, if_neg (by intro hc; exact absurd (show 4 ≤ num from hc.2.1) (by omega))]
  show i2rScan mc _ ⟨num, text, last, consec, some 'Ⅳ'⟩ = _
  rw [i2rScan, if_neg (by intro hc; exact absurd (show 3 ≤ num from hc.2.1) (by omega))]
  show i2rScan mc _ ⟨num, text, last, consec, some 'Ⅲ'⟩ = _
  rw [i2rScan, if_pos ⟨by decide, show 2 ≤ num by omega, by decide⟩]

theorem i2rScan_u1 (mc num : Nat) (text : List Char) (last : Option Char)
    (consec : Nat) (prev : Option Char) (h : num = 1) :
    i2rScan mc ROMAN_UNICODE_R ⟨num, text, last, consec, prev⟩ =
      (let consec' := if some 'Ⅰ' = last then consec + 1 else 0
       if consec' < mc then
         .ok { num := num - 1, text := text ++ ['Ⅰ'], last := some 'Ⅰ',
               consec := consec', prev := some 'Ⅱ' }
       else
         .ok { num := num - 1,
               text := text.take (text.length - (mc - 1)) ++ ['Ⅱ'],
               last := last, consec := consec', prev := some 'Ⅱ' }) := by
  show i2rScan mc ((1000, 'Ⅿ') :: (500, 'Ⅾ') :: (100, 'Ⅽ') :: (50, 'Ⅼ') :: (12, 'Ⅻ') :: (11, 'Ⅺ') :: (10, 'Ⅹ') :: (9, 'Ⅸ') :: (8, 'Ⅷ') :: (7, 'Ⅶ') :: (6, 'Ⅵ') :: (5, 'Ⅴ') :: (4, 'Ⅳ') :: (3, 'Ⅲ') :: (2, 'Ⅱ') :: (1, 'Ⅰ') :: _) ⟨num, text, last, consec, prev⟩ = _
  rw [i2rScan, if_neg (by intro hc; exact absurd (show 1000 ≤ num from hc.2.1) (by omega))]
  show i2rScan mc _ ⟨num, text, last, consec, some 'Ⅿ'⟩ = _
  rw [i2rScan, if_neg (by intro hc; exact absurd (show 500 ≤ num from hc.2.1) (by omega))]
  show i2rScan mc _ ⟨num, text, last, consec, some 'Ⅾ'⟩ = _
  rw [i2rScan, if_neg (by intro hc; exact absurd (show 100 ≤ num from hc.2.1) (by omega))]
  show i2rScan mc _ ⟨num, text, last, consec, some 'Ⅽ'⟩ = _
  rw [i2rScan, if_neg (by intro hc; exact absurd (show 50 ≤ num from hc.2.1) (by omega))]
  show i2rScan mc _ ⟨num, text, last, consec, some 'Ⅼ'⟩ = _
  rw [i2rScan, if_neg (by intro hc; exact hc.2.2 (by decide))]
  show i2rScan mc _ ⟨num, text, last, consec, some 'Ⅼ'⟩ = _
  rw [i2rScan, if_neg (by intro hc; exact hc.2.2 (by decide))]
  show i2rScan mc _ ⟨num, text, last, consec, some 'Ⅼ'⟩ = _
  rw [i2rScan, if_neg (by intro hc; exact absurd (show 10 ≤ num from hc.2.1) (by omega))]
  show i2rScan mc _ ⟨num, text, last, consec, some 'Ⅹ'⟩ = _
  rw [i2rScan, if_neg (by intro hc; exact absurd (show 9 ≤ num from hc.2.1) (by omega))]
  show i2rScan mc _ ⟨num, text, last, consec, some 'Ⅸ'⟩ = _
  rw [i2rScan, if_neg (by intro hc; exact absurd (show 8 ≤ num from hc.2.1) (by omega))]
  show i2rScan mc _ ⟨num, text, last, consec, some 'Ⅷ'⟩ = _
  rw [i2rScan, if_neg (by intro hc; exact absurd (show 7 ≤ num from hc.2.1) (by omega))]
  show i2rScan mc _ ⟨num, text, last, consec, some 'Ⅶ'⟩ = _
  rw [i2rScan, if_neg (by intro hc; exact absurd (show 6 ≤ num from hc.2.1) (by omega))]
  show i2rScan mc _ ⟨num, text, last, consec, some 'Ⅵ'⟩ = _
  rw [i2rScan, if_neg (by intro hc; exact absurd (show 5 ≤ num from hc.2.1) (by omega))]
  show i2rScan mc _ ⟨num, text, last, consec, some 'Ⅴ'⟩ = _
  rw [i2rScan, if_neg (by intro hc; exact absurd (show 4 ≤ num from hc.2.1) (by omega))]
  show i2rScan mc _ ⟨num, text, last, consec, some 'Ⅳ'⟩ = _
  rw [i2rScan, if_neg (by intro hc; exact absurd (show 3 ≤ num from hc.2.1) (by omega))]
  show i2rScan mc _ ⟨num, text, last, consec, some 'Ⅲ'⟩ = _
  rw [i2rScan, if_neg (by intro hc; exact absurd (show 2 ≤ num from hc.2.1) (by omega))]
  show i2rScan mc _ ⟨num, text, last, consec, some 'Ⅱ'⟩ = _
  rw [i2rScan, if_pos ⟨by decide, show 1 ≤ num by omega, by decide⟩]


/-! ## Digit-phase behaviour of the standard `int2roman` loop -/

theorem take_sub_append (T L : List Char) (k : Nat) (hk : k ≤ L.length) :
    (T ++ L).take ((T ++ L).length - k) = T ++ L.take (L.length - k) := by
  rw [List.length_append]
  have h : T.length + L.length - k = T.length + (L.length - k) := by omega
  rw [h, List.take_append]

theorem i2rLoop_step (mc : Nat) (e c : Bool) (fuel : Nat) (s s' : I2RState)
    (h0 : s.num ≠ 0) (hth : s.num < 1000 * (mc + 1))
    (hscan : i2rScan mc ROMAN_UNICODE_R s = .ok s') :
    i2rLoop mc e c (fuel + 1) s = i2rLoop mc e c fuel s' := by
  rw [i2rLoop, if_neg h0, if_pos hth, hscan]

theorem i2rLoop_exit (mc : Nat) (e c : Bool) (fuel : Nat) (s : I2RState)
    (h0 : s.num = 0) :
    i2rLoop mc e c (fuel + 1) s = some (.ok s.text) := by
  rw [i2rLoop, if_pos h0]

/-- Unicode rendering of the thousands digit produced by the loop. -/
def uniThousands (a : Nat) : List Char := List.replicate a 'Ⅿ'

/-- Unicode rendering of the hundreds digit produced by the loop (note the
backtracking forms `ⅭⅮ` for 4 and `ⅮⅭⅮ` for 9). -/
def uniHundreds : Nat → List Char
  | 0 => [] | 1 => ['Ⅽ'] | 2 => ['Ⅽ', 'Ⅽ'] | 3 => ['Ⅽ', 'Ⅽ', 'Ⅽ'] | 4 => ['Ⅽ', 'Ⅾ']
  | 5 => ['Ⅾ'] | 6 => ['Ⅾ', 'Ⅽ'] | 7 => ['Ⅾ', 'Ⅽ', 'Ⅽ'] | 8 => ['Ⅾ', 'Ⅽ', 'Ⅽ', 'Ⅽ']
  | _ => ['Ⅾ', 'Ⅽ', 'Ⅾ']

/-- Unicode rendering of the tens digit (`ⅩⅬ` for 4, `ⅬⅩⅬ` for 9). -/
def uniTens : Nat → List Char
  | 0 => [] | 1 => ['Ⅹ'] | 2 => ['Ⅹ', 'Ⅹ'] | 3 => ['Ⅹ', 'Ⅹ', 'Ⅹ'] | 4 => ['Ⅹ', 'Ⅼ']
  | 5 => ['Ⅼ'] | 6 => ['Ⅼ', 'Ⅹ'] | 7 => ['Ⅼ', 'Ⅹ', 'Ⅹ'] | 8 => ['Ⅼ', 'Ⅹ', 'Ⅹ', 'Ⅹ']
  | _ => ['Ⅼ', 'Ⅹ', 'Ⅼ']

/-- Unicode rendering of the units digit (a single compound glyph). -/
def uniUnits : Nat → List Char
  | 1 => ['Ⅰ'] | 2 => ['Ⅱ'] | 3 => ['Ⅲ'] | 4 => ['Ⅳ'] | 5 => ['Ⅴ'] | 6 => ['Ⅵ']
  | 7 => ['Ⅶ'] | 8 => ['Ⅷ'] | 9 => ['Ⅸ'] | _ => []

/-- Loop iterations consumed by the hundreds digit. -/
def hSteps : Nat → Nat
  | 0 => 0 | 1 => 1 | 2 => 2 | 3 => 3 | 4 => 4 | 5 => 1 | 6 => 2 | 7 => 3 | 8 => 4 | _ => 5

/-- Loop iterations consumed by the tens digit. -/
def tSteps : Nat → Nat
  | 0 => 0 | 1 => 1 | 2 => 2 | 3 => 3 | 4 => 4 | 5 => 1 | 6 => 2 | 7 => 3 | 8 => 4 | _ => 5

/-- Loop iterations consumed by the units digit. -/
def uSteps : Nat → Nat
  | 0 => 0 | _ => 1

/-- `last_key` after the thousands phase. -/
def mLast : Nat → Option Char
  | 0 => none | _ => some 'Ⅿ'

/-- `last_key` after the hundreds phase. -/
def hdLast (h : Nat) (l : Option Char) : Option Char :=
  match h with | 0 => l | 5 => some 'Ⅾ' | _ => some 'Ⅽ'

/-- `consecutive` after the hundreds phase. -/
def hdConsec (h : Nat) (c : Nat) : Nat :=
  match h with
  | 0 => c | 1 => 0 | 2 => 1 | 3 => 2 | 4 => 3
  | 5 => 0 | 6 => 0 | 7 => 1 | 8 => 2 | _ => 3

/-- `prev_key` after the hundreds phase. -/
def hdPrev (h : Nat) (p : Option Char) : Option Char :=
  match h with | 0 => p | 5 => some 'Ⅿ' | _ => some 'Ⅾ'

/-- `last_key` after the tens phase. -/
def tnLast (t : Nat) (l : Option Char) : Option Char :=
  match t with | 0 => l | 5 => some 'Ⅼ' | _ => some 'Ⅹ'

/-- `prev_key` after the tens phase. -/
def tnPrev (t : Nat) (p : Option Char) : Option Char :=
  match t with | 0 => p | 5 => some 'Ⅽ' | _ => some 'Ⅼ'

/-- `consecutive` after the tens phase. -/
def tnConsec (t : Nat) (c : Nat) : Nat :=
  match t with
  | 0 => c | 1 => 0 | 2 => 1 | 3 => 2 | 4 => 3
  | 5 => 0 | 6 => 0 | 7 => 1 | 8 => 2 | _ => 3

theorem i2rPhaseM (e c : Bool) (fuel a r : Nat) (ha : a ≤ 3) (hr : r ≤ 999) :
    i2rLoop 3 e c (fuel + a) ⟨1000 * a + r, [], none, 0, none⟩ =
      i2rLoop 3 e c fuel ⟨r, uniThousands a, mLast a, a - 1, none⟩ := by
  interval_cases a
  · have h0 : 1000 * 0 + r = r := by omega
    rw [h0]
    simp [uniThousands, mLast]
  · show i2rLoop 3 e c (fuel + 1) ⟨1000 + r, [], none, 0, none⟩ =
      i2rLoop 3 e c fuel ⟨r, ['Ⅿ'], some 'Ⅿ', 0, none⟩
    have e1 : i2rScan 3 ROMAN_UNICODE_R ⟨1000 + r, [], none, 0, none⟩ =
        .ok ⟨1000 + r - 1000, ['Ⅿ'], some 'Ⅿ', 0, none⟩ := by
      rw [i2rScan_M 3 (1000 + r) ([]) (none) (0) (none) (by omega)]
      simp +decide [List.append_assoc]
    rw [i2rLoop_step 3 e c (fuel) _ _ (by show 1000 + r ≠ 0; omega)
      (by show 1000 + r < 1000 * (3 + 1); omega) e1]
    have hfix : 1000 + r - 1000 = r := by omega
    rw [hfix]
  · show i2rLoop 3 e c (fuel + 2) ⟨2000 + r, [], none, 0, none⟩ =
      i2rLoop 3 e c fuel ⟨r, ['Ⅿ', 'Ⅿ'], some 'Ⅿ', 1, none⟩
    have e1 : i2rScan 3 ROMAN_UNICODE_R ⟨2000 + r, [], none, 0, none⟩ =
        .ok ⟨2000 + r - 1000, ['Ⅿ'], some 'Ⅿ', 0, none⟩ := by
      rw [i2rScan_M 3 (2000 + r) ([]) (none) (0) (none) (by omega)]
      simp +decide [List.append_assoc]
    rw [i2rLoop_step 3 e c (fuel + 1) _ _ (by show 2000 + r ≠ 0; omega)
      (by show 2000 + r < 1000 * (3 + 1); omega) e1]
    have e2 : i2rScan 3 ROMAN_UNICODE_R ⟨2000 + r - 1000, ['Ⅿ'], some 'Ⅿ', 0, none⟩ =
        .ok ⟨2000 + r - 1000 - 1000, ['Ⅿ', 'Ⅿ'], some 'Ⅿ', 1, none⟩ := by
      rw [i2rScan_M 3 (2000 + r - 1000) (['Ⅿ']) (some 'Ⅿ') (0) (none) (by omega)]
      simp +decide [List.append_assoc]
    rw [i2rLoop_step 3 e c (fuel) _ _ (by show 2000 + r - 1000 ≠ 0; omega)
      (by show 2000 + r - 1000 < 1000 * (3 + 1); omega) e2]
    have hfix : 2000 + r - 1000 - 1000 = r := by omega
    rw [hfix]
  · show i2rLoop 3 e c (fuel + 3) ⟨3000 + r, [], none, 0, none⟩ =
      i2rLoop 3 e c fuel ⟨r, ['Ⅿ', 'Ⅿ', 'Ⅿ'], some 'Ⅿ', 2, none⟩
    have e1 : i2rScan 3 ROMAN_UNICODE_R ⟨3000 + r, [], none, 0, none⟩ =
        .ok ⟨3000 + r - 1000, ['Ⅿ'], some 'Ⅿ', 0, none⟩ := by
      rw [i2rScan_M 3 (3000 + r) ([]) (none) (0) (none) (by omega)]
      simp +decide [List.append_assoc]
    rw [i2rLoop_step 3 e c (fuel + 2) _ _ (by show 3000 + r ≠ 0; omega)
      (by show 3000 + r < 1000 * (3 + 1); omega) e1]
    have e2 : i2rScan 3 ROMAN_UNICODE_R ⟨3000 + r - 1000, ['Ⅿ'], some 'Ⅿ', 0, none⟩ =
        .ok ⟨3000 + r - 1000 - 1000, ['Ⅿ', 'Ⅿ'], some 'Ⅿ', 1, none⟩ := by
      rw [i2rScan_M 3 (3000 + r - 1000) (['Ⅿ']) (some 'Ⅿ') (0) (none) (by omega)]
      simp +decide [List.append_assoc]
    rw [i2rLoop_step 3 e c (fuel + 1) _ _ (by show 3000 + r - 1000 ≠ 0; omega)
      (by show 3000 + r - 1000 < 1000 * (3 + 1); omega) e2]
    have e3 : i2rScan 3 ROMAN_UNICODE_R ⟨3000 + r - 1000 - 1000, ['Ⅿ', 'Ⅿ'], some 'Ⅿ', 1, none⟩ =
        .ok ⟨3000 + r - 1000 - 1000 - 1000, ['Ⅿ', 'Ⅿ', 'Ⅿ'], some 'Ⅿ', 2, none⟩ := by
      rw [i2rScan_M 3 (3000 + r - 1000 - 1000) (['Ⅿ', 'Ⅿ']) (some 'Ⅿ') (1) (none) (by omega)]
      simp +decide [List.append_assoc]
    rw [i2rLoop_step 3 e c (fuel) _ _ (by show 3000 + r - 1000 - 1000 ≠ 0; omega)
      (by show 3000 + r - 1000 - 1000 < 1000 * (3 + 1); omega) e3]
    have hfix : 3000 + r - 1000 - 1000 - 1000 = r := by omega
    rw [hfix]

theorem i2rPhaseH (e c : Bool) (fuel h r : Nat) (T₀ : List Char) (last₀ : Option Char)
    (consec₀ : Nat) (prev₀ : Option Char) (hh : h ≤ 9) (hr : r ≤ 99)
    (hne1 : last₀ ≠ some 'Ⅽ') (hne2 : last₀ ≠ some 'Ⅾ') :
    i2rLoop 3 e c (fuel + hSteps h) ⟨100 * h + r, T₀, last₀, consec₀, prev₀⟩ =
      i2rLoop 3 e c fuel ⟨r, T₀ ++ uniHundreds h, hdLast h last₀, hdConsec h consec₀, hdPrev h prev₀⟩ := by
  interval_cases h
  · have h0 : 100 * 0 + r = r := by omega
    rw [h0]
    simp [hSteps, uniHundreds, hdLast, hdConsec, hdPrev]
  · show i2rLoop 3 e c (fuel + 1) ⟨100 + r, T₀, last₀, consec₀, prev₀⟩ =
      i2rLoop 3 e c fuel ⟨r, T₀ ++ ['Ⅽ'], some 'Ⅽ', 0, some 'Ⅾ'⟩
    have e1 : i2rScan 3 ROMAN_UNICODE_R ⟨100 + r, T₀, last₀, consec₀, prev₀⟩ =
        .ok ⟨100 + r - 100, T₀ ++ ['Ⅽ'], some 'Ⅽ', 0, some 'Ⅾ'⟩ := by
      rw [i2rScan_C 3 (100 + r) (T₀) (last₀) (consec₀) (prev₀) (by omega) (by omega)]
      have hnex : (some 'Ⅽ' = last₀) = False := eq_false fun hx => hne1 hx.symm
      simp +decide [List.append_assoc, hnex]
    rw [i2rLoop_step 3 e c (fuel) _ _ (by show 100 + r ≠ 0; omega)
      (by show 100 + r < 1000 * (3 + 1); omega) e1]
    have hfix : 100 + r - 100 = r := by omega
    rw [hfix]
  · show i2rLoop 3 e c (fuel + 2) ⟨200 + r, T₀, last₀, consec₀, prev₀⟩ =
      i2rLoop 3 e c fuel ⟨r, T₀ ++ ['Ⅽ', 'Ⅽ'], some 'Ⅽ', 1, some 'Ⅾ'⟩
    have e1 : i2rScan 3 ROMAN_UNICODE_R ⟨200 + r, T₀, last₀, consec₀, prev₀⟩ =
        .ok ⟨200 + r - 100, T₀ ++ ['Ⅽ'], some 'Ⅽ', 0, some 'Ⅾ'⟩ := by
      rw [i2rScan_C 3 (200 + r) (T₀) (last₀) (consec₀) (prev₀) (by omega) (by omega)]
      have hnex : (some 'Ⅽ' = last₀) = False := eq_false fun hx => hne1 hx.symm
      simp +decide [List.append_assoc, hnex]
    rw [i2rLoop_step 3 e c (fuel + 1) _ _ (by show 200 + r ≠ 0; omega)
      (by show 200 + r < 1000 * (3 + 1); omega) e1]
    have e2 : i2rScan 3 ROMAN_UNICODE_R ⟨200 + r - 100, T₀ ++ ['Ⅽ'], some 'Ⅽ', 0, some 'Ⅾ'⟩ =
        .ok ⟨200 + r - 100 - 100, T₀ ++ ['Ⅽ', 'Ⅽ'], some 'Ⅽ', 1, some 'Ⅾ'⟩ := by
      rw [i2rScan_C 3 (200 + r - 100) (T₀ ++ ['Ⅽ']) (some 'Ⅽ') (0) (some 'Ⅾ') (by omega) (by omega)]
      simp +decide [List.append_assoc]
    rw [i2rLoop_step 3 e c (fuel) _ _ (by show 200 + r - 100 ≠ 0; omega)
      (by show 200 + r - 100 < 1000 * (3 + 1); omega) e2]
    have hfix : 200 + r - 100 - 100 = r := by omega
    rw [hfix]
  · show i2rLoop 3 e c (fuel + 3) ⟨300 + r, T₀, last₀, consec₀, prev₀⟩ =
      i2rLoop 3 e c fuel ⟨r, T₀ ++ ['Ⅽ', 'Ⅽ', 'Ⅽ'], some 'Ⅽ', 2, some 'Ⅾ'⟩
    have e1 : i2rScan 3 ROMAN_UNICODE_R ⟨300 + r, T₀, last₀, consec₀, prev₀⟩ =
        .ok ⟨300 + r - 100, T₀ ++ ['Ⅽ'], some 'Ⅽ', 0, some 'Ⅾ'⟩ := by
      rw [i2rScan_C 3 (300 + r) (T₀) (last₀) (consec₀) (prev₀) (by omega) (by omega)]
      have hnex : (some 'Ⅽ' = last₀) = False := eq_false fun hx => hne1 hx.symm
      simp +decide [List.append_assoc, hnex]
    rw [i2rLoop_step 3 e c (fuel + 2) _ _ (by show 300 + r ≠ 0; omega)
      (by show 300 + r < 1000 * (3 + 1); omega) e1]
    have e2 : i2rScan 3 ROMAN_UNICODE_R ⟨300 + r - 100, T₀ ++ ['Ⅽ'], some 'Ⅽ', 0, some 'Ⅾ'⟩ =
        .ok ⟨300 + r - 100 - 100, T₀ ++ ['Ⅽ', 'Ⅽ'], some 'Ⅽ', 1, some 'Ⅾ'⟩ := by
      rw [i2rScan_C 3 (300 + r - 100) (T₀ ++ ['Ⅽ']) (some 'Ⅽ') (0) (some 'Ⅾ') (by omega) (by omega)]
      simp +decide [List.append_assoc]
    rw [i2rLoop_step 3 e c (fuel + 1) _ _ (by show 300 + r - 100 ≠ 0; omega)
      (by show 300 + r - 100 < 1000 * (3 + 1); omega) e2]
    have e3 : i2rScan 3 ROMAN_UNICODE_R ⟨300 + r - 100 - 100, T₀ ++ ['Ⅽ', 'Ⅽ'], some 'Ⅽ', 1, some 'Ⅾ'⟩ =
        .ok ⟨300 + r - 100 - 100 - 100, T₀ ++ ['Ⅽ', 'Ⅽ', 'Ⅽ'], some 'Ⅽ', 2, some 'Ⅾ'⟩ := by
      rw [i2rScan_C 3 (300 + r - 100 - 100) (T₀ ++ ['Ⅽ', 'Ⅽ']) (some 'Ⅽ') (1) (some 'Ⅾ') (by omega) (by omega)]
      simp +decide [List.append_assoc]
    rw [i2rLoop_step 3 e c (fuel) _ _ (by show 300 + r - 100 - 100 ≠ 0; omega)
      (by show 300 + r - 100 - 100 < 1000 * (3 + 1); omega) e3]
    have hfix : 300 + r - 100 - 100 - 100 = r := by omega
    rw [hfix]
  · show i2rLoop 3 e c (fuel + 4) ⟨400 + r, T₀, last₀, consec₀, prev₀⟩ =
      i2rLoop 3 e c fuel ⟨r, T₀ ++ ['Ⅽ', 'Ⅾ'], some 'Ⅽ', 3, some 'Ⅾ'⟩
    have e1 : i2rScan 3 ROMAN_UNICODE_R ⟨400 + r, T₀, last₀, consec₀, prev₀⟩ =
        .ok ⟨400 + r - 100, T₀ ++ ['Ⅽ'], some 'Ⅽ', 0, some 'Ⅾ'⟩ := by
      rw [i2rScan_C 3 (400 + r) (T₀) (last₀) (consec₀) (prev₀) (by omega) (by omega)]
      have hnex : (some 'Ⅽ' = last₀) = False := eq_false fun hx => hne1 hx.symm
      simp +decide [List.append_assoc, hnex]
    rw [i2rLoop_step 3 e c (fuel + 3) _ _ (by show 400 + r ≠ 0; omega)
      (by show 400 + r < 1000 * (3 + 1); omega) e1]
    have e2 : i2rScan 3 ROMAN_UNICODE_R ⟨400 + r - 100, T₀ ++ ['Ⅽ'], some 'Ⅽ', 0, some 'Ⅾ'⟩ =
        .ok ⟨400 + r - 100 - 100, T₀ ++ ['Ⅽ', 'Ⅽ'], some 'Ⅽ', 1, some 'Ⅾ'⟩ := by
      rw [i2rScan_C 3 (400 + r - 100) (T₀ ++ ['Ⅽ']) (some 'Ⅽ') (0) (some 'Ⅾ') (by omega) (by omega)]
      simp +decide [List.append_assoc]
    rw [i2rLoop_step 3 e c (fuel + 2) _ _ (by show 400 + r - 100 ≠ 0; omega)
      (by show 400 + r - 100 < 1000 * (3 + 1); omega) e2]
    have e3 : i2rScan 3 ROMAN_UNICODE_R ⟨400 + r - 100 - 100, T₀ ++ ['Ⅽ', 'Ⅽ'], some 'Ⅽ', 1, some 'Ⅾ'⟩ =
        .ok ⟨400 + r - 100 - 100 - 100, T₀ ++ ['Ⅽ', 'Ⅽ', 'Ⅽ'], some 'Ⅽ', 2, some 'Ⅾ'⟩ := by
      rw [i2rScan_C 3 (400 + r - 100 - 100) (T₀ ++ ['Ⅽ', 'Ⅽ']) (some 'Ⅽ') (1) (some 'Ⅾ') (by omega) (by omega)]
      simp +decide [List.append_assoc]
    rw [i2rLoop_step 3 e c (fuel + 1) _ _ (by show 400 + r - 100 - 100 ≠ 0; omega)
      (by show 400 + r - 100 - 100 < 1000 * (3 + 1); omega) e3]
    have e4 : i2rScan 3 ROMAN_UNICODE_R ⟨400 + r - 100 - 100 - 100, T₀ ++ ['Ⅽ', 'Ⅽ', 'Ⅽ'], some 'Ⅽ', 2, some 'Ⅾ'⟩ =
        .ok ⟨400 + r - 100 - 100 - 100 - 100, T₀ ++ ['Ⅽ', 'Ⅾ'], some 'Ⅽ', 3, some 'Ⅾ'⟩ := by
      rw [i2rScan_C 3 (400 + r - 100 - 100 - 100) (T₀ ++ ['Ⅽ', 'Ⅽ', 'Ⅽ']) (some 'Ⅽ') (2) (some 'Ⅾ') (by omega) (by omega)]
      simp +decide [List.append_assoc, List.take_append]
    rw [i2rLoop_step 3 e c (fuel) _ _ (by show 400 + r - 100 - 100 - 100 ≠ 0; omega)
      (by show 400 + r - 100 - 100 - 100 < 1000 * (3 + 1); omega) e4]
    have hfix : 400 + r - 100 - 100 - 100 - 100 = r := by omega
    rw [hfix]
  · show i2rLoop 3 e c (fuel + 1) ⟨500 + r, T₀, last₀, consec₀, prev₀⟩ =
      i2rLoop 3 e c fuel ⟨r, T₀ ++ ['Ⅾ'], some 'Ⅾ', 0, some 'Ⅿ'⟩
    have e1 : i2rScan 3 ROMAN_UNICODE_R ⟨500 + r, T₀, last₀, consec₀, prev₀⟩ =
        .ok ⟨500 + r - 500, T₀ ++ ['Ⅾ'], some 'Ⅾ', 0, some 'Ⅿ'⟩ := by
      rw [i2rScan_D 3 (500 + r) (T₀) (last₀) (consec₀) (prev₀) (by omega) (by omega)]
      have hnex : (some 'Ⅾ' = last₀) = False := eq_false fun hx => hne2 hx.symm
      simp +decide [List.append_assoc, hnex]
    rw [i2rLoop_step 3 e c (fuel) _ _ (by show 500 + r ≠ 0; omega)
      (by show 500 + r < 1000 * (3 + 1); omega) e1]
    have hfix : 500 + r - 500 = r := by omega
    rw [hfix]
  · show i2rLoop 3 e c (fuel + 2) ⟨600 + r, T₀, last₀, consec₀, prev₀⟩ =
      i2rLoop 3 e c fuel ⟨r, T₀ ++ ['Ⅾ', 'Ⅽ'], some 'Ⅽ', 0, some 'Ⅾ'⟩
    have e1 : i2rScan 3 ROMAN_UNICODE_R ⟨600 + r, T₀, last₀, consec₀, prev₀⟩ =
        .ok ⟨600 + r - 500, T₀ ++ ['Ⅾ'], some 'Ⅾ', 0, some 'Ⅿ'⟩ := by
      rw [i2rScan_D 3 (600 + r) (T₀) (last₀) (consec₀) (prev₀) (by omega) (by omega)]
      have hnex : (some 'Ⅾ' = last₀) = False := eq_false fun hx => hne2 hx.symm
      simp +decide [List.append_assoc, hnex]
    rw [i2rLoop_step 3 e c (fuel + 1) _ _ (by show 600 + r ≠ 0; omega)
      (by show 600 + r < 1000 * (3 + 1); omega) e1]
    have e2 : i2rScan 3 ROMAN_UNICODE_R ⟨600 + r - 500, T₀ ++ ['Ⅾ'], some 'Ⅾ', 0, some 'Ⅿ'⟩ =
        .ok ⟨600 + r - 500 - 100, T₀ ++ ['Ⅾ', 'Ⅽ'], some 'Ⅽ', 0, some 'Ⅾ'⟩ := by
      rw [i2rScan_C 3 (600 + r - 500) (T₀ ++ ['Ⅾ']) (some 'Ⅾ') (0) (some 'Ⅿ') (by omega) (by omega)]
      simp +decide [List.append_assoc]
    rw [i2rLoop_step 3 e c (fuel) _ _ (by show 600 + r - 500 ≠ 0; omega)
      (by show 600 + r - 500 < 1000 * (3 + 1); omega) e2]
    have hfix : 600 + r - 500 - 100 = r := by omega
    rw [hfix]
  · show i2rLoop 3 e c (fuel + 3) ⟨700 + r, T₀, last₀, consec₀, prev₀⟩ =
      i2rLoop 3 e c fuel ⟨r, T₀ ++ ['Ⅾ', 'Ⅽ', 'Ⅽ'], some 'Ⅽ', 1, some 'Ⅾ'⟩
    have e1 : i2rScan 3 ROMAN_UNICODE_R ⟨700 + r, T₀, last₀, consec₀, prev₀⟩ =
        .ok ⟨700 + r - 500, T₀ ++ ['Ⅾ'], some 'Ⅾ', 0, some 'Ⅿ'⟩ := by
      rw [i2rScan_D 3 (700 + r) (T₀) (last₀) (consec₀) (prev₀) (by omega) (by omega)]
      have hnex : (some 'Ⅾ' = last₀) = False := eq_false fun hx => hne2 hx.symm
      simp +decide [List.append_assoc, hnex]
    rw [i2rLoop_step 3 e c (fuel + 2) _ _ (by show 700 + r ≠ 0; omega)
      (by show 700 + r < 1000 * (3 + 1); omega) e1]
    have e2 : i2rScan 3 ROMAN_UNICODE_R ⟨700 + r - 500, T₀ ++ ['Ⅾ'], some 'Ⅾ', 0, some 'Ⅿ'⟩ =
        .ok ⟨700 + r - 500 - 100, T₀ ++ ['Ⅾ', 'Ⅽ'], some 'Ⅽ', 0, some 'Ⅾ'⟩ := by
      rw [i2rScan_C 3 (700 + r - 500) (T₀ ++ ['Ⅾ']) (some 'Ⅾ') (0) (some 'Ⅿ') (by omega) (by omega)]
      simp +decide [List.append_assoc]
    rw [i2rLoop_step 3 e c (fuel + 1) _ _ (by show 700 + r - 500 ≠ 0; omega)
      (by show 700 + r - 500 < 1000 * (3 + 1); omega) e2]
    have e3 : i2rScan 3 ROMAN_UNICODE_R ⟨700 + r - 500 - 100, T₀ ++ ['Ⅾ', 'Ⅽ'], some 'Ⅽ', 0, some 'Ⅾ'⟩ =
        .ok ⟨700 + r - 500 - 100 - 100, T₀ ++ ['Ⅾ', 'Ⅽ', 'Ⅽ'], some 'Ⅽ', 1, some 'Ⅾ'⟩ := by
      rw [i2rScan_C 3 (700 + r - 500 - 100) (T₀ ++ ['Ⅾ', 'Ⅽ']) (some 'Ⅽ') (0) (some 'Ⅾ') (by omega) (by omega)]
      simp +decide [List.append_assoc]
    rw [i2rLoop_step 3 e c (fuel) _ _ (by show 700 + r - 500 - 100 ≠ 0; omega)
      (by show 700 + r - 500 - 100 < 1000 * (3 + 1); omega) e3]
    have hfix : 700 + r - 500 - 100 - 100 = r := by omega
    rw [hfix]
  · show i2rLoop 3 e c (fuel + 4) ⟨800 + r, T₀, last₀, consec₀, prev₀⟩ =
      i2rLoop 3 e c fuel ⟨r, T₀ ++ ['Ⅾ', 'Ⅽ', 'Ⅽ', 'Ⅽ'], some 'Ⅽ', 2, some 'Ⅾ'⟩
    have e1 : i2rScan 3 ROMAN_UNICODE_R ⟨800 + r, T₀, last₀, consec₀, prev₀⟩ =
        .ok ⟨800 + r - 500, T₀ ++ ['Ⅾ'], some 'Ⅾ', 0, some 'Ⅿ'⟩ := by
      rw [i2rScan_D 3 (800 + r) (T₀) (last₀) (consec₀) (prev₀) (by omega) (by omega)]
      have hnex : (some 'Ⅾ' = last₀) = False := eq_false fun hx => hne2 hx.symm
      simp +decide [List.append_assoc, hnex]
    rw [i2rLoop_step 3 e c (fuel + 3) _ _ (by show 800 + r ≠ 0; omega)
      (by show 800 + r < 1000 * (3 + 1); omega) e1]
    have e2 : i2rScan 3 ROMAN_UNICODE_R ⟨800 + r - 500, T₀ ++ ['Ⅾ'], some 'Ⅾ', 0, some 'Ⅿ'⟩ =
        .ok ⟨800 + r - 500 - 100, T₀ ++ ['Ⅾ', 'Ⅽ'], some 'Ⅽ', 0, some 'Ⅾ'⟩ := by
      rw [i2rScan_C 3 (800 + r - 500) (T₀ ++ ['Ⅾ']) (some 'Ⅾ') (0) (some 'Ⅿ') (by omega) (by omega)]
      simp +decide [List.append_assoc]
    rw [i2rLoop_step 3 e c (fuel + 2) _ _ (by show 800 + r - 500 ≠ 0; omega)
      (by show 800 + r - 500 < 1000 * (3 + 1); omega) e2]
    have e3 : i2rScan 3 ROMAN_UNICODE_R ⟨800 + r - 500 - 100, T₀ ++ ['Ⅾ', 'Ⅽ'], some 'Ⅽ', 0, some 'Ⅾ'⟩ =
        .ok ⟨800 + r - 500 - 100 - 100, T₀ ++ ['Ⅾ', 'Ⅽ', 'Ⅽ'], some 'Ⅽ', 1, some 'Ⅾ'⟩ := by
      rw [i2rScan_C 3 (800 + r - 500 - 100) (T₀ ++ ['Ⅾ', 'Ⅽ']) (some 'Ⅽ') (0) (some 'Ⅾ') (by omega) (by omega)]
      simp +decide [List.append_assoc]
    rw [i2rLoop_step 3 e c (fuel + 1) _ _ (by show 800 + r - 500 - 100 ≠ 0; omega)
      (by show 800 + r - 500 - 100 < 1000 * (3 + 1); omega) e3]
    have e4 : i2rScan 3 ROMAN_UNICODE_R ⟨800 + r - 500 - 100 - 100, T₀ ++ ['Ⅾ', 'Ⅽ', 'Ⅽ'], some 'Ⅽ', 1, some 'Ⅾ'⟩ =
        .ok ⟨800 + r - 500 - 100 - 100 - 100, T₀ ++ ['Ⅾ', 'Ⅽ', 'Ⅽ', 'Ⅽ'], some 'Ⅽ', 2, some 'Ⅾ'⟩ := by
      rw [i2rScan_C 3 (800 + r - 500 - 100 - 100) (T₀ ++ ['Ⅾ', 'Ⅽ', 'Ⅽ']) (some 'Ⅽ') (1) (some 'Ⅾ') (by omega) (by omega)]
      simp +decide [List.append_assoc]
    rw [i2rLoop_step 3 e c (fuel) _ _ (by show 800 + r - 500 - 100 - 100 ≠ 0; omega)
      (by show 800 + r - 500 - 100 - 100 < 1000 * (3 + 1); omega) e4]
    have hfix : 800 + r - 500 - 100 - 100 - 100 = r := by omega
    rw [hfix]
  · show i2rLoop 3 e c (fuel + 5) ⟨900 + r, T₀, last₀, consec₀, prev₀⟩ =
      i2rLoop 3 e c fuel ⟨r, T₀ ++ ['Ⅾ', 'Ⅽ', 'Ⅾ'], some 'Ⅽ', 3, some 'Ⅾ'⟩
    have e1 : i2rScan 3 ROMAN_UNICODE_R ⟨900 + r, T₀, last₀, consec₀, prev₀⟩ =
        .ok ⟨900 + r - 500, T₀ ++ ['Ⅾ'], some 'Ⅾ', 0, some 'Ⅿ'⟩ := by
      rw [i2rScan_D 3 (900 + r) (T₀) (last₀) (consec₀) (prev₀) (by omega) (by omega)]
      have hnex : (some 'Ⅾ' = last₀) = False := eq_false fun hx => hne2 hx.symm
      simp +decide [List.append_assoc, hnex]
    rw [i2rLoop_step 3 e c (fuel + 4) _ _ (by show 900 + r ≠ 0; omega)
      (by show 900 + r < 1000 * (3 + 1); omega) e1]
    have e2 : i2rScan 3 ROMAN_UNICODE_R ⟨900 + r - 500, T₀ ++ ['Ⅾ'], some 'Ⅾ', 0, some 'Ⅿ'⟩ =
        .ok ⟨900 + r - 500 - 100, T₀ ++ ['Ⅾ', 'Ⅽ'], some 'Ⅽ', 0, some 'Ⅾ'⟩ := by
      rw [i2rScan_C 3 (900 + r - 500) (T₀ ++ ['Ⅾ']) (some 'Ⅾ') (0) (some 'Ⅿ') (by omega) (by omega)]
      simp +decide [List.append_assoc]
    rw [i2rLoop_step 3 e c (fuel + 3) _ _ (by show 900 + r - 500 ≠ 0; omega)
      (by show 900 + r - 500 < 1000 * (3 + 1); omega) e2]
    have e3 : i2rScan 3 ROMAN_UNICODE_R ⟨900 + r - 500 - 100, T₀ ++ ['Ⅾ', 'Ⅽ'], some 'Ⅽ', 0, some 'Ⅾ'⟩ =
        .ok ⟨900 + r - 500 - 100 - 100, T₀ ++ ['Ⅾ', 'Ⅽ', 'Ⅽ'], some 'Ⅽ', 1, some 'Ⅾ'⟩ := by
      rw [i2rScan_C 3 (900 + r - 500 - 100) (T₀ ++ ['Ⅾ', 'Ⅽ']) (some 'Ⅽ') (0) (some 'Ⅾ') (by omega) (by omega)]
      simp +decide [List.append_assoc]
    rw [i2rLoop_step 3 e c (fuel + 2) _ _ (by show 900 + r - 500 - 100 ≠ 0; omega)
      (by show 900 + r - 500 - 100 < 1000 * (3 + 1); omega) e3]
    have e4 : i2rScan 3 ROMAN_UNICODE_R ⟨900 + r - 500 - 100 - 100, T₀ ++ ['Ⅾ', 'Ⅽ', 'Ⅽ'], some 'Ⅽ', 1, some 'Ⅾ'⟩ =
        .ok ⟨900 + r - 500 - 100 - 100 - 100, T₀ ++ ['Ⅾ', 'Ⅽ', 'Ⅽ', 'Ⅽ'], some 'Ⅽ', 2, some 'Ⅾ'⟩ := by
      rw [i2rScan_C 3 (900 + r - 500 - 100 - 100) (T₀ ++ ['Ⅾ', 'Ⅽ', 'Ⅽ']) (some 'Ⅽ') (1) (some 'Ⅾ') (by omega) (by omega)]
      simp +decide [List.append_assoc]
    rw [i2rLoop_step 3 e c (fuel + 1) _ _ (by show 900 + r - 500 - 100 - 100 ≠ 0; omega)
      (by show 900 + r - 500 - 100 - 100 < 1000 * (3 + 1); omega) e4]
    have e5 : i2rScan 3 ROMAN_UNICODE_R ⟨900 + r - 500 - 100 - 100 - 100, T₀ ++ ['Ⅾ', 'Ⅽ', 'Ⅽ', 'Ⅽ'], some 'Ⅽ', 2, some 'Ⅾ'⟩ =
        .ok ⟨900 + r - 500 - 100 - 100 - 100 - 100, T₀ ++ ['Ⅾ', 'Ⅽ', 'Ⅾ'], some 'Ⅽ', 3, some 'Ⅾ'⟩ := by
      rw [i2rScan_C 3 (900 + r - 500 - 100 - 100 - 100) (T₀ ++ ['Ⅾ', 'Ⅽ', 'Ⅽ', 'Ⅽ']) (some 'Ⅽ') (2) (some 'Ⅾ') (by omega) (by omega)]
      simp +decide [List.append_assoc, List.take_append]
    rw [i2rLoop_step 3 e c (fuel) _ _ (by show 900 + r - 500 - 100 - 100 - 100 ≠ 0; omega)
      (by show 900 + r - 500 - 100 - 100 - 100 < 1000 * (3 + 1); omega) e5]
    have hfix : 900 + r - 500 - 100 - 100 - 100 - 100 = r := by omega
    rw [hfix]

theorem i2rPhaseT (e c : Bool) (fuel t u : Nat) (T₀ : List Char) (last₀ : Option Char)
    (consec₀ : Nat) (prev₀ : Option Char) (ht : t ≤ 9) (hu : u ≤ 9)
    (hne1 : last₀ ≠ some 'Ⅹ') (hne2 : last₀ ≠ some 'Ⅼ') :
    i2rLoop 3 e c (fuel + tSteps t) ⟨10 * t + u, T₀, last₀, consec₀, prev₀⟩ =
      i2rLoop 3 e c fuel ⟨u, T₀ ++ uniTens t, tnLast t last₀, tnConsec t consec₀, tnPrev t prev₀⟩ := by
  interval_cases t
  · have h0 : 10 * 0 + u = u := by omega
    rw [h0]
    simp [tSteps, uniTens, tnLast, tnConsec, tnPrev]
  · show i2rLoop 3 e c (fuel + 1) ⟨10 + u, T₀, last₀, consec₀, prev₀⟩ =
      i2rLoop 3 e c fuel ⟨u, T₀ ++ ['Ⅹ'], some 'Ⅹ', 0, some 'Ⅼ'⟩
    have e1 : i2rScan 3 ROMAN_UNICODE_R ⟨10 + u, T₀, last₀, consec₀, prev₀⟩ =
        .ok ⟨10 + u - 10, T₀ ++ ['Ⅹ'], some 'Ⅹ', 0, some 'Ⅼ'⟩ := by
      rw [i2rScan_X 3 (10 + u) (T₀) (last₀) (consec₀) (prev₀) (by omega) (by omega)]
      have hnex : (some 'Ⅹ' = last₀) = False := eq_false fun hx => hne1 hx.symm
      simp +decide [List.append_assoc, hnex]
    rw [i2rLoop_step 3 e c (fuel) _ _ (by show 10 + u ≠ 0; omega)
      (by show 10 + u < 1000 * (3 + 1); omega) e1]
    have hfix : 10 + u - 10 = u := by omega
    rw [hfix]
  · show i2rLoop 3 e c (fuel + 2) ⟨20 + u, T₀, last₀, consec₀, prev₀⟩ =
      i2rLoop 3 e c fuel ⟨u, T₀ ++ ['Ⅹ', 'Ⅹ'], some 'Ⅹ', 1, some 'Ⅼ'⟩
    have e1 : i2rScan 3 ROMAN_UNICODE_R ⟨20 + u, T₀, last₀, consec₀, prev₀⟩ =
        .ok ⟨20 + u - 10, T₀ ++ ['Ⅹ'], some 'Ⅹ', 0, some 'Ⅼ'⟩ := by
      rw [i2rScan_X 3 (20 + u) (T₀) (last₀) (consec₀) (prev₀) (by omega) (by omega)]
      have hnex : (some 'Ⅹ' = last₀) = False := eq_false fun hx => hne1 hx.symm
      simp +decide [List.append_assoc, hnex]
    rw [i2rLoop_step 3 e c (fuel + 1) _ _ (by show 20 + u ≠ 0; omega)
      (by show 20 + u < 1000 * (3 + 1); omega) e1]
    have e2 : i2rScan 3 ROMAN_UNICODE_R ⟨20 + u - 10, T₀ ++ ['Ⅹ'], some 'Ⅹ', 0, some 'Ⅼ'⟩ =
        .ok ⟨20 + u - 10 - 10, T₀ ++ ['Ⅹ', 'Ⅹ'], some 'Ⅹ', 1, some 'Ⅼ'⟩ := by
      rw [i2rScan_X 3 (20 + u - 10) (T₀ ++ ['Ⅹ']) (some 'Ⅹ') (0) (some 'Ⅼ') (by omega) (by omega)]
      simp +decide [List.append_assoc]
    rw [i2rLoop_step 3 e c (fuel) _ _ (by show 20 + u - 10 ≠ 0; omega)
      (by show 20 + u - 10 < 1000 * (3 + 1); omega) e2]
    have hfix : 20 + u - 10 - 10 = u := by omega
    rw [hfix]
  · show i2rLoop 3 e c (fuel + 3) ⟨30 + u, T₀, last₀, consec₀, prev₀⟩ =
      i2rLoop 3 e c fuel ⟨u, T₀ ++ ['Ⅹ', 'Ⅹ', 'Ⅹ'], some 'Ⅹ', 2, some 'Ⅼ'⟩
    have e1 : i2rScan 3 ROMAN_UNICODE_R ⟨30 + u, T₀, last₀, consec₀, prev₀⟩ =
        .ok ⟨30 + u - 10, T₀ ++ ['Ⅹ'], some 'Ⅹ', 0, some 'Ⅼ'⟩ := by
      rw [i2rScan_X 3 (30 + u) (T₀) (last₀) (consec₀) (prev₀) (by omega) (by omega)]
      have hnex : (some 'Ⅹ' = last₀) = False := eq_false fun hx => hne1 hx.symm
      simp +decide [List.append_assoc, hnex]
    rw [i2rLoop_step 3 e c (fuel + 2) _ _ (by show 30 + u ≠ 0; omega)
      (by show 30 + u < 1000 * (3 + 1); omega) e1]
    have e2 : i2rScan 3 ROMAN_UNICODE_R ⟨30 + u - 10, T₀ ++ ['Ⅹ'], some 'Ⅹ', 0, some 'Ⅼ'⟩ =
        .ok ⟨30 + u - 10 - 10, T₀ ++ ['Ⅹ', 'Ⅹ'], some 'Ⅹ', 1, some 'Ⅼ'⟩ := by
      rw [i2rScan_X 3 (30 + u - 10) (T₀ ++ ['Ⅹ']) (some 'Ⅹ') (0) (some 'Ⅼ') (by omega) (by omega)]
      simp +decide [List.append_assoc]
    rw [i2rLoop_step 3 e c (fuel + 1) _ _ (by show 30 + u - 10 ≠ 0; omega)
      (by show 30 + u - 10 < 1000 * (3 + 1); omega) e2]
    have e3 : i2rScan 3 ROMAN_UNICODE_R ⟨30 + u - 10 - 10, T₀ ++ ['Ⅹ', 'Ⅹ'], some 'Ⅹ', 1, some 'Ⅼ'⟩ =
        .ok ⟨30 + u - 10 - 10 - 10, T₀ ++ ['Ⅹ', 'Ⅹ', 'Ⅹ'], some 'Ⅹ', 2, some 'Ⅼ'⟩ := by
      rw [i2rScan_X 3 (30 + u - 10 - 10) (T₀ ++ ['Ⅹ', 'Ⅹ']) (some 'Ⅹ') (1) (some 'Ⅼ') (by omega) (by omega)]
      simp +decide [List.append_assoc]
    rw [i2rLoop_step 3 e c (fuel) _ _ (by show 30 + u - 10 - 10 ≠ 0; omega)
      (by show 30 + u - 10 - 10 < 1000 * (3 + 1); omega) e3]
    have hfix : 30 + u - 10 - 10 - 10 = u := by omega
    rw [hfix]
  · show i2rLoop 3 e c (fuel + 4) ⟨40 + u, T₀, last₀, consec₀, prev₀⟩ =
      i2rLoop 3 e c fuel ⟨u, T₀ ++ ['Ⅹ', 'Ⅼ'], some 'Ⅹ', 3, some 'Ⅼ'⟩
    have e1 : i2rScan 3 ROMAN_UNICODE_R ⟨40 + u, T₀, last₀, consec₀, prev₀⟩ =
        .ok ⟨40 + u - 10, T₀ ++ ['Ⅹ'], some 'Ⅹ', 0, some 'Ⅼ'⟩ := by
      rw [i2rScan_X 3 (40 + u) (T₀) (last₀) (consec₀) (prev₀) (by omega) (by omega)]
      have hnex : (some 'Ⅹ' = last₀) = False := eq_false fun hx => hne1 hx.symm
      simp +decide [List.append_assoc, hnex]
    rw [i2rLoop_step 3 e c (fuel + 3) _ _ (by show 40 + u ≠ 0; omega)
      (by show 40 + u < 1000 * (3 + 1); omega) e1]
    have e2 : i2rScan 3 ROMAN_UNICODE_R ⟨40 + u - 10, T₀ ++ ['Ⅹ'], some 'Ⅹ', 0, some 'Ⅼ'⟩ =
        .ok ⟨40 + u - 10 - 10, T₀ ++ ['Ⅹ', 'Ⅹ'], some 'Ⅹ', 1, some 'Ⅼ'⟩ := by
      rw [i2rScan_X 3 (40 + u - 10) (T₀ ++ ['Ⅹ']) (some 'Ⅹ') (0) (some 'Ⅼ') (by omega) (by omega)]
      simp +decide [List.append_assoc]
    rw [i2rLoop_step 3 e c (fuel + 2) _ _ (by show 40 + u - 10 ≠ 0; omega)
      (by show 40 + u - 10 < 1000 * (3 + 1); omega) e2]
    have e3 : i2rScan 3 ROMAN_UNICODE_R ⟨40 + u - 10 - 10, T₀ ++ ['Ⅹ', 'Ⅹ'], some 'Ⅹ', 1, some 'Ⅼ'⟩ =
        .ok ⟨40 + u - 10 - 10 - 10, T₀ ++ ['Ⅹ', 'Ⅹ', 'Ⅹ'], some 'Ⅹ', 2, some 'Ⅼ'⟩ := by
      rw [i2rScan_X 3 (40 + u - 10 - 10) (T₀ ++ ['Ⅹ', 'Ⅹ']) (some 'Ⅹ') (1) (some 'Ⅼ') (by omega) (by omega)]
      simp +decide [List.append_assoc]
    rw [i2rLoop_step 3 e c (fuel + 1) _ _ (by show 40 + u - 10 - 10 ≠ 0; omega)
      (by show 40 + u - 10 - 10 < 1000 * (3 + 1); omega) e3]
    have e4 : i2rScan 3 ROMAN_UNICODE_R ⟨40 + u - 10 - 10 - 10, T₀ ++ ['Ⅹ', 'Ⅹ', 'Ⅹ'], some 'Ⅹ', 2, some 'Ⅼ'⟩ =
        .ok ⟨40 + u - 10 - 10 - 10 - 10, T₀ ++ ['Ⅹ', 'Ⅼ'], some 'Ⅹ', 3, some 'Ⅼ'⟩ := by
      rw [i2rScan_X 3 (40 + u - 10 - 10 - 10) (T₀ ++ ['Ⅹ', 'Ⅹ', 'Ⅹ']) (some 'Ⅹ') (2) (some 'Ⅼ') (by omega) (by omega)]
      simp +decide [List.append_assoc, List.take_append]
    rw [i2rLoop_step 3 e c (fuel) _ _ (by show 40 + u - 10 - 10 - 10 ≠ 0; omega)
      (by show 40 + u - 10 - 10 - 10 < 1000 * (3 + 1); omega) e4]
    have hfix : 40 + u - 10 - 10 - 10 - 10 = u := by omega
    rw [hfix]
  · show i2rLoop 3 e c (fuel + 1) ⟨50 + u, T₀, last₀, consec₀, prev₀⟩ =
      i2rLoop 3 e c fuel ⟨u, T₀ ++ ['Ⅼ'], some 'Ⅼ', 0, some 'Ⅽ'⟩
    have e1 : i2rScan 3 ROMAN_UNICODE_R ⟨50 + u, T₀, last₀, consec₀, prev₀⟩ =
        .ok ⟨50 + u - 50, T₀ ++ ['Ⅼ'], some 'Ⅼ', 0, some 'Ⅽ'⟩ := by
      rw [i2rScan_L 3 (50 + u) (T₀) (last₀) (consec₀) (prev₀) (by omega) (by omega)]
      have hnex : (some 'Ⅼ' = last₀) = False := eq_false fun hx => hne2 hx.symm
      simp +decide [List.append_assoc, hnex]
    rw [i2rLoop_step 3 e c (fuel) _ _ (by show 50 + u ≠ 0; omega)
      (by show 50 + u < 1000 * (3 + 1); omega) e1]
    have hfix : 50 + u - 50 = u := by omega
    rw [hfix]
  · show i2rLoop 3 e c (fuel + 2) ⟨60 + u, T₀, last₀, consec₀, prev₀⟩ =
      i2rLoop 3 e c fuel ⟨u, T₀ ++ ['Ⅼ', 'Ⅹ'], some 'Ⅹ', 0, some 'Ⅼ'⟩
    have e1 : i2rScan 3 ROMAN_UNICODE_R ⟨60 + u, T₀, last₀, consec₀, prev₀⟩ =
        .ok ⟨60 + u - 50, T₀ ++ ['Ⅼ'], some 'Ⅼ', 0, some 'Ⅽ'⟩ := by
      rw [i2rScan_L 3 (60 + u) (T₀) (last₀) (consec₀) (prev₀) (by omega) (by omega)]
      have hnex : (some 'Ⅼ' = last₀) = False := eq_false fun hx => hne2 hx.symm
      simp +decide [List.append_assoc, hnex]
    rw [i2rLoop_step 3 e c (fuel + 1) _ _ (by show 60 + u ≠ 0; omega)
      (by show 60 + u < 1000 * (3 + 1); omega) e1]
    have e2 : i2rScan 3 ROMAN_UNICODE_R ⟨60 + u - 50, T₀ ++ ['Ⅼ'], some 'Ⅼ', 0, some 'Ⅽ'⟩ =
        .ok ⟨60 + u - 50 - 10, T₀ ++ ['Ⅼ', 'Ⅹ'], some 'Ⅹ', 0, some 'Ⅼ'⟩ := by
      rw [i2rScan_X 3 (60 + u - 50) (T₀ ++ ['Ⅼ']) (some 'Ⅼ') (0) (some 'Ⅽ') (by omega) (by omega)]
      simp +decide [List.append_assoc]
    rw [i2rLoop_step 3 e c (fuel) _ _ (by show 60 + u - 50 ≠ 0; omega)
      (by show 60 + u - 50 < 1000 * (3 + 1); omega) e2]
    have hfix : 60 + u - 50 - 10 = u := by omega
    rw [hfix]
  · show i2rLoop 3 e c (fuel + 3) ⟨70 + u, T₀, last₀, consec₀, prev₀⟩ =
      i2rLoop 3 e c fuel ⟨u, T₀ ++ ['Ⅼ', 'Ⅹ', 'Ⅹ'], some 'Ⅹ', 1, some 'Ⅼ'⟩
    have e1 : i2rScan 3 ROMAN_UNICODE_R ⟨70 + u, T₀, last₀, consec₀, prev₀⟩ =
        .ok ⟨70 + u - 50, T₀ ++ ['Ⅼ'], some 'Ⅼ', 0, some 'Ⅽ'⟩ := by
      rw [i2rScan_L 3 (70 + u) (T₀) (last₀) (consec₀) (prev₀) (by omega) (by omega)]
      have hnex : (some 'Ⅼ' = last₀) = False := eq_false fun hx => hne2 hx.symm
      simp +decide [List.append_assoc, hnex]
    rw [i2rLoop_step 3 e c (fuel + 2) _ _ (by show 70 + u ≠ 0; omega)
      (by show 70 + u < 1000 * (3 + 1); omega) e1]
    have e2 : i2rScan 3 ROMAN_UNICODE_R ⟨70 + u - 50, T₀ ++ ['Ⅼ'], some 'Ⅼ', 0, some 'Ⅽ'⟩ =
        .ok ⟨70 + u - 50 - 10, T₀ ++ ['Ⅼ', 'Ⅹ'], some 'Ⅹ', 0, some 'Ⅼ'⟩ := by
      rw [i2rScan_X 3 (70 + u - 50) (T₀ ++ ['Ⅼ']) (some 'Ⅼ') (0) (some 'Ⅽ') (by omega) (by omega)]
      simp +decide [List.append_assoc]
    rw [i2rLoop_step 3 e c (fuel + 1) _ _ (by show 70 + u - 50 ≠ 0; omega)
      (by show 70 + u - 50 < 1000 * (3 + 1); omega) e2]
    have e3 : i2rScan 3 ROMAN_UNICODE_R ⟨70 + u - 50 - 10, T₀ ++ ['Ⅼ', 'Ⅹ'], some 'Ⅹ', 0, some 'Ⅼ'⟩ =
        .ok ⟨70 + u - 50 - 10 - 10, T₀ ++ ['Ⅼ', 'Ⅹ', 'Ⅹ'], some 'Ⅹ', 1, some 'Ⅼ'⟩ := by
      rw [i2rScan_X 3 (70 + u - 50 - 10) (T₀ ++ ['Ⅼ', 'Ⅹ']) (some 'Ⅹ') (0) (some 'Ⅼ') (by omega) (by omega)]
      simp +decide [List.append_assoc]
    rw [i2rLoop_step 3 e c (fuel) _ _ (by show 70 + u - 50 - 10 ≠ 0; omega)
      (by show 70 + u - 50 - 10 < 1000 * (3 + 1); omega) e3]
    have hfix : 70 + u - 50 - 10 - 10 = u := by omega
    rw [hfix]
  · show i2rLoop 3 e c (fuel + 4) ⟨80 + u, T₀, last₀, consec₀, prev₀⟩ =
      i2rLoop 3 e c fuel ⟨u, T₀ ++ ['Ⅼ', 'Ⅹ', 'Ⅹ', 'Ⅹ'], some 'Ⅹ', 2, some 'Ⅼ'⟩
    have e1 : i2rScan 3 ROMAN_UNICODE_R ⟨80 + u, T₀, last₀, consec₀, prev₀⟩ =
        .ok ⟨80 + u - 50, T₀ ++ ['Ⅼ'], some 'Ⅼ', 0, some 'Ⅽ'⟩ := by
      rw [i2rScan_L 3 (80 + u) (T₀) (last₀) (consec₀) (prev₀) (by omega) (by omega)]
      have hnex : (some 'Ⅼ' = last₀) = False := eq_false fun hx => hne2 hx.symm
      simp +decide [List.append_assoc, hnex]
    rw [i2rLoop_step 3 e c (fuel + 3) _ _ (by show 80 + u ≠ 0; omega)
      (by show 80 + u < 1000 * (3 + 1); omega) e1]
    have e2 : i2rScan 3 ROMAN_UNICODE_R ⟨80 + u - 50, T₀ ++ ['Ⅼ'], some 'Ⅼ', 0, some 'Ⅽ'⟩ =
        .ok ⟨80 + u - 50 - 10, T₀ ++ ['Ⅼ', 'Ⅹ'], some 'Ⅹ', 0, some 'Ⅼ'⟩ := by
      rw [i2rScan_X 3 (80 + u - 50) (T₀ ++ ['Ⅼ']) (some 'Ⅼ') (0) (some 'Ⅽ') (by omega) (by omega)]
      simp +decide [List.append_assoc]
    rw [i2rLoop_step 3 e c (fuel + 2) _ _ (by show 80 + u - 50 ≠ 0; omega)
      (by show 80 + u - 50 < 1000 * (3 + 1); omega) e2]
    have e3 : i2rScan 3 ROMAN_UNICODE_R ⟨80 + u - 50 - 10, T₀ ++ ['Ⅼ', 'Ⅹ'], some 'Ⅹ', 0, some 'Ⅼ'⟩ =
        .ok ⟨80 + u - 50 - 10 - 10, T₀ ++ ['Ⅼ', 'Ⅹ', 'Ⅹ'], some 'Ⅹ', 1, some 'Ⅼ'⟩ := by
      rw [i2rScan_X 3 (80 + u - 50 - 10) (T₀ ++ ['Ⅼ', 'Ⅹ']) (some 'Ⅹ') (0) (some 'Ⅼ') (by omega) (by omega)]
      simp +decide [List.append_assoc]
    rw [i2rLoop_step 3 e c (fuel + 1) _ _ (by show 80 + u - 50 - 10 ≠ 0; omega)
      (by show 80 + u - 50 - 10 < 1000 * (3 + 1); omega) e3]
    have e4 : i2rScan 3 ROMAN_UNICODE_R ⟨80 + u - 50 - 10 - 10, T₀ ++ ['Ⅼ', 'Ⅹ', 'Ⅹ'], some 'Ⅹ', 1, some 'Ⅼ'⟩ =
        .ok ⟨80 + u - 50 - 10 - 10 - 10, T₀ ++ ['Ⅼ', 'Ⅹ', 'Ⅹ', 'Ⅹ'], some 'Ⅹ', 2, some 'Ⅼ'⟩ := by
      rw [i2rScan_X 3 (80 + u - 50 - 10 - 10) (T₀ ++ ['Ⅼ', 'Ⅹ', 'Ⅹ']) (some 'Ⅹ') (1) (some 'Ⅼ') (by omega) (by omega)]
      simp +decide [List.append_assoc]
    rw [i2rLoop_step 3 e c (fuel) _ _ (by show 80 + u - 50 - 10 - 10 ≠ 0; omega)
      (by show 80 + u - 50 - 10 - 10 < 1000 * (3 + 1); omega) e4]
    have hfix : 80 + u - 50 - 10 - 10 - 10 = u := by omega
    rw [hfix]
  · show i2rLoop 3 e c (fuel + 5) ⟨90 + u, T₀, last₀, consec₀, prev₀⟩ =
      i2rLoop 3 e c fuel ⟨u, T₀ ++ ['Ⅼ', 'Ⅹ', 'Ⅼ'], some 'Ⅹ', 3, some 'Ⅼ'⟩
    have e1 : i2rScan 3 ROMAN_UNICODE_R ⟨90 + u, T₀, last₀, consec₀, prev₀⟩ =
        .ok ⟨90 + u - 50, T₀ ++ ['Ⅼ'], some 'Ⅼ', 0, some 'Ⅽ'⟩ := by
      rw [i2rScan_L 3 (90 + u) (T₀) (last₀) (consec₀) (prev₀) (by omega) (by omega)]
      have hnex : (some 'Ⅼ' = last₀) = False := eq_false fun hx => hne2 hx.symm
      simp +decide [List.append_assoc, hnex]
    rw [i2rLoop_step 3 e c (fuel + 4) _ _ (by show 90 + u ≠ 0; omega)
      (by show 90 + u < 1000 * (3 + 1); omega) e1]
    have e2 : i2rScan 3 ROMAN_UNICODE_R ⟨90 + u - 50, T₀ ++ ['Ⅼ'], some 'Ⅼ', 0, some 'Ⅽ'⟩ =
        .ok ⟨90 + u - 50 - 10, T₀ ++ ['Ⅼ', 'Ⅹ'], some 'Ⅹ', 0, some 'Ⅼ'⟩ := by
      rw [i2rScan_X 3 (90 + u - 50) (T₀ ++ ['Ⅼ']) (some 'Ⅼ') (0) (some 'Ⅽ') (by omega) (by omega)]
      simp +decide [List.append_assoc]
    rw [i2rLoop_step 3 e c (fuel + 3) _ _ (by show 90 + u - 50 ≠ 0; omega)
      (by show 90 + u - 50 < 1000 * (3 + 1); omega) e2]
    have e3 : i2rScan 3 ROMAN_UNICODE_R ⟨90 + u - 50 - 10, T₀ ++ ['Ⅼ', 'Ⅹ'], some 'Ⅹ', 0, some 'Ⅼ'⟩ =
        .ok ⟨90 + u - 50 - 10 - 10, T₀ ++ ['Ⅼ', 'Ⅹ', 'Ⅹ'], some 'Ⅹ', 1, some 'Ⅼ'⟩ := by
      rw [i2rScan_X 3 (90 + u - 50 - 10) (T₀ ++ ['Ⅼ', 'Ⅹ']) (some 'Ⅹ') (0) (some 'Ⅼ') (by omega) (by omega)]
      simp +decide [List.append_assoc]
    rw [i2rLoop_step 3 e c (fuel + 2) _ _ (by show 90 + u - 50 - 10 ≠ 0; omega)
      (by show 90 + u - 50 - 10 < 1000 * (3 + 1); omega) e3]
    have e4 : i2rScan 3 ROMAN_UNICODE_R ⟨90 + u - 50 - 10 - 10, T₀ ++ ['Ⅼ', 'Ⅹ', 'Ⅹ'], some 'Ⅹ', 1, some 'Ⅼ'⟩ =
        .ok ⟨90 + u - 50 - 10 - 10 - 10, T₀ ++ ['Ⅼ', 'Ⅹ', 'Ⅹ', 'Ⅹ'], some 'Ⅹ', 2, some 'Ⅼ'⟩ := by
      rw [i2rScan_X 3 (90 + u - 50 - 10 - 10) (T₀ ++ ['Ⅼ', 'Ⅹ', 'Ⅹ']) (some 'Ⅹ') (1) (some 'Ⅼ') (by omega) (by omega)]
      simp +decide [List.append_assoc]
    rw [i2rLoop_step 3 e c (fuel + 1) _ _ (by show 90 + u - 50 - 10 - 10 ≠ 0; omega)
      (by show 90 + u - 50 - 10 - 10 < 1000 * (3 + 1); omega) e4]
    have e5 : i2rScan 3 ROMAN_UNICODE_R ⟨90 + u - 50 - 10 - 10 - 10, T₀ ++ ['Ⅼ', 'Ⅹ', 'Ⅹ', 'Ⅹ'], some 'Ⅹ', 2, some 'Ⅼ'⟩ =
        .ok ⟨90 + u - 50 - 10 - 10 - 10 - 10, T₀ ++ ['Ⅼ', 'Ⅹ', 'Ⅼ'], some 'Ⅹ', 3, some 'Ⅼ'⟩ := by
      rw [i2rScan_X 3 (90 + u - 50 - 10 - 10 - 10) (T₀ ++ ['Ⅼ', 'Ⅹ', 'Ⅹ', 'Ⅹ']) (some 'Ⅹ') (2) (some 'Ⅼ') (by omega) (by omega)]
      simp +decide [List.append_assoc, List.take_append]
    rw [i2rLoop_step 3 e c (fuel) _ _ (by show 90 + u - 50 - 10 - 10 - 10 ≠ 0; omega)
      (by show 90 + u - 50 - 10 - 10 - 10 < 1000 * (3 + 1); omega) e5]
    have hfix : 90 + u - 50 - 10 - 10 - 10 - 10 = u := by omega
    rw [hfix]

theorem i2rPhaseU (e c : Bool) (fuel u : Nat) (T₀ : List Char) (last₀ : Option Char)
    (consec₀ : Nat) (prev₀ : Option Char) (hu : u ≤ 9)
    (hne : ∀ g ∈ (['Ⅰ', 'Ⅱ', 'Ⅲ', 'Ⅳ', 'Ⅴ', 'Ⅵ', 'Ⅶ', 'Ⅷ', 'Ⅸ'] : List Char),
      last₀ ≠ some g) :
    ∃ lastE consecE prevE,
      i2rLoop 3 e c (fuel + uSteps u) ⟨u, T₀, last₀, consec₀, prev₀⟩ =
        i2rLoop 3 e c fuel ⟨0, T₀ ++ uniUnits u, lastE, consecE, prevE⟩ := by
  interval_cases u
  · refine ⟨last₀, consec₀, prev₀, ?_⟩
    simp [uSteps, uniUnits]
  · refine ⟨some 'Ⅰ', 0, some 'Ⅱ', ?_⟩
    show i2rLoop 3 e c (fuel + 1) ⟨1, T₀, last₀, consec₀, prev₀⟩ =
      i2rLoop 3 e c fuel ⟨0, T₀ ++ ['Ⅰ'], some 'Ⅰ', 0, some 'Ⅱ'⟩
    have e1 : i2rScan 3 ROMAN_UNICODE_R ⟨1, T₀, last₀, consec₀, prev₀⟩ =
        .ok ⟨1 - 1, T₀ ++ ['Ⅰ'], some 'Ⅰ', 0, some 'Ⅱ'⟩ := by
      rw [i2rScan_u1 3 (1) (T₀) (last₀) (consec₀) (prev₀) rfl]
      have hnex : (some 'Ⅰ' = last₀) = False := eq_false fun hx => hne 'Ⅰ' (by decide) hx.symm
      simp +decide [List.append_assoc, hnex]
    rw [i2rLoop_step 3 e c (fuel) _ _ (by show 1 ≠ 0; omega)
      (by show 1 < 1000 * (3 + 1); omega) e1]
  · refine ⟨some 'Ⅱ', 0, some 'Ⅲ', ?_⟩
    show i2rLoop 3 e c (fuel + 1) ⟨2, T₀, last₀, consec₀, prev₀⟩ =
      i2rLoop 3 e c fuel ⟨0, T₀ ++ ['Ⅱ'], some 'Ⅱ', 0, some 'Ⅲ'⟩
    have e1 : i2rScan 3 ROMAN_UNICODE_R ⟨2, T₀, last₀, consec₀, prev₀⟩ =
        .ok ⟨2 - 2, T₀ ++ ['Ⅱ'], some 'Ⅱ', 0, some 'Ⅲ'⟩ := by
      rw [i2rScan_u2 3 (2) (T₀) (last₀) (consec₀) (prev₀) rfl]
      have hnex : (some 'Ⅱ' = last₀) = False := eq_false fun hx => hne 'Ⅱ' (by decide) hx.symm
      simp +decide [List.append_assoc, hnex]
    rw [i2rLoop_step 3 e c (fuel) _ _ (by show 2 ≠ 0; omega)
      (by show 2 < 1000 * (3 + 1); omega) e1]
  · refine ⟨some 'Ⅲ', 0, some 'Ⅳ', ?_⟩
    show i2rLoop 3 e c (fuel + 1) ⟨3, T₀, last₀, consec₀, prev₀⟩ =
      i2rLoop 3 e c fuel ⟨0, T₀ ++ ['Ⅲ'], some 'Ⅲ', 0, some 'Ⅳ'⟩
    have e1 : i2rScan 3 ROMAN_UNICODE_R ⟨3, T₀, last₀, consec₀, prev₀⟩ =
        .ok ⟨3 - 3, T₀ ++ ['Ⅲ'], some 'Ⅲ', 0, some 'Ⅳ'⟩ := by
      rw [i2rScan_u3 3 (3) (T₀) (last₀) (consec₀) (prev₀) rfl]
      have hnex : (some 'Ⅲ' = last₀) = False := eq_false fun hx => hne 'Ⅲ' (by decide) hx.symm
      simp +decide [List.append_assoc, hnex]
    rw [i2rLoop_step 3 e c (fuel) _ _ (by show 3 ≠ 0; omega)
      (by show 3 < 1000 * (3 + 1); omega) e1]
  · refine ⟨some 'Ⅳ', 0, some 'Ⅴ', ?_⟩
    show i2rLoop 3 e c (fuel + 1) ⟨4, T₀, last₀, consec₀, prev₀⟩ =
      i2rLoop 3 e c fuel ⟨0, T₀ ++ ['Ⅳ'], some 'Ⅳ', 0, some 'Ⅴ'⟩
    have e1 : i2rScan 3 ROMAN_UNICODE_R ⟨4, T₀, last₀, consec₀, prev₀⟩ =
        .ok ⟨4 - 4, T₀ ++ ['Ⅳ'], some 'Ⅳ', 0, some 'Ⅴ'⟩ := by
      rw [i2rScan_u4 3 (4) (T₀) (last₀) (consec₀) (prev₀) rfl]
      have hnex : (some 'Ⅳ' = last₀) = False := eq_false fun hx => hne 'Ⅳ' (by decide) hx.symm
      simp +decide [List.append_assoc, hnex]
    rw [i2rLoop_step 3 e c (fuel) _ _ (by show 4 ≠ 0; omega)
      (by show 4 < 1000 * (3 + 1); omega) e1]
  · refine ⟨some 'Ⅴ', 0, some 'Ⅵ', ?_⟩
    show i2rLoop 3 e c (fuel + 1) ⟨5, T₀, last₀, consec₀, prev₀⟩ =
      i2rLoop 3 e c fuel ⟨0, T₀ ++ ['Ⅴ'], some 'Ⅴ', 0, some 'Ⅵ'⟩
    have e1 : i2rScan 3 ROMAN_UNICODE_R ⟨5, T₀, last₀, consec₀, prev₀⟩ =
        .ok ⟨5 - 5, T₀ ++ ['Ⅴ'], some 'Ⅴ', 0, some 'Ⅵ'⟩ := by
      rw [i2rScan_u5 3 (5) (T₀) (last₀) (consec₀) (prev₀) rfl]
      have hnex : (some 'Ⅴ' = last₀) = False := eq_false fun hx => hne 'Ⅴ' (by decide) hx.symm
      simp +decide [List.append_assoc, hnex]
    rw [i2rLoop_step 3 e c (fuel) _ _ (by show 5 ≠ 0; omega)
      (by show 5 < 1000 * (3 + 1); omega) e1]
  · refine ⟨some 'Ⅵ', 0, some 'Ⅶ', ?_⟩
    show i2rLoop 3 e c (fuel + 1) ⟨6, T₀, last₀, consec₀, prev₀⟩ =
      i2rLoop 3 e c fuel ⟨0, T₀ ++ ['Ⅵ'], some 'Ⅵ', 0, some 'Ⅶ'⟩
    have e1 : i2rScan 3 ROMAN_UNICODE_R ⟨6, T₀, last₀, consec₀, prev₀⟩ =
        .ok ⟨6 - 6, T₀ ++ ['Ⅵ'], some 'Ⅵ', 0, some 'Ⅶ'⟩ := by
      rw [i2rScan_u6 3 (6) (T₀) (last₀) (consec₀) (prev₀) rfl]
      have hnex : (some 'Ⅵ' = last₀) = False := eq_false fun hx => hne 'Ⅵ' (by decide) hx.symm
      simp +decide [List.append_assoc, hnex]
    rw [i2rLoop_step 3 e c (fuel) _ _ (by show 6 ≠ 0; omega)
      (by show 6 < 1000 * (3 + 1); omega) e1]
  · refine ⟨some 'Ⅶ', 0, some 'Ⅷ', ?_⟩
    show i2rLoop 3 e c (fuel + 1) ⟨7, T₀, last₀, consec₀, prev₀⟩ =
      i2rLoop 3 e c fuel ⟨0, T₀ ++ ['Ⅶ'], some 'Ⅶ', 0, some 'Ⅷ'⟩
    have e1 : i2rScan 3 ROMAN_UNICODE_R ⟨7, T₀, last₀, consec₀, prev₀⟩ =
        .ok ⟨7 - 7, T₀ ++ ['Ⅶ'], some 'Ⅶ', 0, some 'Ⅷ'⟩ := by
      rw [i2rScan_u7 3 (7) (T₀) (last₀) (consec₀) (prev₀) rfl]
      have hnex : (some 'Ⅶ' = last₀) = False := eq_false fun hx => hne 'Ⅶ' (by decide) hx.symm
      simp +decide [List.append_assoc, hnex]
    rw [i2rLoop_step 3 e c (fuel) _ _ (by show 7 ≠ 0; omega)
      (by show 7 < 1000 * (3 + 1); omega) e1]
  · refine ⟨some 'Ⅷ', 0, some 'Ⅸ', ?_⟩
    show i2rLoop 3 e c (fuel + 1) ⟨8, T₀, last₀, consec₀, prev₀⟩ =
      i2rLoop 3 e c fuel ⟨0, T₀ ++ ['Ⅷ'], some 'Ⅷ', 0, some 'Ⅸ'⟩
    have e1 : i2rScan 3 ROMAN_UNICODE_R ⟨8, T₀, last₀, consec₀, prev₀⟩ =
        .ok ⟨8 - 8, T₀ ++ ['Ⅷ'], some 'Ⅷ', 0, some 'Ⅸ'⟩ := by
      rw [i2rScan_u8 3 (8) (T₀) (last₀) (consec₀) (prev₀) rfl]
      have hnex : (some 'Ⅷ' = last₀) = False := eq_false fun hx => hne 'Ⅷ' (by decide) hx.symm
      simp +decide [List.append_assoc, hnex]
    rw [i2rLoop_step 3 e c (fuel) _ _ (by show 8 ≠ 0; omega)
      (by show 8 < 1000 * (3 + 1); omega) e1]
  · refine ⟨some 'Ⅸ', 0, some 'Ⅹ', ?_⟩
    show i2rLoop 3 e c (fuel + 1) ⟨9, T₀, last₀, consec₀, prev₀⟩ =
      i2rLoop 3 e c fuel ⟨0, T₀ ++ ['Ⅸ'], some 'Ⅸ', 0, some 'Ⅹ'⟩
    have e1 : i2rScan 3 ROMAN_UNICODE_R ⟨9, T₀, last₀, consec₀, prev₀⟩ =
        .ok ⟨9 - 9, T₀ ++ ['Ⅸ'], some 'Ⅸ', 0, some 'Ⅹ'⟩ := by
      rw [i2rScan_u9 3 (9) (T₀) (last₀) (consec₀) (prev₀) rfl]
      have hnex : (some 'Ⅸ' = last₀) = False := eq_false fun hx => hne 'Ⅸ' (by decide) hx.symm
      simp +decide [List.append_assoc, hnex]
    rw [i2rLoop_step 3 e c (fuel) _ _ (by show 9 ≠ 0; omega)
      (by show 9 < 1000 * (3 + 1); omega) e1]


theorem mLast_ne_C (a : Nat) : mLast a ≠ some 'Ⅽ' := by
  cases a <;> simp +decide [mLast]

theorem mLast_ne_D (a : Nat) : mLast a ≠ some 'Ⅾ' := by
  cases a <;> simp +decide [mLast]

theorem hdLast_ne (h : Nat) (l : Option Char) (hX : l ≠ some 'Ⅹ') (hL : l ≠ some 'Ⅼ') :
    hdLast h l ≠ some 'Ⅹ' ∧ hdLast h l ≠ some 'Ⅼ' := by
  unfold hdLast
  split
  · exact ⟨hX, hL⟩
  · exact ⟨by decide, by decide⟩
  · exact ⟨by decide, by decide⟩

theorem mLast_ne_X (a : Nat) : mLast a ≠ some 'Ⅹ' := by
  cases a <;> simp +decide [mLast]

theorem mLast_ne_L (a : Nat) : mLast a ≠ some 'Ⅼ' := by
  cases a <;> simp +decide [mLast]

theorem mLast_ne_units (a : Nat) :
    ∀ g ∈ (['Ⅰ', 'Ⅱ', 'Ⅲ', 'Ⅳ', 'Ⅴ', 'Ⅵ', 'Ⅶ', 'Ⅷ', 'Ⅸ'] : List Char),
      mLast a ≠ some g := by
  cases a with
  | zero => decide
  | succ k =>
    show ∀ g ∈ (['Ⅰ', 'Ⅱ', 'Ⅲ', 'Ⅳ', 'Ⅴ', 'Ⅵ', 'Ⅶ', 'Ⅷ', 'Ⅸ'] : List Char),
      some 'Ⅿ' ≠ some g
    decide

theorem hdLast_ne_units (h : Nat) (l : Option Char)
    (hl : ∀ g ∈ (['Ⅰ', 'Ⅱ', 'Ⅲ', 'Ⅳ', 'Ⅴ', 'Ⅵ', 'Ⅶ', 'Ⅷ', 'Ⅸ'] : List Char), l ≠ some g) :
    ∀ g ∈ (['Ⅰ', 'Ⅱ', 'Ⅲ', 'Ⅳ', 'Ⅴ', 'Ⅵ', 'Ⅶ', 'Ⅷ', 'Ⅸ'] : List Char),
      hdLast h l ≠ some g := by
  unfold hdLast
  split
  · exact hl
  · decide
  · decide

theorem tnLast_ne_units (t : Nat) (l : Option Char)
    (hl : ∀ g ∈ (['Ⅰ', 'Ⅱ', 'Ⅲ', 'Ⅳ', 'Ⅴ', 'Ⅵ', 'Ⅶ', 'Ⅷ', 'Ⅸ'] : List Char), l ≠ some g) :
    ∀ g ∈ (['Ⅰ', 'Ⅱ', 'Ⅲ', 'Ⅳ', 'Ⅴ', 'Ⅵ', 'Ⅶ', 'Ⅷ', 'Ⅸ'] : List Char),
      tnLast t l ≠ some g := by
  unfold tnLast
  split
  · exact hl
  · decide
  · decide

/-- The standard-range `int2roman` loop renders each decimal digit by the
tables above (thousands, then hundreds, tens, units). -/
theorem i2rLoop_digits (e c : Bool) (a h t u : Nat)
    (ha : a ≤ 3) (hh : h ≤ 9) (ht : t ≤ 9) (hu : u ≤ 9) (fuel : Nat) :
    i2rLoop 3 e c (fuel + (a + hSteps h + tSteps t + uSteps u + 1))
      ⟨1000 * a + (100 * h + (10 * t + u)), [], none, 0, none⟩ =
      some (.ok (uniThousands a ++ uniHundreds h ++ uniTens t ++ uniUnits u)) := by
  have hf1 : fuel + (a + hSteps h + tSteps t + uSteps u + 1) =
      (fuel + 1 + uSteps u + tSteps t + hSteps h) + a := by omega
  rw [hf1, i2rPhaseM e c _ a _ ha (by omega)]
  have hf2 : fuel + 1 + uSteps u + tSteps t + hSteps h =
      (fuel + 1 + uSteps u + tSteps t) + hSteps h := by omega
  rw [hf2, i2rPhaseH e c _ h (10 * t + u) _ _ _ _ hh (by omega)
    (mLast_ne_C a) (mLast_ne_D a)]
  have hne := hdLast_ne h (mLast a) (mLast_ne_X a) (mLast_ne_L a)
  have hf3 : fuel + 1 + uSteps u + tSteps t = (fuel + 1 + uSteps u) + tSteps t := by omega
  rw [hf3, i2rPhaseT e c _ t u _ _ _ _ ht hu hne.1 hne.2]
  have hneu := tnLast_ne_units t _ (hdLast_ne_units h _ (mLast_ne_units a))
  obtain ⟨lE, cE, pE, hU⟩ := i2rPhaseU e c (fuel + 1) u
    (uniThousands a ++ uniHundreds h ++ uniTens t)
    (tnLast t (hdLast h (mLast a))) (tnConsec t (hdConsec h (a - 1)))
    (tnPrev t (hdPrev h none)) hu hneu
  have hf4 : fuel + 1 + uSteps u = (fuel + 1) + uSteps u := by omega
  rw [hf4, hU, i2rLoop_exit 3 e c fuel _ rfl]

/-! ## Claim theorems for the bijective codec -/

/-- C1 (counterexample): the claim quantifies over every alphabet of 2–26
unique, non-overlapping tokens with `'-'` not among them; `[['a'], [' ']]`
is such an alphabet, yet `tokens2int (int2tokens 1) = 0 ≠ 1` because
`tokens2int` strips the whitespace-only encoding of `1` before scanning. -/
theorem C1_counterexample :
    (['a'] : List Char) ≠ [' '] ∧ ¬ (['a'] : List Char) <:+ [' '] ∧
      ¬ ([' '] : List Char) <:+ ['a'] ∧ ([['a'], [' ']] : List (List Char)).Nodup ∧
      ('-' : Char) ∉ (['a'] : List Char) ∧ ('-' : Char) ∉ ([' '] : List Char) ∧
      int2tokens 1 [['a'], [' ']] '-' = some [' '] ∧
      tokens2int [' '] [['a'], [' ']] '-' = some (.ok 0) := by
  refine ⟨by decide, by decide, by decide, by decide, by decide, by decide, by decide, by decide⟩

/-- C1 (amended): for every alphabet of 2–26 unique, non-overlapping
(suffix-free) tokens that contain neither the sign character `'-'` nor any
whitespace character, and every integer `n` in `[-9999, 9999]`, decoding the
encoding returns `n`. -/
theorem C1_bijective_roundtrip (tokens : List (List Char)) (n : Int)
    (h2 : 2 ≤ tokens.length) (h26 : tokens.length ≤ 26) (hnd : tokens.Nodup)
    (hsf : ∀ a ∈ tokens, ∀ b ∈ tokens, a ≠ b → ¬ a <:+ b)
    (hdash : ∀ t ∈ tokens, '-' ∉ t)
    (hws : ∀ t ∈ tokens, ∀ c ∈ t, pyIsSpace c = false)
    (hlo : -9999 ≤ n) (hhi : n ≤ 9999) :
    ∃ text, int2tokens n tokens '-' = some text ∧
      tokens2int text tokens '-' = some (.ok n) :=
  bij_roundtrip h2 hnd hsf hdash hws n

theorem C1_bijective_roundtrip_witness :
    ∃ text, int2tokens 161 [['p', 'o'], ['t', 'a']] '-' = some text ∧
      tokens2int text [['p', 'o'], ['t', 'a']] '-' = some (.ok 161) :=
  C1_bijective_roundtrip [['p', 'o'], ['t', 'a']] 161 (by decide) (by decide) (by decide)
    (by decide) (by decide) (by decide) (by decide) (by decide)

/-- C4 (counterexample): the token set `[['a','b']]` has one unique,
non-overlapping entry, and every character of the text `"b"` is drawn from
the tokens' characters, yet the suffix-stripping scan of `tokens2int` never
terminates on it: each pass over the token list strips nothing, leaves the
state unchanged and the `while` loop never exits. -/
theorem C4_counterexample :
    (['b'].all (tokensChars [['a', 'b']]).contains = true) ∧
      tokens2int ['b'] [['a', 'b']] '-' = none ∧
      t2iDiverges ['b'] [['a', 'b']] :=
  ⟨by decide, by decide, fun fuel => t2iLoop_b_stuck fuel true⟩

/-- C4 (amended): for every token set of unique, non-overlapping
(suffix-free), nonempty tokens containing neither the sign character nor
whitespace, and every input text that is a concatenation of tokens, the
suffix-stripping scan of `tokens2int` consumes the text and the call
returns an integer. -/
theorem C4_decode_terminates (tokens : List (List Char)) (ds : List Nat)
    (hne : ∀ t ∈ tokens, t ≠ []) (hnd : tokens.Nodup)
    (hsf : ∀ a ∈ tokens, ∀ b ∈ tokens, a ≠ b → ¬ a <:+ b)
    (hdash : ∀ t ∈ tokens, '-' ∉ t)
    (hws : ∀ t ∈ tokens, ∀ c ∈ t, pyIsSpace c = false)
    (hds : ∀ d ∈ ds, d < tokens.length) :
    tokens2int (buildText tokens ds) tokens '-' =
      some (.ok (bijVal tokens.length 0 ds)) :=
  tokens2int_concat hne hnd hsf hdash hws ds hds

theorem C4_decode_terminates_witness :
    tokens2int (buildText [['a', 'b']] [0, 0]) [['a', 'b']] '-' =
      some (.ok (bijVal ([['a', 'b']] : List (List Char)).length 0 [0, 0])) :=
  C4_decode_terminates [['a', 'b']] [0, 0] (by decide) (by decide) (by decide)
    (by decide) (by decide) (by decide)

/-- C8 (counterexample): `int2tokens` performs no check at all on the
negative sign: with `'-'` itself a token, it happily returns the encoding
`"-"` of `0` instead of raising (its embedding has no error outcome other
than an empty token set). -/
theorem C8_counterexample :
    (['-'] : List Char) ∈ ([['-'], ['a']] : List (List Char)) ∧
      int2tokens 0 [['-'], ['a']] '-' = some ['-'] := by
  refine ⟨by decide, by decide⟩

/-- C8 (amended): the decoders `tokens2int` and `letter2int` raise the
collision error at call time whenever the sign equals a token (resp. occurs
in the alphabet), but the encoder `int2tokens` performs no such check and
returns normally whenever the token set is nonempty. -/
theorem C8_sign_collision (text : List Char) (tokens : List (List Char))
    (alphabet : List Char) (negSign : Char) (n : Int)
    (h : [negSign] ∈ tokens) (h' : negSign ∈ alphabet) (hk : tokens ≠ []) :
    tokens2int text tokens negSign = some (.error .signInTokens) ∧
      letter2int text alphabet negSign = .error .signInTokens ∧
      int2tokens n tokens negSign ≠ none := by
  refine ⟨?_, ?_, ?_⟩
  · unfold tokens2int
    rw [if_pos h]
  · unfold letter2int
    rw [if_pos h']
  · unfold int2tokens
    have hlen : ¬ tokens.length = 0 := by
      cases tokens with
      | nil => exact absurd rfl hk
      | cons t ts => simp
    rw [if_neg hlen]
    by_cases hn : n < 0
    · rw [if_pos hn]; simp
    · rw [if_neg hn]; simp

theorem C8_sign_collision_witness :
    tokens2int [] [['-'], ['a']] '-' = some (.error .signInTokens) ∧
      letter2int [] ['-', 'a'] '-' = .error .signInTokens ∧
      int2tokens 0 [['-'], ['a']] '-' ≠ none :=
  C8_sign_collision [] [['-'], ['a']] ['-', 'a'] '-' 0 (by decide) (by decide) (by decide)

/-! ## Character-wise view of the transliteration passes

Every pattern of `_ROMAN_UNICODE_TO_ASCII` and of the reversed alternatives
table is a single character, so those `str.replace` passes act independently
on each character of the text; this section proves that they equal a
`List.flatMap` of a per-character translation. -/

/-- `pyReplaceGo` does not depend on the fuel once the fuel exceeds the text
length (each step consumes at least one character when the pattern is
nonempty). -/
theorem pyReplaceGo_congr (pat rep : List Char) (hpat : pat ≠ []) :
    ∀ f₁, ∀ s : List Char, ∀ f₂, s.length < f₁ → s.length < f₂ →
      pyReplaceGo pat rep f₁ s = pyReplaceGo pat rep f₂ s := by
  intro f₁
  induction f₁ with
  | zero => intro s f₂ h1 h2; omega
  | succ f ih =>
    intro s f₂ h1 h2
    match s, f₂ with
    | [], f₂ =>
      cases f₂ with
      | zero => simp at h2
      | succ g => simp [pyReplaceGo]
    | c :: rest, g + 1 =>
      have hplen : 1 ≤ pat.length := List.length_pos.mpr hpat
      show (if pat.isPrefixOf (c :: rest) then
              rep ++ pyReplaceGo pat rep f ((c :: rest).drop pat.length)
            else c :: pyReplaceGo pat rep f rest) =
           (if pat.isPrefixOf (c :: rest) then
              rep ++ pyReplaceGo pat rep g ((c :: rest).drop pat.length)
            else c :: pyReplaceGo pat rep g rest)
      by_cases hpre : pat.isPrefixOf (c :: rest)
      · rw [if_pos hpre, if_pos hpre,
          ih ((c :: rest).drop pat.length) g
            (by simp only [List.length_drop]; simp at h1 ⊢; omega)
            (by simp only [List.length_drop]; simp at h2 ⊢; omega)]
      · rw [if_neg hpre, if_neg hpre,
          ih rest g (by simp at h1; omega) (by simp at h2; omega)]

/-- Fuelled form: a single-character replacement is a `flatMap`. -/
theorem pyReplaceGo_single (p : Char) (rep : List Char) :
    ∀ fuel, ∀ s : List Char, s.length < fuel →
      pyReplaceGo [p] rep fuel s = s.flatMap fun c => if c = p then rep else [c] := by
  intro fuel
  induction fuel with
  | zero => intro s h; omega
  | succ f ih =>
    intro s h
    match s with
    | [] => simp [pyReplaceGo]
    | c :: rest =>
      show (if ([p] : List Char).isPrefixOf (c :: rest) then
              rep ++ pyReplaceGo [p] rep f ((c :: rest).drop 1)
            else c :: pyReplaceGo [p] rep f rest) = _
      by_cases hc : c = p
      · subst hc
        rw [if_pos (by simp [List.isPrefixOf])]
        simp only [List.drop_succ_cons, List.drop_zero]
        rw [ih rest (by simp at h; omega)]
        simp
      · rw [if_neg (by simp [List.isPrefixOf]; exact fun hpc => absurd hpc.symm hc)]
        rw [ih rest (by simp at h; omega)]
        simp [hc]

/-- `text.replace(p, rep)` for a one-character pattern, as a `flatMap`. -/
theorem pyReplace_single (p : Char) (rep s : List Char) :
    pyReplace s [p] rep = s.flatMap fun c => if c = p then rep else [c] := by
  show (if ([p] : List Char) = [] then s else pyReplaceGo [p] rep (s.length + 1) s) = _
  rw [if_neg (by simp)]
  exact pyReplaceGo_single p rep (s.length + 1) s (by omega)

/-- Per-character translation of a `multi_replace` whose patterns are all
single characters: apply the first pair to the character, then the remaining
pairs to each character of the result. -/
def multiHomo : List (List Char × List Char) → Char → List Char
  | [], c => [c]
  | (pat, rep) :: rest, c =>
      (if pat = [c] then rep else [c]).flatMap (multiHomo rest)

/-- A `multi_replace` whose patterns are all single characters is the
`flatMap` of the composed per-character translation. -/
theorem multiReplace_single (rs : List (List Char × List Char))
    (hs : ∀ pr ∈ rs, ∃ p, pr.1 = [p]) :
    ∀ s : List Char, multiReplace s rs = s.flatMap (multiHomo rs) := by
  induction rs with
  | nil =>
    intro s
    show s = s.flatMap (multiHomo [])
    have hmh : multiHomo [] = fun c => [c] := by
      funext c; rfl
    rw [hmh, List.flatMap_singleton']
  | cons pr rest ih =>
    intro s
    obtain ⟨p, hp⟩ := hs pr (List.mem_cons_self pr rest)
    obtain ⟨pat, rep⟩ := pr
    simp only at hp
    subst hp
    have h1 : multiReplace s (([p], rep) :: rest) =
        multiReplace (pyReplace s [p] rep) rest := rfl
    rw [h1, ih (fun q hq => hs q (List.mem_cons_of_mem _ hq)), pyReplace_single,
      List.flatMap_assoc]
    congr 1
    funext c
    show (if c = p then rep else [c]).flatMap (multiHomo rest) =
        (if ([p] : List Char) = [c] then rep else [c]).flatMap (multiHomo rest)
    by_cases hc : c = p
    · subst hc; simp
    · rw [if_neg hc,
        if_neg (by simp only [List.cons.injEq, and_true]; exact fun hd => hc hd.symm)]

/-- The per-character translation performed by `roman2int`'s two
transliteration passes (unicode-to-ASCII followed by the reversed
alternatives table). -/
def romanU2AHomo : Char → List Char :=
  multiHomo (ROMAN_UNICODE_TO_ASCII ++ ROMAN_ALTERNATIVES_R)

/-- The two `multi_replace` passes of `roman2int` act character by
character. -/
theorem roman2int_translit (t : List Char) :
    multiReplace (multiReplace t ROMAN_UNICODE_TO_ASCII) ROMAN_ALTERNATIVES_R
      = t.flatMap romanU2AHomo := by
  have hfold : multiReplace (multiReplace t ROMAN_UNICODE_TO_ASCII) ROMAN_ALTERNATIVES_R
      = multiReplace t (ROMAN_UNICODE_TO_ASCII ++ ROMAN_ALTERNATIVES_R) := by
    simp [multiReplace, List.foldl_append]
  rw [hfold,
    multiReplace_single _ (by intro pr hpr; fin_cases hpr <;> exact ⟨_, rfl⟩) t]
  rfl

/-- Fuelled form of the ligature-merge commutation: replacing a
two-character pattern by a character whose translation equals the
translation of the pattern does not change the translated text. -/
theorem flatMap_pyReplaceGo_pair (H : Char → List Char) (a b m : Char)
    (hm : H m = H a ++ H b) :
    ∀ fuel, ∀ s : List Char, s.length < fuel →
      (pyReplaceGo [a, b] [m] fuel s).flatMap H = s.flatMap H := by
  intro fuel
  induction fuel with
  | zero => intro s h; omega
  | succ f ih =>
    intro s h
    match s with
    | [] => simp [pyReplaceGo]
    | c :: rest =>
      show ((if ([a, b] : List Char).isPrefixOf (c :: rest) then
              [m] ++ pyReplaceGo [a, b] [m] f ((c :: rest).drop 2)
            else c :: pyReplaceGo [a, b] [m] f rest)).flatMap H = _
      cases hpre : ([a, b] : List Char).isPrefixOf (c :: rest) with
      | true =>
        rw [if_pos rfl]
        cases rest with
        | nil => simp [List.isPrefixOf] at hpre
        | cons b' rest₂ =>
          simp only [List.isPrefixOf, Bool.and_true, Bool.and_eq_true, beq_iff_eq] at hpre
          obtain ⟨rfl, rfl⟩ := hpre
          simp only [List.drop_succ_cons, List.drop_zero]
          rw [List.flatMap_append, ih rest₂ (by simp at h; omega)]
          simp [hm, List.append_assoc]
      | false =>
        rw [if_neg (by simp)]
        simp only [List.flatMap_cons]
        rw [ih rest (by simp at h; omega)]

/-- A two-character replacement commutes with any character translation
that maps the merged character to the translation of the replaced pair. -/
theorem flatMap_pyReplace_pair (H : Char → List Char) (a b m : Char)
    (hm : H m = H a ++ H b) (s : List Char) :
    (pyReplace s [a, b] [m]).flatMap H = s.flatMap H := by
  show ((if ([a, b] : List Char) = [] then s
         else pyReplaceGo [a, b] [m] (s.length + 1) s)).flatMap H = _
  rw [if_neg (by simp)]
  exact flatMap_pyReplaceGo_pair H a b m hm (s.length + 1) s (by omega)

/-- A replacement whose pattern does not start with the head character
leaves that head character in place. -/
theorem pyReplace_cons_ne (c a b : Char) (m : List Char) (hca : a ≠ c)
    (s : List Char) :
    pyReplace (c :: s) [a, b] m = c :: pyReplace s [a, b] m := by
  show (if ([a, b] : List Char) = [] then c :: s
        else pyReplaceGo [a, b] m (s.length + 1 + 1) (c :: s)) = _
  rw [if_neg (by simp)]
  show (if ([a, b] : List Char).isPrefixOf (c :: s) then
          m ++ pyReplaceGo [a, b] m (s.length + 1) ((c :: s).drop 2)
        else c :: pyReplaceGo [a, b] m (s.length + 1) s) = _
  rw [if_neg (by
    simp only [List.isPrefixOf, Bool.and_eq_true, beq_iff_eq]
    exact fun hp => hca hp.1)]
  show _ = c :: (if ([a, b] : List Char) = [] then s
                 else pyReplaceGo [a, b] m (s.length + 1) s)
  rw [if_neg (by simp)]

/-- Characters produced by `pyReplaceGo` come from the input or the
replacement text. -/
theorem mem_pyReplaceGo (pat rep : List Char) :
    ∀ fuel, ∀ s : List Char, ∀ c, c ∈ pyReplaceGo pat rep fuel s →
      c ∈ s ∨ c ∈ rep := by
  intro fuel
  induction fuel with
  | zero => intro s c hc; exact Or.inl hc
  | succ f ih =>
    intro s c hc
    match s with
    | [] => simp [pyReplaceGo] at hc
    | d :: rest =>
      by_cases hpre : pat.isPrefixOf (d :: rest)
      · rw [show pyReplaceGo pat rep (f + 1) (d :: rest) =
            rep ++ pyReplaceGo pat rep f ((d :: rest).drop pat.length) by
              show (if pat.isPrefixOf (d :: rest) then _ else _) = _
              rw [if_pos hpre]] at hc
        rcases List.mem_append.mp hc with hcr | hcrec
        · exact Or.inr hcr
        · rcases ih _ c hcrec with hcs | hcr
          · exact Or.inl (List.drop_subset _ _ hcs)
          · exact Or.inr hcr
      · rw [show pyReplaceGo pat rep (f + 1) (d :: rest) =
            d :: pyReplaceGo pat rep f rest by
              show (if pat.isPrefixOf (d :: rest) then _ else _) = _
              rw [if_neg hpre]] at hc
        rcases List.mem_cons.mp hc with rfl | hcrec
        · exact Or.inl (List.mem_cons_self _ _)
        · rcases ih rest c hcrec with hcs | hcr
          · exact Or.inl (List.mem_cons_of_mem _ hcs)
          · exact Or.inr hcr

/-- Characters produced by `pyReplace` come from the input or the
replacement text. -/
theorem mem_pyReplace (pat rep s : List Char) (c : Char)
    (hc : c ∈ pyReplace s pat rep) : c ∈ s ∨ c ∈ rep := by
  unfold pyReplace at hc
  by_cases hp : pat = []
  · rw [if_pos hp] at hc; exact Or.inl hc
  · rw [if_neg hp] at hc; exact mem_pyReplaceGo pat rep _ s c hc

/-! ## The alphabet of standard-range encoder output -/

/-- The uppercase Unicode Roman numeral glyphs the standard-range loop can
emit. -/
def romanGlyphs : List Char :=
  ['Ⅿ', 'Ⅾ', 'Ⅽ', 'Ⅼ', 'Ⅹ', 'Ⅸ', 'Ⅷ', 'Ⅶ', 'Ⅵ', 'Ⅴ', 'Ⅳ', 'Ⅲ', 'Ⅱ', 'Ⅰ']

/-- The same glyphs together with the two ligatures introduced by the
post-processing merge. -/
def romanGlyphsLig : List Char :=
  ['Ⅿ', 'Ⅾ', 'Ⅽ', 'Ⅼ', 'Ⅹ', 'Ⅸ', 'Ⅷ', 'Ⅶ', 'Ⅵ', 'Ⅴ', 'Ⅳ', 'Ⅲ', 'Ⅱ', 'Ⅰ', 'Ⅺ', 'Ⅻ']

/-- A map that fixes every character of a list fixes the list. -/
theorem map_id_of_mem {f : Char → Char} :
    ∀ {s : List Char}, (∀ c ∈ s, f c = c) → s.map f = s := by
  intro s
  induction s with
  | nil => intro _; rfl
  | cons c rest ih =>
    intro h
    simp only [List.map_cons, h c (List.mem_cons_self c rest),
      ih fun d hd => h d (List.mem_cons_of_mem _ hd)]

/-- Stripping a whitespace-free text is the identity (membership form). -/
theorem pyStrip_id_of_mem {s : List Char}
    (h : ∀ c ∈ s, c ∈ romanGlyphsLig ∨ c = '-') : pyStrip s = s := by
  apply pyStrip_eq_self
  intro c hc
  rcases h c hc with hg | rfl
  · fin_cases hg <;> decide
  · decide

/-- Uppercasing fixes every character the encoder's standard range can
produce, the sign included. -/
theorem pyUpper_id_of_mem {s : List Char}
    (h : ∀ c ∈ s, c ∈ romanGlyphsLig ∨ c = '-') : s.map pyUpper = s := by
  apply map_id_of_mem
  intro c hc
  rcases h c hc with hg | rfl
  · fin_cases hg <;> decide
  · decide

/-- Membership facts for the thousands part of a standard rendering. -/
theorem uniThousands_mem (a : Nat) : ∀ c ∈ uniThousands a, c ∈ romanGlyphs := by
  intro c hc
  rw [uniThousands, List.mem_replicate] at hc
  rw [hc.2]; decide

/-- Membership facts for the hundreds part of a standard rendering. -/
theorem uniHundreds_mem (h : Nat) (hh : h ≤ 9) :
    ∀ c ∈ uniHundreds h, c ∈ romanGlyphs := by
  interval_cases h <;> decide

/-- Membership facts for the tens part of a standard rendering. -/
theorem uniTens_mem (t : Nat) (ht : t ≤ 9) :
    ∀ c ∈ uniTens t, c ∈ romanGlyphs := by
  interval_cases t <;> decide

/-- Membership facts for the units part of a standard rendering. -/
theorem uniUnits_mem (u : Nat) (hu : u ≤ 9) :
    ∀ c ∈ uniUnits u, c ∈ romanGlyphs := by
  interval_cases u <;> decide

/-! ## ASCII transliteration of each digit group -/

/-- ASCII facts for the thousands group: its characters and its value under
the decoding scan. -/
theorem uniThousands_ascii (a : Nat) (ha : a ≤ 3) :
    (∀ c ∈ (uniThousands a).flatMap romanU2AHomo, c = 'M') ∧
      romanArithScan ((uniThousands a).flatMap romanU2AHomo) = ((1000 * a : Nat) : Int) := by
  interval_cases a <;> exact ⟨by decide, by decide⟩

/-- ASCII facts for the hundreds group. -/
theorem uniHundreds_ascii (h : Nat) (hh : h ≤ 9) :
    (∀ c ∈ (uniHundreds h).flatMap romanU2AHomo, c = 'C' ∨ c = 'D') ∧
      romanArithScan ((uniHundreds h).flatMap romanU2AHomo) = ((100 * h : Nat) : Int) := by
  interval_cases h <;> exact ⟨by decide, by decide⟩

/-- ASCII facts for the tens group. -/
theorem uniTens_ascii (t : Nat) (ht : t ≤ 9) :
    (∀ c ∈ (uniTens t).flatMap romanU2AHomo, c = 'X' ∨ c = 'L') ∧
      romanArithScan ((uniTens t).flatMap romanU2AHomo) = ((10 * t : Nat) : Int) := by
  interval_cases t <;> exact ⟨by decide, by decide⟩

/-- ASCII facts for the units group. -/
theorem uniUnits_ascii (u : Nat) (hu : u ≤ 9) :
    (∀ c ∈ (uniUnits u).flatMap romanU2AHomo, c = 'I' ∨ c = 'V' ∨ c = 'X') ∧
      romanArithScan ((uniUnits u).flatMap romanU2AHomo) = ((u : Nat) : Int) := by
  interval_cases u <;> exact ⟨by decide, by decide⟩

/-! ## Additivity of the decoding scan over value-sorted groups -/

/-- The decoding scan splits over an append when no character of the second
part has a strictly greater value than any character of the first part. -/
theorem romanArithScan_append (g1 g2 : List Char)
    (hb : ∀ c ∈ g1, ∀ d ∈ g2, romanAsciiVal d ≤ romanAsciiVal c) :
    romanArithScan (g1 ++ g2) = romanArithScan g1 + romanArithScan g2 := by
  induction g1 with
  | nil => simp [romanArithScan]
  | cons c g1' ih =>
    have hc := hb c (List.mem_cons_self c g1')
    have hany : (g2.any fun d => romanAsciiVal c < romanAsciiVal d) = false := by
      rw [List.any_eq_false]
      intro d hd
      simp only [decide_eq_true_eq, not_lt]
      exact hc d hd
    show (if ((g1' ++ g2).any fun d => romanAsciiVal c < romanAsciiVal d) = true then
            -(romanAsciiVal c : Int) else (romanAsciiVal c : Int)) +
          romanArithScan (g1' ++ g2) = _
    rw [List.any_append, hany, Bool.or_false,
      ih fun x hx => hb x (List.mem_cons_of_mem _ hx)]
    show _ = (if (g1'.any fun d => romanAsciiVal c < romanAsciiVal d) = true then
            -(romanAsciiVal c : Int) else (romanAsciiVal c : Int)) +
          romanArithScan g1' + romanArithScan g2
    rw [add_assoc]

/-! ## The encoder output for one standard-range number, merged and decoded -/

/-- The default (uppercase Unicode) text `int2roman` produces for the
standard rendering of a positive number: the raw loop output with the
`ⅩⅠ`/`ⅩⅡ` ligature merge applied. -/
def romanMerged (a h t u : Nat) : List Char :=
  multiReplace (uniThousands a ++ uniHundreds h ++ uniTens t ++ uniUnits u)
    [(['Ⅹ', 'Ⅰ'], ['Ⅺ']), (['Ⅹ', 'Ⅱ'], ['Ⅻ'])]

/-- Every glyph is also in the extended (ligature) glyph list. -/
theorem romanGlyphs_sub : ∀ c ∈ romanGlyphs, c ∈ romanGlyphsLig := by decide

/-- All characters of the merged rendering are Roman numeral glyphs. -/
theorem romanMerged_mem (a h t u : Nat) (hh : h ≤ 9) (ht : t ≤ 9) (hu : u ≤ 9) :
    ∀ c ∈ romanMerged a h t u, c ∈ romanGlyphsLig := by
  intro c hc
  have h2 : romanMerged a h t u =
      pyReplace (pyReplace (uniThousands a ++ uniHundreds h ++ uniTens t ++ uniUnits u)
        ['Ⅹ', 'Ⅰ'] ['Ⅺ']) ['Ⅹ', 'Ⅱ'] ['Ⅻ'] := rfl
  rw [h2] at hc
  rcases mem_pyReplace _ _ _ c hc with hc1 | hc2
  · rcases mem_pyReplace _ _ _ c hc1 with hc0 | hcl
    · rcases List.mem_append.mp hc0 with hc0 | hU
      · rcases List.mem_append.mp hc0 with hc0 | hX
        · rcases List.mem_append.mp hc0 with hT | hH
          · exact romanGlyphs_sub c (uniThousands_mem a c hT)
          · exact romanGlyphs_sub c (uniHundreds_mem h hh c hH)
        · exact romanGlyphs_sub c (uniTens_mem t ht c hX)
      · exact romanGlyphs_sub c (uniUnits_mem u hu c hU)
    · rw [List.mem_singleton.mp hcl]; decide
  · rw [List.mem_singleton.mp hc2]; decide

/-- The ligature merge does not change the ASCII transliteration. -/
theorem romanMerged_flatMap (a h t u : Nat) :
    (romanMerged a h t u).flatMap romanU2AHomo =
      (uniThousands a ++ uniHundreds h ++ uniTens t ++ uniUnits u).flatMap romanU2AHomo := by
  have h2 : romanMerged a h t u =
      pyReplace (pyReplace (uniThousands a ++ uniHundreds h ++ uniTens t ++ uniUnits u)
        ['Ⅹ', 'Ⅰ'] ['Ⅺ']) ['Ⅹ', 'Ⅱ'] ['Ⅻ'] := rfl
  rw [h2, flatMap_pyReplace_pair _ _ _ _ (by decide),
    flatMap_pyReplace_pair _ _ _ _ (by decide)]

/-- Post-processing of the loop output at the default options: the ligature
merge followed by (identity) uppercasing, with and without the sign. -/
theorem i2rPost_render (a h t u : Nat) (hh : h ≤ 9) (ht : t ≤ 9) (hu : u ≤ 9) :
    i2rPost (uniThousands a ++ uniHundreds h ++ uniTens t ++ uniUnits u)
        false false true [] = romanMerged a h t u ∧
    i2rPost ('-' :: (uniThousands a ++ uniHundreds h ++ uniTens t ++ uniUnits u))
        false false true [] = '-' :: romanMerged a h t u := by
  constructor
  · show (romanMerged a h t u).map pyUpper = romanMerged a h t u
    exact pyUpper_id_of_mem fun c hc => Or.inl (romanMerged_mem a h t u hh ht hu c hc)
  · show (multiReplace ('-' :: (uniThousands a ++ uniHundreds h ++ uniTens t ++ uniUnits u))
        [(['Ⅹ', 'Ⅰ'], ['Ⅺ']), (['Ⅹ', 'Ⅱ'], ['Ⅻ'])]).map pyUpper = _
    have hm1 : multiReplace ('-' :: (uniThousands a ++ uniHundreds h ++ uniTens t ++ uniUnits u))
        [(['Ⅹ', 'Ⅰ'], ['Ⅺ']), (['Ⅹ', 'Ⅱ'], ['Ⅻ'])] = '-' :: romanMerged a h t u := by
      show pyReplace (pyReplace ('-' :: (uniThousands a ++ uniHundreds h ++ uniTens t ++ uniUnits u))
        ['Ⅹ', 'Ⅰ'] ['Ⅺ']) ['Ⅹ', 'Ⅱ'] ['Ⅻ'] = _
      rw [pyReplace_cons_ne _ _ _ _ (by decide), pyReplace_cons_ne _ _ _ _ (by decide)]
      rfl
    rw [hm1]
    exact pyUpper_id_of_mem (by
      intro c hc
      rcases List.mem_cons.mp hc with rfl | hcm
      · exact Or.inr rfl
      · exact Or.inl (romanMerged_mem a h t u hh ht hu c hcm))

/-- Decoding the merged rendering of a standard-range number at default
options returns its value, with and without the sign prefix. -/
theorem roman2int_merged (a h t u : Nat) (ha : a ≤ 3) (hh : h ≤ 9) (ht : t ≤ 9)
    (hu : u ≤ 9) :
    roman2int (romanMerged a h t u) false '-' =
      .ok ((1000 * a + 100 * h + 10 * t + u : Nat) : Int) ∧
    roman2int ('-' :: romanMerged a h t u) false '-' =
      .ok (-((1000 * a + 100 * h + 10 * t + u : Nat) : Int)) := by
  have hmem : ∀ c ∈ romanMerged a h t u, c ∈ romanGlyphsLig :=
    romanMerged_mem a h t u hh ht hu
  have hstrip : pyStrip (romanMerged a h t u) = romanMerged a h t u :=
    pyStrip_id_of_mem fun c hc => Or.inl (hmem c hc)
  have hupper : (romanMerged a h t u).map pyUpper = romanMerged a h t u :=
    pyUpper_id_of_mem fun c hc => Or.inl (hmem c hc)
  have hdash : '-' ∉ romanMerged a h t u := fun hd => by
    have hgl := hmem '-' hd
    revert hgl; decide
  have hmem2 : ∀ c ∈ '-' :: romanMerged a h t u, c ∈ romanGlyphsLig ∨ c = '-' := by
    intro c hc
    rcases List.mem_cons.mp hc with rfl | hcm
    · exact Or.inr rfl
    · exact Or.inl (hmem c hcm)
  have hstrip2 : pyStrip ('-' :: romanMerged a h t u) = '-' :: romanMerged a h t u :=
    pyStrip_id_of_mem hmem2
  have hupper2 : ('-' :: romanMerged a h t u).map pyUpper = '-' :: romanMerged a h t u :=
    pyUpper_id_of_mem hmem2
  have hnorm1 : roman2intNormalize (romanMerged a h t u) '-' =
      (uniThousands a ++ uniHundreds h ++ uniTens t ++ uniUnits u).flatMap romanU2AHomo := by
    simp only [roman2intNormalize, hstrip, hupper]
    rw [if_neg fun hcond => hdash hcond.1, roman2int_translit, romanMerged_flatMap]
  have hnorm2 : roman2intNormalize ('-' :: romanMerged a h t u) '-' =
      (uniThousands a ++ uniHundreds h ++ uniTens t ++ uniUnits u).flatMap romanU2AHomo := by
    simp only [roman2intNormalize, hstrip2, hupper2]
    rw [if_pos ⟨List.mem_cons_self _ _, rfl⟩]
    show multiReplace (multiReplace (romanMerged a h t u) ROMAN_UNICODE_TO_ASCII)
      ROMAN_ALTERNATIVES_R = _
    rw [roman2int_translit, romanMerged_flatMap]
  have hsgn1 : roman2intSign (romanMerged a h t u) '-' = 1 := by
    simp only [roman2intSign, hstrip, hupper]
    rw [if_neg fun hcond => hdash hcond.1]
  have hsgn2 : roman2intSign ('-' :: romanMerged a h t u) '-' = -1 := by
    simp only [roman2intSign, hstrip2, hupper2]
    rw [if_pos ⟨List.mem_cons_self _ _, rfl⟩]
  obtain ⟨hTm, hTv⟩ := uniThousands_ascii a ha
  obtain ⟨hHm, hHv⟩ := uniHundreds_ascii h hh
  obtain ⟨hXm, hXv⟩ := uniTens_ascii t ht
  obtain ⟨hUm, hUv⟩ := uniUnits_ascii u hu
  have hsplit : (uniThousands a ++ uniHundreds h ++ uniTens t ++ uniUnits u).flatMap romanU2AHomo
      = (uniThousands a).flatMap romanU2AHomo ++ ((uniHundreds h).flatMap romanU2AHomo ++
        ((uniTens t).flatMap romanU2AHomo ++ (uniUnits u).flatMap romanU2AHomo)) := by
    simp [List.flatMap_append]
  have hAmem : ∀ c ∈ (uniThousands a ++ uniHundreds h ++ uniTens t ++ uniUnits u).flatMap
      romanU2AHomo, c = 'M' ∨ c = 'C' ∨ c = 'D' ∨ c = 'X' ∨ c = 'L' ∨ c = 'I' ∨ c = 'V' := by
    intro c hc
    rw [hsplit] at hc
    rcases List.mem_append.mp hc with h1 | hc
    · exact Or.inl (hTm c h1)
    rcases List.mem_append.mp hc with h2 | hc
    · rcases hHm c h2 with rfl | rfl
      · exact Or.inr (Or.inl rfl)
      · exact Or.inr (Or.inr (Or.inl rfl))
    rcases List.mem_append.mp hc with h3 | h4
    · rcases hXm c h3 with rfl | rfl
      · exact Or.inr (Or.inr (Or.inr (Or.inl rfl)))
      · exact Or.inr (Or.inr (Or.inr (Or.inr (Or.inl rfl))))
    · rcases hUm c h4 with rfl | rfl | rfl
      · exact Or.inr (Or.inr (Or.inr (Or.inr (Or.inr (Or.inl rfl)))))
      · exact Or.inr (Or.inr (Or.inr (Or.inr (Or.inr (Or.inr rfl)))))
      · exact Or.inr (Or.inr (Or.inr (Or.inl rfl)))
  have hvalid : ((uniThousands a ++ uniHundreds h ++ uniTens t ++ uniUnits u).flatMap
      romanU2AHomo).all romanValidChars.contains = true := by
    rw [List.all_eq_true]
    intro c hc
    rcases hAmem c hc with rfl | rfl | rfl | rfl | rfl | rfl | rfl <;> decide
  have hN : romanZero ∉ (uniThousands a ++ uniHundreds h ++ uniTens t ++ uniUnits u).flatMap
      romanU2AHomo := fun hc => by
    have hor := hAmem 'N' hc
    revert hor; decide
  have hO : 'O' ∉ (uniThousands a ++ uniHundreds h ++ uniTens t ++ uniUnits u).flatMap
      romanU2AHomo := fun hc => by
    have hor := hAmem 'O' hc
    revert hor; decide
  have hne : (uniThousands a ++ uniHundreds h ++ uniTens t ++ uniUnits u).flatMap
      romanU2AHomo ≠ [romanZero] := fun hEq => hN (by rw [hEq]; decide)
  have hb3 : ∀ c ∈ (uniTens t).flatMap romanU2AHomo,
      ∀ d ∈ (uniUnits u).flatMap romanU2AHomo, romanAsciiVal d ≤ romanAsciiVal c := by
    intro c hc d hd
    rcases hXm c hc with rfl | rfl <;> rcases hUm d hd with rfl | rfl | rfl <;> decide
  have hb2 : ∀ c ∈ (uniHundreds h).flatMap romanU2AHomo,
      ∀ d ∈ (uniTens t).flatMap romanU2AHomo ++ (uniUnits u).flatMap romanU2AHomo,
        romanAsciiVal d ≤ romanAsciiVal c := by
    intro c hc d hd
    rcases List.mem_append.mp hd with hd1 | hd2
    · rcases hHm c hc with rfl | rfl <;> rcases hXm d hd1 with rfl | rfl <;> decide
    · rcases hHm c hc with rfl | rfl <;> rcases hUm d hd2 with rfl | rfl | rfl <;> decide
  have hb1 : ∀ c ∈ (uniThousands a).flatMap romanU2AHomo,
      ∀ d ∈ (uniHundreds h).flatMap romanU2AHomo ++
        ((uniTens t).flatMap romanU2AHomo ++ (uniUnits u).flatMap romanU2AHomo),
        romanAsciiVal d ≤ romanAsciiVal c := by
    intro c hc d hd
    have hcM := hTm c hc
    subst hcM
    rcases List.mem_append.mp hd with hd1 | hd
    · rcases hHm d hd1 with rfl | rfl <;> decide
    rcases List.mem_append.mp hd with hd2 | hd3
    · rcases hXm d hd2 with rfl | rfl <;> decide
    · rcases hUm d hd3 with rfl | rfl | rfl <;> decide
  have hval : romanArithScan ((uniThousands a ++ uniHundreds h ++ uniTens t ++ uniUnits u).flatMap
      romanU2AHomo) = ((1000 * a + 100 * h + 10 * t + u : Nat) : Int) := by
    rw [hsplit, romanArithScan_append _ _ hb1, romanArithScan_append _ _ hb2,
      romanArithScan_append _ _ hb3, hTv, hHv, hXv, hUv]
    push_cast
    ring
  constructor
  · simp only [roman2int]
    rw [hnorm1, hsgn1, if_pos hvalid, if_pos hne, if_neg hN, if_neg hO,
      if_pos (Or.inl trivial), hval, one_mul]
  · simp only [roman2int]
    rw [hnorm2, hsgn2, if_pos hvalid, if_pos hne, if_neg hN, if_neg hO,
      if_pos (Or.inl trivial), hval, neg_one_mul]

/-- The loop iterations spent on the hundreds digit are at most its value. -/
theorem hSteps_le (h : Nat) (hh : h ≤ 9) : hSteps h ≤ 100 * h := by
  interval_cases h <;> decide

/-- The loop iterations spent on the tens digit are at most its value. -/
theorem tSteps_le (t : Nat) (ht : t ≤ 9) : tSteps t ≤ 10 * t := by
  interval_cases t <;> decide

/-- The loop iterations spent on the units digit are at most its value. -/
theorem uSteps_le (u : Nat) (hu : u ≤ 9) : uSteps u ≤ u := by
  interval_cases u <;> decide

/-- Unfolding `int2roman` at the default options for a nonzero
standard-range magnitude, given the loop result. -/
theorem int2roman_std (n' : Nat) (h0 : n' ≠ 0) (T : List Char)
    (hloop : i2rLoop 3 true false (n' + 2) ⟨n', [], none, 0, none⟩ = some (.ok T)) :
    int2roman (n' : Int) false false true true false [] true '-' =
      some (.ok (i2rPost T false false true [])) ∧
    int2roman (-(n' : Int)) false false true true false [] true '-' =
      some (.ok (i2rPost ('-' :: T) false false true [])) := by
  constructor
  · have hpos : ¬ ((n' : Int) < 0) := by omega
    simp only [int2roman]
    rw [if_neg fun hc => by simp at hc, if_neg hpos,
      if_neg (show ¬ ((n' : Int).natAbs = 0) by omega)]
    rw [show ((n' : Int).natAbs) = n' by omega,
      show (if (false : Bool) = true then 4 else 3) = 3 from rfl, hloop]
    rfl
  · have hneg : (-(n' : Int)) < 0 := by omega
    simp only [int2roman]
    rw [if_neg fun hc => by simp at hc, if_pos hneg,
      if_neg (show ¬ ((-(n' : Int)).natAbs = 0) by omega)]
    rw [show ((-(n' : Int)).natAbs) = n' by omega,
      show (if (false : Bool) = true then 4 else 3) = 3 from rfl, hloop]
    rfl

/-- C2: for every integer `n` in `[-3999, 3999]`, decoding the Roman
encoding of `n` with both calls at their default options returns `n`:
`roman2int(int2roman(n)) == n`, including `n = 0` (encoded as the zero
symbol `'N'`) and negative `n` (which carry the `'-'` sign prefix). -/
theorem C2_roman_roundtrip (n : Int) (hlo : -3999 ≤ n) (hhi : n ≤ 3999) :
    ∃ t : List Char,
      int2roman n false false true true false [] true '-' = some (.ok t) ∧
      roman2int t false '-' = .ok n := by
  by_cases hz : n = 0
  · subst hz
    exact ⟨['N'], by decide, by decide⟩
  · obtain ⟨a, dh, dt, du, hdig, ha, hh, ht, hu⟩ :
        ∃ a dh dt du, n.natAbs = 1000 * a + 100 * dh + 10 * dt + du ∧
          a ≤ 3 ∧ dh ≤ 9 ∧ dt ≤ 9 ∧ du ≤ 9 :=
      ⟨n.natAbs / 1000, n.natAbs / 100 % 10, n.natAbs / 10 % 10, n.natAbs % 10,
        by omega, by omega, by omega, by omega, by omega⟩
    have hs1 := hSteps_le dh hh
    have hs2 := tSteps_le dt ht
    have hs3 := uSteps_le du hu
    have hge : 1 ≤ n.natAbs := by omega
    have hfe : (n.natAbs + 2 - (a + hSteps dh + tSteps dt + uSteps du + 1)) +
        (a + hSteps dh + tSteps dt + uSteps du + 1) = n.natAbs + 2 := by omega
    have hloop : i2rLoop 3 true false (n.natAbs + 2) ⟨n.natAbs, [], none, 0, none⟩ =
        some (.ok (uniThousands a ++ uniHundreds dh ++ uniTens dt ++ uniUnits du)) := by
      have hl := i2rLoop_digits true false a dh dt du ha hh ht hu
        (n.natAbs + 2 - (a + hSteps dh + tSteps dt + uSteps du + 1))
      rw [hfe, show 1000 * a + (100 * dh + (10 * dt + du)) = n.natAbs by omega] at hl
      exact hl
    obtain ⟨hencp, hencn⟩ := int2roman_std n.natAbs (by omega) _ hloop
    obtain ⟨hpostp, hpostn⟩ := i2rPost_render a dh dt du hh ht hu
    obtain ⟨hdecp, hdecn⟩ := roman2int_merged a dh dt du ha hh ht hu
    rcases lt_or_gt_of_ne hz with hneg | hpos
    · refine ⟨'-' :: romanMerged a dh dt du, ?_, ?_⟩
      · rw [show n = -((n.natAbs : Nat) : Int) by omega, hencn, hpostn]
      · rw [hdecn, show -(((1000 * a + 100 * dh + 10 * dt + du : Nat)) : Int) = n by omega]
    · refine ⟨romanMerged a dh dt du, ?_, ?_⟩
      · rw [show n = ((n.natAbs : Nat) : Int) by omega, hencp, hpostp]
      · rw [hdecp, show (((1000 * a + 100 * dh + 10 * dt + du : Nat)) : Int) = n by omega]

theorem C2_roman_roundtrip_witness :
    (-3999 ≤ (1666 : Int) ∧ (1666 : Int) ≤ 3999) ∧
      ∃ t : List Char,
        int2roman 1666 false false true true false [] true '-' = some (.ok t) ∧
        roman2int t false '-' = .ok 1666 :=
  ⟨⟨by decide, by decide⟩, C2_roman_roundtrip 1666 (by decide) (by decide)⟩

/-! ## The greedy lookahead rule, stated positionally as in the spec -/

/-- Index-based statement of the spec's greedy lookahead rule: the symbol at
position `i` is subtracted from the total when some position `j > i` holds a
symbol of strictly greater value, otherwise added. -/
def specScan (t : List Char) : Int :=
  ((List.range t.length).map fun i =>
      if (List.range t.length).any fun j =>
            decide (i < j) &&
              decide (romanAsciiVal (t.getD i 'N') < romanAsciiVal (t.getD j 'N'))
      then -(romanAsciiVal (t.getD i 'N') : Int)
      else (romanAsciiVal (t.getD i 'N') : Int)).sum

/-- Quantifying over positions equals quantifying over elements. -/
theorem any_range_getD (t : List Char) (f : Char → Bool) :
    ((List.range t.length).any fun j => f (t.getD j 'N')) = t.any f := by
  rw [Bool.eq_iff_iff]
  simp only [List.any_eq_true, List.mem_range]
  constructor
  · rintro ⟨j, hj, hf⟩
    rw [List.getD_eq_getElem t 'N' hj] at hf
    exact ⟨t[j], List.getElem_mem hj, hf⟩
  · rintro ⟨x, hx, hf⟩
    obtain ⟨j, hj, hxe⟩ := List.mem_iff_getElem.mp hx
    exact ⟨j, hj, by rw [List.getD_eq_getElem t 'N' hj, hxe]; exact hf⟩

/-- Unfolding of the positional rule at a cons. -/
theorem specScan_cons (c : Char) (rest : List Char) :
    specScan (c :: rest) =
      (if rest.any fun d => romanAsciiVal c < romanAsciiVal d then
          -(romanAsciiVal c : Int) else (romanAsciiVal c : Int)) + specScan rest := by
  unfold specScan
  rw [List.length_cons, List.range_succ_eq_map]
  simp only [List.map_cons, List.sum_cons, List.any_cons, List.map_map, List.any_map,
    Function.comp_def, List.getD_cons_zero, List.getD_cons_succ, Nat.lt_irrefl,
    decide_False, Bool.false_and, Bool.false_or, Nat.zero_lt_succ, decide_True,
    Bool.true_and, Nat.succ_lt_succ_iff, Nat.not_lt_zero, Nat.add_lt_add_iff_right]
  rw [any_range_getD rest fun d => decide (romanAsciiVal c < romanAsciiVal d)]

/-- The left-to-right scan of `roman2int` implements exactly the positional
greedy lookahead rule. -/
theorem romanArithScan_eq_specScan : ∀ t : List Char, romanArithScan t = specScan t := by
  intro t
  induction t with
  | nil => rfl
  | cons c rest ih =>
    rw [romanArithScan, specScan_cons, ih]

/-- C3: whenever lenient `roman2int` returns a value, that value is the sign
times the positional greedy-lookahead sum of the normalized ASCII text
(scanning left to right, a symbol is subtracted when a strictly
greater-valued symbol occurs later, otherwise added); in particular the four
quoted literals decode as claimed. -/
theorem C3_lenient_scan (text : List Char) (v : Int)
    (hok : roman2int text false '-' = .ok v) :
    v = roman2intSign text '-' * specScan (roman2intNormalize text '-') ∧
    roman2int ['M', 'D', 'C', 'L', 'X', 'V', 'I'] false '-' = .ok 1666 ∧
    roman2int ['I', 'C'] false '-' = .ok 99 ∧
    roman2int ['I', 'I', 'M'] false '-' = .ok 998 ∧
    roman2int ['V', 'L'] false '-' = .ok 45 := by
  refine ⟨?_, by decide, by decide, by decide, by decide⟩
  rw [← romanArithScan_eq_specScan]
  simp only [roman2int] at hok
  by_cases h1 : (roman2intNormalize text '-').all romanValidChars.contains = true
  · rw [if_pos h1] at hok
    by_cases h2 : roman2intNormalize text '-' ≠ [romanZero]
    · rw [if_pos h2] at hok
      by_cases h3 : romanZero ∈ roman2intNormalize text '-'
      · rw [if_pos h3] at hok; exact absurd hok (by simp)
      · rw [if_neg h3] at hok
        by_cases h4 : 'O' ∈ roman2intNormalize text '-'
        · rw [if_pos h4] at hok; exact absurd hok (by simp)
        · rw [if_neg h4, if_pos (Or.inl trivial)] at hok
          exact (Except.ok.inj hok).symm
    · rw [if_neg h2] at hok
      rw [not_not.mp h2]
      have hs : romanArithScan [romanZero] = 0 := by decide
      rw [hs, mul_zero]
      have hv := Except.ok.inj hok
      rw [← hv, mul_zero]
  · rw [if_neg h1] at hok; exact absurd hok (by simp)

theorem C3_lenient_scan_witness :
    (1666 : Int) = roman2intSign ['M', 'D', 'C', 'L', 'X', 'V', 'I'] '-' *
        specScan (roman2intNormalize ['M', 'D', 'C', 'L', 'X', 'V', 'I'] '-') ∧
    roman2int ['M', 'D', 'C', 'L', 'X', 'V', 'I'] false '-' = .ok 1666 ∧
    roman2int ['I', 'C'] false '-' = .ok 99 ∧
    roman2int ['I', 'I', 'M'] false '-' = .ok 998 ∧
    roman2int ['V', 'L'] false '-' = .ok 45 :=
  C3_lenient_scan ['M', 'D', 'C', 'L', 'X', 'V', 'I'] 1666 (by decide)

/-! ## Which errors the encoding loop can produce -/

/-- Zeta-expanded equation of one scan step (definitionally equal to the
definition; stated so the branches can be rewritten one by one). -/
theorem i2rScan_cons (mc val : Nat) (key : Char) (rest : List (Nat × Char))
    (s : I2RState) :
    i2rScan mc ((val, key) :: rest) s =
      if val ≠ 0 ∧ val ≤ s.num ∧ val ∉ [11, 12] then
        if (if some key = s.last then s.consec + 1 else 0) < mc then
          .ok { s with text := s.text ++ [key], num := s.num - val,
                       last := some key,
                       consec := if some key = s.last then s.consec + 1 else 0 }
        else
          match s.prev with
          | some p =>
              .ok { s with text := s.text.take (s.text.length - (mc - 1)) ++ [p],
                           num := s.num - val,
                           consec := if some key = s.last then s.consec + 1 else 0 }
          | none => .error .noPrevKey
      else
        i2rScan mc rest { s with prev := if val ∉ [11, 12] then some key else s.prev } :=
  rfl

/-- The only error one standard-range scan can raise is the (unreachable)
`prev_key is None` type error. -/
theorem i2rScan_error (mc : Nat) :
    ∀ l s e, i2rScan mc l s = .error e → e = .noPrevKey := by
  intro l
  induction l with
  | nil => intro s e he; simp [i2rScan] at he
  | cons p rest ih =>
    intro s e he
    obtain ⟨val, key⟩ := p
    rw [i2rScan_cons] at he
    by_cases hcnd : val ≠ 0 ∧ val ≤ s.num ∧ val ∉ [11, 12]
    · rw [if_pos hcnd] at he
      by_cases hlt : (if some key = s.last then s.consec + 1 else 0) < mc
      · rw [if_pos hlt] at he
        exact absurd he (by simp)
      · rw [if_neg hlt] at he
        cases hp : s.prev with
        | some q => rw [hp] at he; exact absurd he (by simp)
        | none => rw [hp] at he; exact (Except.error.inj he).symm
    · rw [if_neg hcnd] at he
      exact ih _ e he

/-- A standard-range scan never increases the remaining amount. -/
theorem i2rScan_num_le (mc : Nat) :
    ∀ l s s', i2rScan mc l s = .ok s' → s'.num ≤ s.num := by
  intro l
  induction l with
  | nil =>
    intro s s' he
    simp [i2rScan] at he
    rw [← he]
  | cons p rest ih =>
    intro s s' he
    obtain ⟨val, key⟩ := p
    rw [i2rScan_cons] at he
    by_cases hcnd : val ≠ 0 ∧ val ≤ s.num ∧ val ∉ [11, 12]
    · rw [if_pos hcnd] at he
      by_cases hlt : (if some key = s.last then s.consec + 1 else 0) < mc
      · rw [if_pos hlt] at he
        rw [← Except.ok.inj he]
        exact Nat.sub_le _ _
      · rw [if_neg hlt] at he
        cases hp : s.prev with
        | some q =>
          rw [hp] at he
          rw [← Except.ok.inj he]
          exact Nat.sub_le _ _
        | none => rw [hp] at he; exact absurd he (by simp)
    · rw [if_neg hcnd] at he
      have hrec := ih _ _ he
      exact hrec

/-- With `extended` set, the encoding loop never raises any error other than
the `prev_key` type error. -/
theorem i2rLoop_ext_no_config (mc : Nat) (cl : Bool) (e : PyErr)
    (hns : e ≠ .noPrevKey) :
    ∀ fuel s, i2rLoop mc true cl fuel s ≠ some (.error e) := by
  intro fuel
  induction fuel with
  | zero => intro s h; simp [i2rLoop] at h
  | succ f ih =>
    intro s h
    rw [i2rLoop] at h
    by_cases h0 : s.num = 0
    · rw [if_pos h0] at h; simp at h
    · rw [if_neg h0] at h
      by_cases hth : s.num < 1000 * (mc + 1)
      · rw [if_pos hth] at h
        cases hscan : i2rScan mc ROMAN_UNICODE_R s with
        | error e' =>
          rw [hscan] at h
          simp at h
          exact hns (by rw [← h]; exact i2rScan_error mc _ _ _ hscan)
        | ok s' =>
          rw [hscan] at h
          exact ih s' h
      · rw [if_neg hth, if_pos rfl] at h
        exact ih _ h

/-- Without `extended`, the encoding loop started below the standard-range
bound never raises any error other than the `prev_key` type error. -/
theorem i2rLoop_std_no_config (mc : Nat) (cl : Bool) (e : PyErr)
    (hns : e ≠ .noPrevKey) :
    ∀ fuel s, s.num < 1000 * (mc + 1) →
      i2rLoop mc false cl fuel s ≠ some (.error e) := by
  intro fuel
  induction fuel with
  | zero => intro s _ h; simp [i2rLoop] at h
  | succ f ih =>
    intro s hnum h
    rw [i2rLoop] at h
    by_cases h0 : s.num = 0
    · rw [if_pos h0] at h; simp at h
    · rw [if_neg h0, if_pos hnum] at h
      cases hscan : i2rScan mc ROMAN_UNICODE_R s with
      | error e' =>
        rw [hscan] at h
        simp at h
        exact hns (by rw [← h]; exact i2rScan_error mc _ _ _ hscan)
      | ok s' =>
        rw [hscan] at h
        exact ih s' (lt_of_le_of_lt (i2rScan_num_le mc _ _ _ hscan) hnum) h

/-- When none of the three configuration conditions holds, `int2roman` does
not return the corresponding errors. -/
theorem int2roman_no_config_of (num : Int) (oa oadd ext uc cl sg : Bool)
    (alts : List (List Char × List Char)) (ns : Char)
    (hc1 : ¬(num < 0 ∧ sg = false)) (hc2 : ¬(ext = false ∧ num = 0))
    (hc3 : ¬(ext = false ∧ 1000 * ((if oadd = true then 4 else 3) + 1) ≤ num.natAbs))
    (e : PyErr) (he : e = .needsSigned ∨ e = .needsExtended) :
    int2roman num oa oadd ext uc cl alts sg ns ≠ some (.error e) := by
  intro herr
  simp only [int2roman] at herr
  rw [if_neg hc1] at herr
  by_cases h0 : num.natAbs = 0
  · rw [if_pos h0] at herr
    have hext : ext = true := by
      cases ext with
      | false => exact absurd ⟨rfl, by omega⟩ hc2
      | true => rfl
    subst hext
    simp at herr
  · rw [if_neg h0] at herr
    cases hloop : i2rLoop (if oadd = true then 4 else 3) ext cl (num.natAbs + 2)
        ⟨num.natAbs, [], none, 0, none⟩ with
    | none => rw [hloop] at herr; simp at herr
    | some x =>
      cases x with
      | ok T => rw [hloop] at herr; simp at herr
      | error e' =>
        rw [hloop] at herr
        simp at herr
        rw [herr] at hloop
        cases ext with
        | true =>
          exact i2rLoop_ext_no_config _ cl e
            (by rcases he with rfl | rfl <;> decide) _ _ hloop
        | false =>
          have hnb : ¬ (1000 * ((if oadd = true then 4 else 3) + 1) ≤ num.natAbs) :=
            fun hb => hc3 ⟨rfl, hb⟩
          exact i2rLoop_std_no_config _ cl e
            (by rcases he with rfl | rfl <;> decide) _ _
            (by show num.natAbs < 1000 * ((if oadd = true then 4 else 3) + 1); omega) hloop

/-- C5: `int2roman` raises a configuration error (`needsSigned` or
`needsExtended`) exactly when the number is negative without `signed`, or
`extended` is unset and the number is zero, or `extended` is unset and the
magnitude is at or above `max_standard * (max_consecutive + 1)`, i.e. 4000
in subtractive and 5000 in additive-only mode. -/
theorem C5_configuration_error (num : Int) (oa oadd ext uc cl sg : Bool)
    (alts : List (List Char × List Char)) (ns : Char) :
    (int2roman num oa oadd ext uc cl alts sg ns = some (.error .needsSigned) ∨
     int2roman num oa oadd ext uc cl alts sg ns = some (.error .needsExtended)) ↔
    ((num < 0 ∧ sg = false) ∨ (ext = false ∧ num = 0) ∨
     (ext = false ∧ 1000 * ((if oadd = true then 4 else 3) + 1) ≤ num.natAbs)) := by
  constructor
  · intro herr
    by_contra hcond
    rw [not_or, not_or] at hcond
    obtain ⟨hc1, hc2, hc3⟩ := hcond
    rcases herr with h | h
    · exact int2roman_no_config_of num oa oadd ext uc cl sg alts ns hc1 hc2 hc3
        .needsSigned (Or.inl rfl) h
    · exact int2roman_no_config_of num oa oadd ext uc cl sg alts ns hc1 hc2 hc3
        .needsExtended (Or.inr rfl) h
  · intro hcond
    rcases hcond with ⟨hneg, hsg⟩ | ⟨hext, hzero⟩ | ⟨hext, hbig⟩
    · left
      simp only [int2roman]
      rw [if_pos ⟨hneg, hsg⟩]
    · right
      subst hzero hext
      simp only [int2roman]
      rw [if_neg (fun hcontr => by exact absurd hcontr.1 (by omega))]
      rw [if_pos (show ((0 : Int)).natAbs = 0 from rfl)]
      rfl
    · by_cases hns2 : num < 0 ∧ sg = false
      · left
        simp only [int2roman]
        rw [if_pos hns2]
      · right
        subst hext
        simp only [int2roman]
        rw [if_neg hns2]
        have hnz : ¬ num.natAbs = 0 := by omega
        rw [if_neg hnz]
        have hstep : i2rLoop (if oadd = true then 4 else 3) false cl (num.natAbs + 2)
            ⟨num.natAbs, [], none, 0, none⟩ = some (.error .needsExtended) := by
          rw [show num.natAbs + 2 = (num.natAbs + 1) + 1 from rfl, i2rLoop]
          rw [if_neg (show ¬ (⟨num.natAbs, [], none, 0, none⟩ : I2RState).num = 0 from hnz)]
          have hth : ¬ ((⟨num.natAbs, [], none, 0, none⟩ : I2RState).num <
              1000 * ((if oadd = true then 4 else 3) + 1)) := by
            show ¬ num.natAbs < 1000 * ((if oadd = true then 4 else 3) + 1)
            omega
          rw [if_neg hth]
          rfl
        rw [hstep]

/-! ## Decoder error precedence and blank inputs -/

/-- C6 (counterexample): the claim quantifies over every input whose
normalized text contains `'O'` and not the zero symbol, but an invalid
character elsewhere in the text takes precedence: `"ZO"` satisfies the
claim's conditions yet raises the invalid-characters `ValueError`, not
`UnsupportedError`, in both modes. -/
theorem C6_counterexample :
    'O' ∈ roman2intNormalize ['Z', 'O'] '-' ∧
    romanZero ∉ roman2intNormalize ['Z', 'O'] '-' ∧
    roman2int ['Z', 'O'] false '-' = .error .invalidChars ∧
    roman2int ['Z', 'O'] true '-' = .error .invalidChars ∧
    PyErr.invalidChars ≠ PyErr.unsupported := by decide

/-- C6 (amended): for every input whose normalized text consists of valid
characters only, contains the Claudian ASCII stand-in `'O'` and does not
contain the zero symbol, `roman2int` raises `UnsupportedError` (distinct
from a format error), in both lenient and strict mode. -/
theorem C6_claudian_unsupported (text : List Char) (strict : Bool)
    (hvalid : (roman2intNormalize text '-').all romanValidChars.contains = true)
    (hO : 'O' ∈ roman2intNormalize text '-')
    (hN : romanZero ∉ roman2intNormalize text '-') :
    roman2int text strict '-' = .error .unsupported := by
  have hne : roman2intNormalize text '-' ≠ [romanZero] :=
    fun hEq => hN (by rw [hEq]; decide)
  simp only [roman2int]
  rw [if_pos hvalid, if_pos hne, if_neg hN, if_pos hO]

theorem C6_claudian_unsupported_witness :
    ((roman2intNormalize ['C', 'C', 'D', 'O'] '-').all romanValidChars.contains = true ∧
     'O' ∈ roman2intNormalize ['C', 'C', 'D', 'O'] '-' ∧
     romanZero ∉ roman2intNormalize ['C', 'C', 'D', 'O'] '-') ∧
    roman2int ['C', 'C', 'D', 'O'] true '-' = .error .unsupported :=
  ⟨⟨by decide, by decide, by decide⟩,
    C6_claudian_unsupported ['C', 'C', 'D', 'O'] true (by decide) (by decide) (by decide)⟩

/-- C7: with `strict` set, `roman2int` raises the format error exactly when
the normalized text consists of valid characters, contains neither the zero
symbol nor the Claudian stand-in, and fails to match the strict grammar
`^M{0,3}(CM|CD|D?C{0,3})(XC|XL|L?X{0,3})(IX|IV|V?I{0,3})$`; in particular
strict `roman2int("MMMMMM")` raises the format error while the lenient call
returns 6000. -/
theorem C7_strict_format (text : List Char) :
    (roman2int text true '-' = .error .formatInvalid ↔
      ((roman2intNormalize text '-').all romanValidChars.contains = true ∧
       romanZero ∉ roman2intNormalize text '-' ∧
       'O' ∉ roman2intNormalize text '-' ∧
       romanStrictMatch (roman2intNormalize text '-') = false)) ∧
    roman2int ['M', 'M', 'M', 'M', 'M', 'M'] true '-' = .error .formatInvalid ∧
    roman2int ['M', 'M', 'M', 'M', 'M', 'M'] false '-' = .ok 6000 := by
  refine ⟨?_, by decide, by decide⟩
  constructor
  · intro herr
    simp only [roman2int] at herr
    by_cases h1 : (roman2intNormalize text '-').all romanValidChars.contains = true
    · rw [if_pos h1] at herr
      by_cases h2 : roman2intNormalize text '-' ≠ [romanZero]
      · rw [if_pos h2] at herr
        by_cases h3 : romanZero ∈ roman2intNormalize text '-'
        · rw [if_pos h3] at herr; exact absurd herr (by decide)
        · rw [if_neg h3] at herr
          by_cases h4 : 'O' ∈ roman2intNormalize text '-'
          · rw [if_pos h4] at herr; exact absurd herr (by decide)
          · rw [if_neg h4] at herr
            by_cases h5 : romanStrictMatch (roman2intNormalize text '-') = true
            · rw [if_pos (Or.inr h5)] at herr; exact absurd herr (by simp)
            · exact ⟨h1, h3, h4, by simpa using h5⟩
      · rw [if_neg h2] at herr; exact absurd herr (by simp)
    · rw [if_neg h1] at herr; exact absurd herr (by decide)
  · rintro ⟨h1, h3, h4, h5⟩
    have h2 : roman2intNormalize text '-' ≠ [romanZero] :=
      fun hEq => h3 (by rw [hEq]; decide)
    have h6 : ¬ ((true : Bool) = false ∨
        romanStrictMatch (roman2intNormalize text '-') = true) := by
      rintro (hc | hc)
      · exact absurd hc (by decide)
      · rw [h5] at hc; exact absurd hc (by decide)
    simp only [roman2int]
    rw [if_pos h1, if_pos h2, if_neg h3, if_neg h4, if_neg h6]

/-- C9: there is a standard-range number — 900, whose ASCII encoding is
`DCD` — on which the encoder's subtractive backtracking produces output the
strict grammar rejects: strict decoding of the encoder output raises the
format error while lenient decoding of the same text returns the number. -/
theorem C9_backtracking_strict_reject :
    ∃ n : Nat, 1 ≤ n ∧ n ≤ 3999 ∧
      int2roman (n : Int) true false true true false [] true '-' =
        some (.ok ['D', 'C', 'D']) ∧
      roman2int ['D', 'C', 'D'] true '-' = .error .formatInvalid ∧
      roman2int ['D', 'C', 'D'] false '-' = .ok (n : Int) :=
  ⟨900, by decide, by decide, by decide, by decide, by decide⟩

/-- Stripping an all-whitespace text yields the empty text. -/
theorem pyStrip_eq_nil {s : List Char} (h : ∀ c ∈ s, pyIsSpace c = true) :
    pyStrip s = [] := by
  unfold pyStrip
  rw [List.dropWhile_eq_nil_iff.mpr h]
  rfl

/-- C10: every decoder maps an empty or whitespace-only input to 0 without
raising: `tokens2int` for every token set that does not contain the sign as
a token, `letter2int` for every alphabet that does not contain the sign,
and `roman2int` in both modes. -/
theorem C10_blank_input_zero (text : List Char) (hws : ∀ c ∈ text, pyIsSpace c = true)
    (tokens : List (List Char)) (alphabet : List Char) (strict : Bool)
    (htok : ['-'] ∉ tokens) (halph : ('-' : Char) ∉ alphabet) :
    tokens2int text tokens '-' = some (.ok 0) ∧
    letter2int text alphabet '-' = .ok 0 ∧
    roman2int text strict '-' = .ok 0 := by
  have hstrip : pyStrip text = [] := pyStrip_eq_nil hws
  refine ⟨?_, ?_, ?_⟩
  · simp only [tokens2int, hstrip]
    rw [if_neg htok, if_neg (fun hc => by simp at hc),
      if_neg (show ¬ ('-' : Char) ∈ ([] : List Char) by simp),
      if_pos (show ([] : List Char).all (tokensChars tokens).contains = true from rfl)]
    have hl : t2iLoop tokens (List.length ([] : List Char) + 1) ⟨[], 0, 0, true⟩ =
        some 0 := rfl
    rw [hl]
    simp
  · simp only [letter2int, hstrip]
    rw [if_neg halph, if_neg (fun hc => by simp at hc),
      if_neg (show ¬ ('-' : Char) ∈ ([] : List Char) by simp),
      if_pos (show ([] : List Char).all alphabet.contains = true from rfl)]
    simp [letterValAux]
  · have hnorm : roman2intNormalize text '-' = [] := by
      simp only [roman2intNormalize, hstrip, List.map_nil]
      rw [if_neg (fun hc => by simp at hc)]
      rfl
    have hsgn : roman2intSign text '-' = 1 := by
      simp only [roman2intSign, hstrip, List.map_nil]
      rw [if_neg (fun hc => by simp at hc)]
    simp only [roman2int]
    rw [hnorm, hsgn,
      if_pos (show ([] : List Char).all romanValidChars.contains = true from rfl),
      if_pos (by decide : ([] : List Char) ≠ [romanZero]),
      if_neg (by simp : ¬ romanZero ∈ ([] : List Char)),
      if_neg (by simp : ¬ 'O' ∈ ([] : List Char)),
      if_pos (Or.inr (by decide : romanStrictMatch [] = true))]
    simp [romanArithScan]

theorem C10_blank_input_zero_witness :
    ((∀ c ∈ [' '], pyIsSpace c = true) ∧ (['-'] : List Char) ∉ [['a'], ['b']] ∧
      ('-' : Char) ∉ asciiLowercase) ∧
    (tokens2int [' '] [['a'], ['b']] '-' = some (.ok 0) ∧
     letter2int [' '] asciiLowercase '-' = .ok 0 ∧
     roman2int [' '] true '-' = .ok 0) :=
  ⟨⟨by decide, by decide, by decide⟩,
    C10_blank_input_zero [' '] (by decide) [['a'], ['b']] asciiLowercase true
      (by decide) (by decide)⟩

end Numeral


